import Mathlib

/-!
# Verification of the `tiny-collections-rs` B-tree map

A shallow embedding of `src/btreemap/node.rs`, `src/btreemap/map.rs` and
`src/btreemap/map/stack.rs` into Lean, together with theorems settling the
specification claims.

Modelling conventions:

* `Node<K, V>` (`node.rs`) holds three `Vec`s: `keys`, `vals`, `edges`.
  We embed it as a mutual inductive `Node`/`Forest` (a `Forest` is the list
  of child nodes), so that all recursive functions are structural and
  compute by `rfl`.
* `Node::capacity()` reads `self.keys.capacity()`.  Every `keys` vector in
  the program is created with capacity `2*b-1` (`make_leaf_root`,
  `new_internal` via `make_internal_root`, and the `split` helper which
  creates the right vector `with_capacity(left.capacity())`), and no
  operation ever pushes past that capacity, so the capacity is a run-time
  constant of the map.  We therefore pass it to each function as an explicit
  `cap : Nat` argument.
* Rust panics (failed `assert!`, out-of-bounds `Vec` indexing / `remove` /
  `unwrap`) are modelled by an `Option` result (or a dedicated `panic`
  constructor), with `none`/`panic` meaning the operation aborts.
  `debug_assert!` compiles to nothing in release builds; the assertion in
  `absorb` is modelled separately as a proposition (`absorb_assertion`).
* The imperative search-stack loops of `map.rs`/`stack.rs` are embedded as
  recursive descent: each level's call returns the `Fit`/`Split` (resp.
  underflow) outcome to its caller, which is exactly the propagation the
  explicit stack performs (the stack records the parent and child index of
  every level visited, and the loops pop it one level at a time).
-/

mutual

/-- Embeds `struct Node<K, V>` of `node.rs`: `keys: Vec<K>`, `vals: Vec<V>`,
`edges: Vec<Node<K, V>>`. -/
inductive Node (K V : Type) where
  | mk (keys : List K) (vals : List V) (edges : Forest K V)

/-- The `edges` vector of a node: a list of child nodes, given as a mutual
inductive so that recursion over the tree is structural. -/
inductive Forest (K V : Type) where
  | nil
  | cons (hd : Node K V) (tl : Forest K V)

end

namespace Forest

variable {K V : Type}

/-- `Vec::len` of the `edges` vector. -/
def length : Forest K V → Nat
  | .nil => 0
  | .cons _ tl => tl.length + 1

/-- `Vec` indexing (`edges.get(i)` / `edges[i]`). -/
def get? : Forest K V → Nat → Option (Node K V)
  | .nil, _ => none
  | .cons hd _, 0 => some hd
  | .cons _ tl, i + 1 => tl.get? i

/-- Replace the child at an index (models writing through `edges[i]`). -/
def set : Forest K V → Nat → Node K V → Forest K V
  | .nil, _, _ => .nil
  | .cons _ tl, 0, n => .cons n tl
  | .cons hd tl, i + 1, n => .cons hd (tl.set i n)

/-- `Vec::insert(i, n)` on the `edges` vector. -/
def insertIdx : Forest K V → Nat → Node K V → Forest K V
  | f, 0, n => .cons n f
  | .nil, _ + 1, _ => .nil
  | .cons hd tl, i + 1, n => .cons hd (tl.insertIdx i n)

/-- `Vec::remove(i)` on the `edges` vector (dropping the removed element). -/
def eraseIdx : Forest K V → Nat → Forest K V
  | .nil, _ => .nil
  | .cons _ tl, 0 => tl
  | .cons hd tl, i + 1 => .cons hd (tl.eraseIdx i)

/-- `Vec::pop` on the `edges` vector: the last element, if any. -/
def getLast? : Forest K V → Option (Node K V)
  | .nil => none
  | .cons hd .nil => some hd
  | .cons _ (.cons hd tl) => getLast? (.cons hd tl)

/-- The `edges` vector with its last element removed (the other half of
`Vec::pop`). -/
def dropLast : Forest K V → Forest K V
  | .nil => .nil
  | .cons _ .nil => .nil
  | .cons hd (.cons hd' tl) => .cons hd (dropLast (.cons hd' tl))

/-- `Vec::extend`: append one `edges` vector to another. -/
def append : Forest K V → Forest K V → Forest K V
  | .nil, g => g
  | .cons hd tl, g => .cons hd (tl.append g)

/-- `Vec::is_empty` on the `edges` vector. -/
def isEmpty : Forest K V → Bool
  | .nil => true
  | .cons _ _ => false

/-- Take the first `i` children (used by the `split` helper). -/
def take : Forest K V → Nat → Forest K V
  | _, 0 => .nil
  | .nil, _ + 1 => .nil
  | .cons hd tl, i + 1 => .cons hd (tl.take i)

/-- Drop the first `i` children (used by the `split` helper). -/
def drop : Forest K V → Nat → Forest K V
  | f, 0 => f
  | .nil, _ + 1 => .nil
  | .cons _ tl, i + 1 => tl.drop i

/-- View the children as a plain list (specification-side only). -/
def toList : Forest K V → List (Node K V)
  | .nil => []
  | .cons hd tl => hd :: tl.toList

end Forest

/-- Embeds `enum SearchResult` of `node.rs`. -/
inductive SearchResult where
  | Found (i : Nat)
  | GoDown (i : Nat)
deriving DecidableEq, Repr

namespace Node

variable {K V : Type}

/-- The `keys` field. -/
def keys : Node K V → List K
  | .mk ks _ _ => ks

/-- The `vals` field. -/
def vals : Node K V → List V
  | .mk _ vs _ => vs

/-- The `edges` field. -/
def edges : Node K V → Forest K V
  | .mk _ _ es => es

/-- `Node::len`: `self.keys.len()`. -/
def len (n : Node K V) : Nat := n.keys.length

/-- `Node::is_leaf`: `self.edges.is_empty()`. -/
def is_leaf (n : Node K V) : Bool := n.edges.isEmpty

end Node

/-- `fn capacity_from_b(b) -> usize { 2 * b - 1 }` of `node.rs`. -/
def capacity_from_b (b : Nat) : Nat := 2 * b - 1

/-- `fn min_load_from_capacity(capacity) -> usize { capacity / 2 }` of
`node.rs` (the comment there notes this equals `b - 1`). -/
def min_load_from_capacity (capacity : Nat) : Nat := capacity / 2

namespace Node

variable {K V : Type}

/-- `Node::is_full`: `self.len() == self.capacity()`, with the capacity
passed explicitly (see the module docstring). -/
def is_full (cap : Nat) (n : Node K V) : Bool := n.len == cap

/-- `Node::is_underfull`: `self.keys.len() < min_load_from_capacity(self.capacity())`. -/
def is_underfull (cap : Nat) (n : Node K V) : Bool :=
  n.len < min_load_from_capacity cap

/-- `Node::new_leaf` (capacity is tracked externally, so only the empty
vectors remain). -/
def new_leaf : Node K V := .mk [] [] .nil

/-- `Node::make_leaf_root`. -/
def make_leaf_root : Node K V := new_leaf

/-- The loop body of `Node::search_linear`: scan `keys` left to right,
comparing each stored key `k` with the probe via `k.cmp(key)`; `i` is the
index of the head of the remaining list. -/
def searchLinearGo [LinearOrder K] (key : K) : List K → Nat → SearchResult
  | [], i => .GoDown i
  | k :: ks, i =>
    match compare k key with
    | .lt => searchLinearGo key ks (i + 1)
    | .eq => .Found i
    | .gt => .GoDown i

/-- `Node::search_linear` of `node.rs`. -/
def search_linear [LinearOrder K] (n : Node K V) (key : K) : SearchResult :=
  searchLinearGo key n.keys 0

/-- `Node::search`: delegates to `search_linear` (`search_binary` is
`unimplemented!`). -/
def search [LinearOrder K] (n : Node K V) (key : K) : SearchResult :=
  n.search_linear key

/-- `Node::insert_fit_as_leaf`: insert the pair at `index` in `keys`/`vals`. -/
def insert_fit_as_leaf (n : Node K V) (index : Nat) (key : K) (val : V) :
    Node K V :=
  .mk (n.keys.insertIdx index key) (n.vals.insertIdx index val) n.edges

/-- `Node::insert_fit_as_internal`: additionally insert the new right child
at edge index `index + 1`. -/
def insert_fit_as_internal (n : Node K V) (index : Nat) (key : K) (val : V)
    (right : Node K V) : Node K V :=
  .mk (n.keys.insertIdx index key) (n.vals.insertIdx index val)
    (n.edges.insertIdx (index + 1) right)

/-- `Node::remove_as_leaf`: `(self.keys.remove(index), self.vals.remove(index))`,
returning the removed pair and the shrunken node; `none` models the panic of
`Vec::remove` on an out-of-range index. -/
def remove_as_leaf (n : Node K V) (index : Nat) :
    Option (K × V × Node K V) :=
  match n.keys.get? index, n.vals.get? index with
  | some k, some v =>
    some (k, v, .mk (n.keys.eraseIdx index) (n.vals.eraseIdx index) n.edges)
  | _, _ => none

end Node

/-- The `fn split<T>(left: &mut Vec<T>) -> Vec<T>` helper of `node.rs`:
`right_len = len / 2`, the left keeps `len - right_len` elements, the right
receives the rest.  Returns `(new left, right)`. -/
def splitList {α : Type} (l : List α) : List α × List α :=
  (l.take (l.length - l.length / 2), l.drop (l.length - l.length / 2))

/-- The same helper applied to an `edges` vector. -/
def splitForest {K V : Type} (f : Forest K V) : Forest K V × Forest K V :=
  (f.take (f.length - f.length / 2), f.drop (f.length - f.length / 2))

namespace Node

variable {K V : Type}

/-- `Node::split`: split `keys`/`vals` (and `edges` unless empty) with the
`split` helper, then pop the last left pair as the promoted median.
Returns `(median key, median value, shrunken self, right sibling)`;
`none` models the `unwrap` panic when the node is empty. -/
def split (n : Node K V) : Option (K × V × Node K V × Node K V) :=
  let rKeys := (splitList n.keys).2
  let lKeys := (splitList n.keys).1
  let rVals := (splitList n.vals).2
  let lVals := (splitList n.vals).1
  let lr : Forest K V × Forest K V :=
    if n.edges.isEmpty then (.nil, .nil) else splitForest n.edges
  match lKeys.getLast?, lVals.getLast? with
  | some key, some val =>
    some (key, val, .mk lKeys.dropLast lVals.dropLast lr.1,
      .mk rKeys rVals lr.2)
  | _, _ => none

/-- `Node::make_internal_root`: the old root becomes the left child of a
fresh internal root holding the promoted pair and the new right sibling. -/
def make_internal_root (oldRoot : Node K V) (key : K) (value : V)
    (right : Node K V) : Node K V :=
  .mk [key] [value] (.cons oldRoot (.cons right .nil))

end Node

/-- Embeds `enum InsertionResult` of `node.rs` (the `Split` payload carries
the promoted pair and the new right sibling). -/
inductive InsertionResult (K V : Type) where
  | Fit
  | Split (key : K) (val : V) (right : Node K V)

namespace Node

variable {K V : Type}

/-- `Node::insert_as_leaf` (the returned raw value pointer of the Rust code
is only used to hand a reference back to the caller and is dropped here).
The updated `self` is returned alongside the `InsertionResult`. -/
def insert_as_leaf (cap : Nat) (n : Node K V) (index : Nat) (key : K)
    (value : V) : Option (Node K V × InsertionResult K V) :=
  if ¬ n.is_full cap then
    some (n.insert_fit_as_leaf index key value, .Fit)
  else
    match n.split with
    | none => none
    | some (newKey, newVal, left, newRight) =>
      if index ≤ left.len then
        some (left.insert_fit_as_leaf index key value,
          .Split newKey newVal newRight)
      else
        some (left,
          .Split newKey newVal
            (newRight.insert_fit_as_leaf (index - left.len - 1) key value))

/-- `Node::insert_as_internal`. -/
def insert_as_internal (cap : Nat) (n : Node K V) (index : Nat) (key : K)
    (value : V) (right : Node K V) :
    Option (Node K V × InsertionResult K V) :=
  if ¬ n.is_full cap then
    some (n.insert_fit_as_internal index key value right, .Fit)
  else
    match n.split with
    | none => none
    | some (newKey, newVal, left, newRight) =>
      if index ≤ left.len then
        some (left.insert_fit_as_internal index key value right,
          .Split newKey newVal newRight)
      else
        some (left,
          .Split newKey newVal
            (newRight.insert_fit_as_internal (index - left.len - 1) key value
              right))

end Node

namespace Node

variable {K V : Type}

/-- `Node::absorb`: push the separating pair, then extend `keys`/`vals`/`edges`
with the absorbed right sibling's contents. -/
def absorb (n : Node K V) (key : K) (val : V) (right : Node K V) : Node K V :=
  .mk (n.keys ++ key :: right.keys) (n.vals ++ val :: right.vals)
    (n.edges.append right.edges)

/-- The `debug_assert!` guarding `Node::absorb`:
`self.len() + right.len() <= self.capacity()`. -/
def absorb_assertion (cap : Nat) (n right : Node K V) : Prop :=
  n.len + right.len ≤ cap

/-- `Node::steal_to_left`: pop the left sibling's last key/value/edge, swap
the key/value with the parent's separating slot `i - 1`, and push the old
separating pair (and the popped edge) onto the front of the underflowed
child at `i`.  `none` models the `unreachable!`/unchecked-index failures. -/
def steal_to_left (n : Node K V) (i : Nat) : Option (Node K V) :=
  match n.edges.get? (i - 1) with
  | none => none
  | some left =>
    match left.keys.getLast?, left.vals.getLast? with
    | some k, some v =>
      let edge := left.edges.getLast?
      let left' : Node K V :=
        .mk left.keys.dropLast left.vals.dropLast left.edges.dropLast
      match n.keys.get? (i - 1), n.vals.get? (i - 1) with
      | some pk, some pv =>
        let ks' := n.keys.set (i - 1) k
        let vs' := n.vals.set (i - 1) v
        let es₁ := n.edges.set (i - 1) left'
        match es₁.get? i with
        | none => none
        | some right =>
          let right' : Node K V := .mk (pk :: right.keys) (pv :: right.vals)
            (match edge with
             | some e => .cons e right.edges
             | none => right.edges)
          some (.mk ks' vs' (es₁.set i right'))
      | _, _ => none
    | _, _ => none

/-- `Node::steal_to_right`: remove the right sibling's first key/value/edge,
swap the key/value with the parent's separating slot `i`, and push the old
separating pair (and the removed edge) onto the back of the underflowed
child at `i`. -/
def steal_to_right (n : Node K V) (i : Nat) : Option (Node K V) :=
  match n.edges.get? (i + 1) with
  | none => none
  | some right =>
    match right.keys, right.vals with
    | k :: rk, v :: rv =>
      let edgeRes : Option (Node K V) × Forest K V :=
        match right.edges with
        | .nil => (none, .nil)
        | .cons e es => (some e, es)
      let right' : Node K V := .mk rk rv edgeRes.2
      match n.keys.get? i, n.vals.get? i with
      | some pk, some pv =>
        let ks' := n.keys.set i k
        let vs' := n.vals.set i v
        let es₁ := n.edges.set (i + 1) right'
        match es₁.get? i with
        | none => none
        | some left =>
          let left' : Node K V := .mk (left.keys ++ [pk]) (left.vals ++ [pv])
            (match edgeRes.1 with
             | some e => left.edges.append (.cons e .nil)
             | none => left.edges)
          some (.mk ks' vs' (es₁.set i left'))
      | _, _ => none
    | _, _ => none

/-- `Node::merge_children`: remove the separating pair at `li` and the child
at `li + 1` from the parent, and let the child at `li` absorb them. -/
def merge_children (n : Node K V) (li : Nat) : Option (Node K V) :=
  match n.keys.get? li, n.vals.get? li, n.edges.get? (li + 1) with
  | some key, some val, some right =>
    let ks' := n.keys.eraseIdx li
    let vs' := n.vals.eraseIdx li
    let es' := n.edges.eraseIdx (li + 1)
    match es'.get? li with
    | none => none
    | some left => some (.mk ks' vs' (es'.set li (left.absorb key val right)))
  | _, _, _ => none

/-- `Node::handle_underflow_to_left`: steal from the left sibling if it has
more than minimum load, otherwise merge with it. -/
def handle_underflow_to_left (cap : Nat) (n : Node K V) (i : Nat) :
    Option (Node K V) :=
  match n.edges.get? (i - 1) with
  | none => none
  | some left =>
    if left.len > min_load_from_capacity cap then n.steal_to_left i
    else n.merge_children (i - 1)

/-- `Node::handle_underflow_to_right`: steal from the right sibling if it has
more than minimum load, otherwise merge with it. -/
def handle_underflow_to_right (cap : Nat) (n : Node K V) (i : Nat) :
    Option (Node K V) :=
  match n.edges.get? (i + 1) with
  | none => none
  | some right =>
    if right.len > min_load_from_capacity cap then n.steal_to_right i
    else n.merge_children i

/-- `Node::handle_underflow`: after `assert!(index <= self.len())` (failure
modelled by `none`), dispatch on `index > 0` to the left- or right-handed
fix-up. -/
def handle_underflow (cap : Nat) (n : Node K V) (i : Nat) :
    Option (Node K V) :=
  if i ≤ n.len then
    if i > 0 then handle_underflow_to_left cap n i
    else handle_underflow_to_right cap n i
  else none

end Node

/-- One step of the underflow-propagation loop of `SearchStack::remove`
(`stack.rs`): a popped `(parent, i)` with pending flag `uf` calls
`handle_underflow(i)` and recomputes the flag; a pop with no pending
underflow returns early, which we record as `stopped := true` (nothing at
higher levels runs, and in particular the root-collapse check is skipped). -/
def stepUnderflow {K V : Type} (cap : Nat) (parent : Node K V) (i : Nat)
    (stopped uf : Bool) : Option (Node K V × Bool × Bool) :=
  if stopped then some (parent, true, uf)
  else if uf then
    match Node.handle_underflow cap parent i with
    | none => none
    | some p' => some (p', false, p'.is_underfull cap)
  else some (parent, true, false)

/-- Result of removing the in-order minimum from a subtree (the `leafify`
descent plus the leaf removal and the underflow pops along that spine). -/
inductive TreeMin (K V : Type) where
  | panic
  | found (key : K) (val : V) (n : Node K V) (stopped uf : Bool)

/-- `TreeMin` with the subtree's parent forest already rebuilt. -/
inductive ForestMin (K V : Type) where
  | panic
  | found (key : K) (val : V) (f : Forest K V) (stopped uf : Bool)

mutual

/-- Remove the in-order minimum key/value from a subtree: `leafify` descends
through edge `0` pushing `(node, 0)` entries until a leaf, the leaf loses its
first pair (the swap in `leafify` puts the pair being deleted there and
`remove_as_leaf(0)` removes it), and the underflow pops run back up the
spine. -/
def Node.removeMin {K V : Type} (cap : Nat) : Node K V → TreeMin K V
  | .mk ks vs .nil =>
    -- no edge 0: this is a leaf
    match ks, vs with
    | k :: ks', v :: vs' =>
      .found k v (.mk ks' vs' .nil) false
        ((Node.mk ks' vs' Forest.nil).is_underfull cap)
    | _, _ => .panic
  | .mk ks vs (.cons c f) =>
    match Forest.removeMinAt cap (.cons c f) 0 with
    | none => .panic
    | some .panic => .panic
    | some (.found k v es' stopped uf) =>
      let n' : Node K V := .mk ks vs es'
      match stepUnderflow cap n' 0 stopped uf with
      | none => .panic
      | some (n'', st, u) => .found k v n'' st u

/-- Apply `Node.removeMin` to the child at the given index, rebuilding the
forest; `none` when the index is out of range. -/
def Forest.removeMinAt {K V : Type} (cap : Nat) :
    Forest K V → Nat → Option (ForestMin K V)
  | .nil, _ => none
  | .cons c f, 0 =>
    some (match Node.removeMin cap c with
      | .panic => .panic
      | .found k v c' st uf => .found k v (.cons c' f) st uf)
  | .cons c f, i + 1 =>
    match Forest.removeMinAt cap f i with
    | none => none
    | some .panic => some .panic
    | some (.found k v f' st uf) => some (.found k v (.cons c f') st uf)

end

/-- Result of `SearchStack::remove` on a subtree: the key was absent, a
panic occurred, or the value was removed, yielding the new subtree and the
state of the underflow-propagation loop. -/
inductive TreeDel (K V : Type) where
  | absent
  | panic
  | removed (val : V) (n : Node K V) (stopped uf : Bool)

/-- `TreeDel` with the parent forest already rebuilt. -/
inductive ForestDel (K V : Type) where
  | absent
  | panic
  | removed (val : V) (f : Forest K V) (stopped uf : Bool)

mutual

/-- The search loop of `BTreeMap::remove` plus `SearchStack::remove`,
phrased as recursive descent: search the node; on `Found(i)` run `leafify`
(if edge `i + 1` exists) and the removal, on `GoDown(i)` descend into edge
`i` (absent key if there is no such edge) and afterwards run this level's
underflow pop. -/
def Node.removeGo {K V : Type} [LinearOrder K] (cap : Nat) (key : K) :
    Node K V → TreeDel K V
  | .mk ks vs es =>
    match Node.search (.mk ks vs es) key with
    | .Found i =>
      match Forest.removeMinAt cap es (i + 1) with
      | none =>
        -- `leafify` saw no edge `i + 1`: remove in place via `remove_as_leaf(i)`
        match ks.get? i, vs.get? i with
        | some _, some v =>
          let n' : Node K V := .mk (ks.eraseIdx i) (vs.eraseIdx i) es
          .removed v n' false (n'.is_underfull cap)
        | _, _ => .panic
      | some .panic => .panic
      | some (.found k0 v0 es' stopped uf) =>
        -- `leafify` swapped the pair at slot `i` down into the leaf (whence
        -- it was removed); the subtree minimum `(k0, v0)` replaces it
        match ks.get? i, vs.get? i with
        | some _, some v =>
          let n' : Node K V := .mk (ks.set i k0) (vs.set i v0) es'
          match stepUnderflow cap n' (i + 1) stopped uf with
          | none => .panic
          | some (n'', st, u) => .removed v n'' st u
        | _, _ => .panic
    | .GoDown i =>
      match Forest.removeGoAt cap key es i with
      | none => .absent
      | some .absent => .absent
      | some .panic => .panic
      | some (.removed v es' stopped uf) =>
        let n' : Node K V := .mk ks vs es'
        match stepUnderflow cap n' i stopped uf with
        | none => .panic
        | some (n'', st, u) => .removed v n'' st u

/-- Apply `Node.removeGo` to the child at the given index, rebuilding the
forest; `none` when the index is out of range (the `push` returned `Done`,
so the key is absent). -/
def Forest.removeGoAt {K V : Type} [LinearOrder K] (cap : Nat) (key : K) :
    Forest K V → Nat → Option (ForestDel K V)
  | .nil, _ => none
  | .cons c f, 0 =>
    some (match Node.removeGo cap key c with
      | .panic => .panic
      | .absent => .absent
      | .removed v c' st uf => .removed v (.cons c' f) st uf)
  | .cons c f, i + 1 =>
    match Forest.removeGoAt cap key f i with
    | none => none
    | some .panic => some .panic
    | some .absent => some .absent
    | some (.removed v f' st uf) => some (.removed v (.cons c f') st uf)

end

/-- Result of inserting into a subtree: the key was found and its value
replaced, or a fresh pair was inserted (possibly still propagating a
split), or a panic occurred. -/
inductive TreeIns (K V : Type) where
  | panic
  | replaced (old : V) (n : Node K V)
  | inserted (n : Node K V) (res : InsertionResult K V)

/-- `TreeIns` with the parent forest already rebuilt. -/
inductive ForestIns (K V : Type) where
  | panic
  | replaced (old : V) (f : Forest K V)
  | inserted (f : Forest K V) (res : InsertionResult K V)

mutual

/-- The search loop of `BTreeMap::insert` plus `SearchStack::insert`,
phrased as recursive descent: on `Found(i)` replace the value in place; on
`GoDown(i)` descend into edge `i` if it exists (else insert here via
`insert_as_leaf`), and propagate a reported split into this node via
`insert_as_internal` at the recorded index. -/
def Node.insertGo {K V : Type} [LinearOrder K] (cap : Nat) (key : K)
    (val : V) : Node K V → TreeIns K V
  | .mk ks vs es =>
    match Node.search (.mk ks vs es) key with
    | .Found i =>
      match vs.get? i with
      | none => .panic
      | some old => .replaced old (.mk ks (vs.set i val) es)
    | .GoDown i =>
      match Forest.insertGoAt cap key val es i with
      | none =>
        match Node.insert_as_leaf cap (.mk ks vs es) i key val with
        | none => .panic
        | some (n', r) => .inserted n' r
      | some .panic => .panic
      | some (.replaced old es') => .replaced old (.mk ks vs es')
      | some (.inserted es' .Fit) => .inserted (.mk ks vs es') .Fit
      | some (.inserted es' (.Split k v right)) =>
        match Node.insert_as_internal cap (.mk ks vs es') i k v right with
        | none => .panic
        | some (n', r) => .inserted n' r

/-- Apply `Node.insertGo` to the child at the given index, rebuilding the
forest; `none` when the index is out of range (the `push` returned `Done`). -/
def Forest.insertGoAt {K V : Type} [LinearOrder K] (cap : Nat) (key : K)
    (val : V) : Forest K V → Nat → Option (ForestIns K V)
  | .nil, _ => none
  | .cons c f, 0 =>
    some (match Node.insertGo cap key val c with
      | .panic => .panic
      | .replaced old c' => .replaced old (.cons c' f)
      | .inserted c' r => .inserted (.cons c' f) r)
  | .cons c f, i + 1 =>
    match Forest.insertGoAt cap key val f i with
    | none => none
    | some .panic => some .panic
    | some (.replaced old f') => some (.replaced old (.cons c f'))
    | some (.inserted f' r) => some (.inserted (.cons c f') r)

end

mutual

/-- `BTreeMap::find`'s descent at the node level: pure read-only search. -/
def Node.find {K V : Type} [LinearOrder K] (key : K) :
    Node K V → Option V
  | .mk ks vs es =>
    match Node.search (.mk ks vs es) key with
    | .Found i => vs.get? i
    | .GoDown i => Forest.findAt key es i

/-- Continue `find` in the child at the given index. -/
def Forest.findAt {K V : Type} [LinearOrder K] (key : K) :
    Forest K V → Nat → Option V
  | .nil, _ => none
  | .cons c _, 0 => Node.find key c
  | .cons _ f, i + 1 => Forest.findAt key f i

end

/-- Embeds `struct BTreeMap<K, V>` of `map.rs`. -/
structure BTreeMap (K V : Type) where
  root : Node K V
  length : Nat
  depth : Nat
  b : Nat

namespace BTreeMap

variable {K V : Type}

/-- `BTreeMap::with_b`: `assert!(b > 1)` (failure modelled by `none`), then
an empty map: `length: 0`, `depth: 1`, `root: Node::make_leaf_root(b)`. -/
def with_b (b : Nat) : Option (BTreeMap K V) :=
  if b > 1 then
    some { root := Node.make_leaf_root, length := 0, depth := 1, b := b }
  else none

/-- `BTreeMap::new`: `with_b(6)`. -/
def new : Option (BTreeMap K V) := with_b 6

/-- `BTreeMap::find`. -/
def find [LinearOrder K] (m : BTreeMap K V) (key : K) : Option V :=
  Node.find key m.root

/-- `BTreeMap::insert`: run the descent; on a propagated split of the root,
`make_internal_root` and `map.depth += 1`; a fresh insertion does
`map.length += 1`. -/
def insert [LinearOrder K] (m : BTreeMap K V) (key : K) (value : V) :
    Option (Option V × BTreeMap K V) :=
  match Node.insertGo (capacity_from_b m.b) key value m.root with
  | .panic => none
  | .replaced old root' => some (some old, { m with root := root' })
  | .inserted root' .Fit =>
    some (none, { m with root := root', length := m.length + 1 })
  | .inserted root' (.Split k v right) =>
    some (none,
      { m with
        root := Node.make_internal_root root' k v right
        length := m.length + 1
        depth := m.depth + 1 })

/-- `BTreeMap::remove`: run the descent (`none, m` when the key is absent);
on success `map.length -= 1`, and if the propagation loop exhausted the
stack, the root-collapse check replaces an empty internal root by its popped
last edge and does `map.depth -= 1`. -/
def remove [LinearOrder K] (m : BTreeMap K V) (key : K) :
    Option (Option V × BTreeMap K V) :=
  match Node.removeGo (capacity_from_b m.b) key m.root with
  | .absent => some (none, m)
  | .panic => none
  | .removed v root' stopped _ =>
    if stopped then
      some (some v, { m with root := root', length := m.length - 1 })
    else if root'.len == 0 && !root'.is_leaf then
      match root'.edges.getLast? with
      | none => none
      | some child =>
        some (some v,
          { m with
            root := child
            length := m.length - 1
            depth := m.depth - 1 })
    else
      some (some v, { m with root := root', length := m.length - 1 })

end BTreeMap

/-! ## Basic facts about `search_linear` -/

section SearchLemmas

variable {K V : Type} [LinearOrder K]

theorem searchLinearGo_found (key : K) :
    ∀ (l : List K) (off j : Nat), Node.searchLinearGo key l off = .Found j →
      ∃ i, j = off + i ∧ l.get? i = some key
  | [], off, j, h => by simp [Node.searchLinearGo] at h
  | a :: l, off, j, h => by
    unfold Node.searchLinearGo at h
    rcases hc : compare a key with _ | _ | _ <;> rw [hc] at h
    · obtain ⟨i, hi, hget⟩ := searchLinearGo_found key l (off + 1) j h
      exact ⟨i + 1, by omega, by simpa using hget⟩
    · cases h
      exact ⟨0, by omega, by simpa using compare_eq_iff_eq.mp hc⟩
    · cases h

theorem searchLinearGo_found_of_get (key : K) :
    ∀ (l : List K) (off i : Nat), l.Pairwise (· < ·) → l.get? i = some key →
      Node.searchLinearGo key l off = .Found (off + i)
  | [], _, i, _, hget => by simp at hget
  | a :: l, off, i, hp, hget => by
    rcases i with _ | i
    · simp only [List.get?_cons_zero, Option.some.injEq] at hget
      subst hget
      simp [Node.searchLinearGo, compare_eq_iff_eq.mpr rfl]
    · simp only [List.get?_cons_succ] at hget
      have ha : a < key := (List.pairwise_cons.mp hp).1 key (List.get?_mem hget)
      have := searchLinearGo_found_of_get key l (off + 1) i
        (List.pairwise_cons.mp hp).2 hget
      have heq : off + (i + 1) = off + 1 + i := by omega
      unfold Node.searchLinearGo
      rw [compare_lt_iff_lt.mpr ha, heq]
      exact this

theorem searchLinearGo_goDown (key : K) :
    ∀ (l : List K) (off j : Nat), Node.searchLinearGo key l off = .GoDown j →
      ∃ i, j = off + i ∧ i ≤ l.length ∧
        (∀ m k, m < i → l.get? m = some k → k < key) ∧
        (∀ k, l.get? i = some k → key < k)
  | [], off, j, h => by
    have hj : off = j := by simpa [Node.searchLinearGo] using h
    exact ⟨0, by omega, by simp, fun m k hm _ => absurd hm (Nat.not_lt_zero m),
      by simp⟩
  | a :: l, off, j, h => by
    unfold Node.searchLinearGo at h
    rcases hc : compare a key with _ | _ | _ <;> rw [hc] at h
    · obtain ⟨i, hi, hle, hbelow, hat⟩ := searchLinearGo_goDown key l (off + 1) j h
      refine ⟨i + 1, by omega, by simpa using hle, ?_, by simpa using hat⟩
      rintro (_ | m) k hm hget
      · simp only [List.get?_cons_zero, Option.some.injEq] at hget
        exact hget ▸ compare_lt_iff_lt.mp hc
      · exact hbelow m k (by omega) (by simpa using hget)
    · cases h
    · cases h
      refine ⟨0, by omega, by simp, by omega, ?_⟩
      intro k hget
      simp only [List.get?_cons_zero, Option.some.injEq] at hget
      exact hget ▸ compare_gt_iff_gt.mp hc

end SearchLemmas

/-! ## Claim C4: characterization of `Node::search` -/

/-- **C4**: on a node with strictly increasing keys, `search` returns
`Found i` exactly when `keys[i]` equals the probe key; otherwise it returns
`GoDown i` where everything before `i` is strictly less than the probe, the
key at `i` (when it exists) is strictly greater, and `i` is at most the key
count (`i` equals the key count when no key is greater). -/
theorem C4_search_characterization {K V : Type} [LinearOrder K]
    (n : Node K V) (key : K) (hsort : n.keys.Pairwise (· < ·)) :
    (∀ i, n.search key = .Found i ↔ n.keys.get? i = some key) ∧
    (∀ i, n.search key = .GoDown i →
      i ≤ n.len ∧
      (∀ m k, m < i → n.keys.get? m = some k → k < key) ∧
      (∀ k, n.keys.get? i = some k → key < k) ∧
      (i < n.len ∨ i = n.len)) := by
  constructor
  · intro i
    constructor
    · intro h
      obtain ⟨i', hi', hget⟩ := searchLinearGo_found key n.keys 0 i h
      simpa [hi'] using hget
    · intro h
      simpa using searchLinearGo_found_of_get key n.keys 0 i hsort h
  · intro i h
    obtain ⟨i', hi', hle, hbelow, hat⟩ := searchLinearGo_goDown key n.keys 0 i h
    subst hi'
    have hlen : n.len = n.keys.length := rfl
    refine ⟨by omega, by simpa using hbelow, by simpa using hat, by omega⟩

/-- Witness for C4 at a concrete node: searching `3` in keys `[1, 3]` finds
index `1`, and searching `2` goes down at index `1`. -/
theorem C4_search_characterization_witness :
    Node.search (Node.mk [1, 3] ([10, 30] : List Nat) Forest.nil) 3 =
      .Found 1 ∧
    (1 : Nat) ≤ (Node.mk [1, 3] ([10, 30] : List Nat) Forest.nil).len :=
  ⟨((C4_search_characterization (Node.mk [1, 3] ([10, 30] : List Nat)
      Forest.nil) 3 (by decide)).1 1).mpr (by decide),
   ((C4_search_characterization (Node.mk [1, 3] ([10, 30] : List Nat)
      Forest.nil) 2 (by decide)).2 1 (by decide)).1⟩

/-! ## Claim C9: `with_b` construction contract -/

/-- **C9**: `with_b b` with `b ≤ 1` hits the `assert!` (modelled as `none`:
no map value is produced); with `b > 1` it yields an empty map: length `0`,
depth `1`, and an empty leaf root. -/
theorem C9_with_b {K V : Type} (b : Nat) :
    (b ≤ 1 → (BTreeMap.with_b b : Option (BTreeMap K V)) = none) ∧
    (1 < b → (BTreeMap.with_b b : Option (BTreeMap K V)) =
      some { root := Node.mk [] [] .nil, length := 0, depth := 1, b := b }) := by
  constructor <;> intro h <;>
    simp [BTreeMap.with_b, Node.make_leaf_root, Node.new_leaf, h]

/-- Witness for C9 at `b = 1` and `b = 2`. -/
theorem C9_with_b_witness :
    ((BTreeMap.with_b 1 : Option (BTreeMap Nat Nat)) = none) ∧
    ((BTreeMap.with_b 2 : Option (BTreeMap Nat Nat)) =
      some { root := Node.mk [] [] .nil, length := 0, depth := 1, b := 2 }) :=
  ⟨(C9_with_b 1).1 (by decide), (C9_with_b 2).2 (by decide)⟩

/-! ## Transport lemmas between `Forest` operations and `List` operations -/

namespace Forest

variable {K V : Type}

@[simp] theorem toList_nil : (Forest.nil : Forest K V).toList = [] := rfl

@[simp] theorem toList_cons (n : Node K V) (f : Forest K V) :
    (Forest.cons n f).toList = n :: f.toList := rfl

@[simp] theorem length_eq : (f : Forest K V) → f.length = f.toList.length
  | .nil => rfl
  | .cons _ tl => by simp [length, length_eq tl]

@[simp] theorem get?_eq : (f : Forest K V) → (i : Nat) →
    f.get? i = f.toList.get? i
  | .nil, _ => by simp [get?]
  | .cons _ _, 0 => by simp [get?]
  | .cons _ tl, i + 1 => by simp [get?, get?_eq tl i]

@[simp] theorem toList_set : (f : Forest K V) → (i : Nat) → (n : Node K V) →
    (f.set i n).toList = f.toList.set i n
  | .nil, _, _ => by simp [set]
  | .cons _ _, 0, _ => by simp [set]
  | .cons _ tl, i + 1, n => by simp [set, toList_set tl i n]

@[simp] theorem toList_eraseIdx : (f : Forest K V) → (i : Nat) →
    (f.eraseIdx i).toList = f.toList.eraseIdx i
  | .nil, _ => by simp [eraseIdx]
  | .cons _ _, 0 => by simp [eraseIdx]
  | .cons _ tl, i + 1 => by simp [eraseIdx, toList_eraseIdx tl i]

@[simp] theorem toList_append : (f g : Forest K V) →
    (f.append g).toList = f.toList ++ g.toList
  | .nil, _ => by simp [append]
  | .cons _ tl, g => by simp [append, toList_append tl g]

@[simp] theorem toList_take : (f : Forest K V) → (i : Nat) →
    (f.take i).toList = f.toList.take i
  | .nil, 0 => by simp [take]
  | .cons _ _, 0 => by simp [take]
  | .nil, _ + 1 => by simp [take]
  | .cons _ tl, i + 1 => by simp [take, toList_take tl i]

@[simp] theorem toList_drop : (f : Forest K V) → (i : Nat) →
    (f.drop i).toList = f.toList.drop i
  | .nil, 0 => by simp [drop]
  | .cons _ _, 0 => by simp [drop]
  | .nil, _ + 1 => by simp [drop]
  | .cons _ tl, i + 1 => by simp [drop, toList_drop tl i]

@[simp] theorem getLast?_eq : (f : Forest K V) →
    f.getLast? = f.toList.getLast?
  | .nil => rfl
  | .cons _ .nil => by simp [getLast?]
  | .cons _ (.cons hd tl) => by
    simpa [getLast?] using getLast?_eq (.cons hd tl)

@[simp] theorem toList_dropLast : (f : Forest K V) →
    f.dropLast.toList = f.toList.dropLast
  | .nil => rfl
  | .cons _ .nil => by simp [dropLast]
  | .cons _ (.cons hd tl) => by
    simpa [dropLast] using toList_dropLast (.cons hd tl)

@[simp] theorem isEmpty_eq (f : Forest K V) :
    f.isEmpty = f.toList.isEmpty := by
  cases f <;> simp [isEmpty]

theorem isEmpty_iff_nil (f : Forest K V) : f.isEmpty = true ↔ f = .nil := by
  cases f <;> simp [isEmpty]

@[simp] theorem toList_insertIdx : (f : Forest K V) → (i : Nat) → (n : Node K V) →
    (f.insertIdx i n).toList = f.toList.insertIdx i n
  | .nil, 0, _ => by simp [insertIdx]
  | .cons _ _, 0, _ => by simp [insertIdx]
  | .nil, _ + 1, _ => by simp [insertIdx]
  | .cons _ tl, i + 1, n => by simp [insertIdx, toList_insertIdx tl i n]

end Forest

/-- Strict sortedness transported to `get?`. -/
theorem pairwise_lt_get? {K : Type} [LinearOrder K] {l : List K}
    (h : l.Pairwise (· < ·)) {i j : Nat} {x y : K} (hij : i < j)
    (hx : l.get? i = some x) (hy : l.get? j = some y) : x < y := by
  rw [List.get?_eq_getElem?, List.getElem?_eq_some_iff] at hx hy
  obtain ⟨hi, rfl⟩ := hx
  obtain ⟨hj, rfl⟩ := hy
  exact List.pairwise_iff_getElem.mp h i j hi hj hij

/-! ## Claim C5: `Node::split` on a full node -/

/-- **C5**: splitting a full node holding exactly `2b-1` strictly increasing
keys promotes the median pair (`keys[b-1]`), leaves the original node with
the `b-1` smallest pairs, and returns a new right sibling with the `b-1`
largest pairs; every kept key is below the median and every sibling key
above it; an internal node's `2b` children split exactly `b`/`b`; both
halves meet minimum load (neither is underfull at capacity `2b-1`). -/
theorem C5_split_full_node {K V : Type} [LinearOrder K] (b : Nat)
    (hb : 1 ≤ b) (n : Node K V) (hlen : n.len = 2 * b - 1)
    (hv : n.vals.length = n.keys.length)
    (hsort : n.keys.Pairwise (· < ·))
    (hedges : n.edges.length = 0 ∨ n.edges.length = n.len + 1) :
    ∃ medk medv left right, n.split = some (medk, medv, left, right) ∧
      n.keys.get? (b - 1) = some medk ∧
      n.vals.get? (b - 1) = some medv ∧
      left.keys = n.keys.take (b - 1) ∧ left.vals = n.vals.take (b - 1) ∧
      right.keys = n.keys.drop b ∧ right.vals = n.vals.drop b ∧
      left.len = b - 1 ∧ right.len = b - 1 ∧
      (∀ k ∈ left.keys, k < medk) ∧ (∀ k ∈ right.keys, medk < k) ∧
      (n.edges.length = n.len + 1 →
        left.edges.length = b ∧ right.edges.length = b) ∧
      left.is_underfull (2 * b - 1) = false ∧
      right.is_underfull (2 * b - 1) = false := by
  obtain ⟨ks, vs, es⟩ := n
  simp only [Node.len, Node.keys, Node.vals, Node.edges] at hlen hv hsort hedges ⊢
  have hsplitK : ks.length - ks.length / 2 = b := by omega
  have hsplitV : vs.length - vs.length / 2 = b := by omega
  rcases hmedk : ks.get? (b - 1) with _ | medk
  · rw [List.get?_eq_none] at hmedk
    omega
  rcases hmedv : vs.get? (b - 1) with _ | medv
  · rw [List.get?_eq_none] at hmedv
    omega
  have hlastK : (ks.take b).getLast? = some medk := by
    rw [List.getLast?_eq_getElem?, List.getElem?_take]
    simp only [List.length_take]
    have h1 : min b ks.length = b := by omega
    rw [h1, if_pos (by omega : b - 1 < b), ← List.get?_eq_getElem?]
    exact hmedk
  have hlastV : (vs.take b).getLast? = some medv := by
    rw [List.getLast?_eq_getElem?, List.getElem?_take]
    simp only [List.length_take]
    have h1 : min b vs.length = b := by omega
    rw [h1, if_pos (by omega : b - 1 < b), ← List.get?_eq_getElem?]
    exact hmedv
  have hdropK : (ks.take b).dropLast = ks.take (b - 1) := by
    rw [List.dropLast_eq_take, List.length_take, List.take_take]
    congr 1
    omega
  have hdropV : (vs.take b).dropLast = vs.take (b - 1) := by
    rw [List.dropLast_eq_take, List.length_take, List.take_take]
    congr 1
    omega
  have hsplitDef : (Node.mk ks vs es).split = some (medk, medv,
      Node.mk (ks.take (b - 1)) (vs.take (b - 1))
        (if es.isEmpty then Forest.nil
         else es.take (es.length - es.length / 2)),
      Node.mk (ks.drop b) (vs.drop b)
        (if es.isEmpty then Forest.nil
         else es.drop (es.length - es.length / 2))) := by
    unfold Node.split splitList splitForest
    simp only [Node.keys, Node.vals, Node.edges, hsplitK, hsplitV, hlastK,
      hlastV, hdropK, hdropV]
    split <;> rfl
  refine ⟨medk, medv, _, _, hsplitDef, rfl, rfl, rfl, rfl, rfl, rfl,
    ?_, ?_, ?_, ?_, ?_, ?_, ?_⟩
  · simp only [Node.len, Node.keys, List.length_take]
    omega
  · simp only [Node.len, Node.keys, List.length_drop]
    omega
  · intro k hk
    simp only [Node.keys] at hk
    rw [List.mem_iff_getElem?] at hk
    obtain ⟨i, hik⟩ := hk
    rw [List.getElem?_take] at hik
    split at hik
    · exact pairwise_lt_get? hsort (by omega : i < b - 1)
        (by rw [List.get?_eq_getElem?]; exact hik) hmedk
    · cases hik
  · intro k hk
    simp only [Node.keys] at hk
    rw [List.mem_iff_getElem?] at hk
    obtain ⟨i, hik⟩ := hk
    rw [List.getElem?_drop] at hik
    exact pairwise_lt_get? hsort (by omega : b - 1 < b + i) hmedk
      (by rw [List.get?_eq_getElem?]; exact hik)
  · intro hint
    have hne : es.isEmpty = false := by
      rcases h : es.isEmpty with _ | _
      · rfl
      · rw [Forest.isEmpty_iff_nil] at h
        subst h
        simp only [Forest.length_eq, Forest.toList_nil, List.length_nil]
          at hint
        omega
    have hE : es.length = 2 * b := by omega
    have hEsplit : es.length - es.length / 2 = b := by
      rw [hE]
      omega
    rw [hEsplit] at *
    constructor
    · simp only [Node.edges, hne, Bool.false_eq_true, if_false,
        Forest.length_eq, Forest.toList_take, List.length_take]
      simp only [Forest.length_eq] at hE
      omega
    · simp only [Node.edges, hne, Bool.false_eq_true, if_false,
        Forest.length_eq, Forest.toList_drop, List.length_drop]
      simp only [Forest.length_eq] at hE
      omega
  · simp only [Node.is_underfull, Node.len, Node.keys, List.length_take,
      min_load_from_capacity]
    simp only [decide_eq_false_iff_not, not_lt]
    omega
  · simp only [Node.is_underfull, Node.len, Node.keys, List.length_drop,
      min_load_from_capacity]
    simp only [decide_eq_false_iff_not, not_lt]
    omega

/-- Witness for C5: splitting the full leaf `[1,2,3]` at `b = 2`. -/
theorem C5_split_full_node_witness :
    ∃ medk medv left right,
      (Node.mk [1, 2, 3] ([10, 20, 30] : List Nat) Forest.nil).split =
        some (medk, medv, left, right) ∧
      (Node.mk [1, 2, 3] ([10, 20, 30] : List Nat)
          Forest.nil).keys.get? (2 - 1) = some medk ∧
      (Node.mk [1, 2, 3] ([10, 20, 30] : List Nat)
          Forest.nil).vals.get? (2 - 1) = some medv ∧
      left.keys = [1, 2, 3].take (2 - 1) ∧
      left.vals = [10, 20, 30].take (2 - 1) ∧
      right.keys = [1, 2, 3].drop 2 ∧ right.vals = [10, 20, 30].drop 2 ∧
      left.len = 2 - 1 ∧ right.len = 2 - 1 ∧
      (∀ k ∈ left.keys, k < medk) ∧ (∀ k ∈ right.keys, medk < k) ∧
      ((Node.mk [1, 2, 3] ([10, 20, 30] : List Nat) Forest.nil).edges.length =
          (Node.mk [1, 2, 3] ([10, 20, 30] : List Nat) Forest.nil).len + 1 →
        left.edges.length = 2 ∧ right.edges.length = 2) ∧
      left.is_underfull (2 * 2 - 1) = false ∧
      right.is_underfull (2 * 2 - 1) = false :=
  C5_split_full_node 2 (by decide)
    (Node.mk [1, 2, 3] ([10, 20, 30] : List Nat) Forest.nil) (by decide)
    (by decide) (by decide) (Or.inl (by decide))

/-! ## Claim C1: `handle_underflow` sibling policy -/

/-- `merge_children` removes one child reference from the parent. -/
theorem merge_children_edges_length {K V : Type} (n p' : Node K V)
    (li : Nat) (h : n.merge_children li = some p') :
    p'.edges.length + 1 = n.edges.length := by
  obtain ⟨ks, vs, es⟩ := n
  unfold Node.merge_children at h
  simp only [Node.keys, Node.vals, Node.edges] at h ⊢
  rcases hk : ks.get? li with _ | key <;> simp only [hk] at h
  · cases h
  rcases hv : vs.get? li with _ | val <;> simp only [hv] at h
  · cases h
  rcases he : es.get? (li + 1) with _ | right <;> simp only [he] at h
  · cases h
  rcases hl : (es.eraseIdx (li + 1)).get? li with _ | left <;>
    simp only [hl, Option.some.injEq] at h
  · cases h
  subst h
  have hbound : li + 1 < es.toList.length := by
    rw [Forest.get?_eq] at he
    obtain ⟨hlt, -⟩ := List.get?_eq_some.mp he
    omega
  simp only [Node.edges, Forest.length_eq, Forest.toList_set,
    Forest.toList_eraseIdx, List.length_set, List.length_eraseIdx, hbound,
    if_pos]
  omega

/-- `steal_to_left` keeps the parent's child count unchanged. -/
theorem steal_to_left_edges_length {K V : Type} (n p' : Node K V)
    (i : Nat) (h : n.steal_to_left i = some p') :
    p'.edges.length = n.edges.length := by
  obtain ⟨ks, vs, es⟩ := n
  unfold Node.steal_to_left at h
  simp only [Node.keys, Node.vals, Node.edges] at h ⊢
  rcases h1 : es.get? (i - 1) with _ | left
  · simp only [h1] at h
    cases h
  obtain ⟨lks, lvs, les⟩ := left
  simp only [h1] at h
  rcases h2 : lks.getLast? with _ | k <;> simp only [h2] at h
  · cases h
  rcases h3 : lvs.getLast? with _ | v <;> simp only [h3] at h
  · cases h
  rcases h4 : ks.get? (i - 1) with _ | pk <;> simp only [h4] at h
  · cases h
  rcases h5 : vs.get? (i - 1) with _ | pv <;> simp only [h5] at h
  · cases h
  rcases h6 : (es.set (i - 1)
      (Node.mk lks.dropLast lvs.dropLast les.dropLast)).get? i with _ | right
  · simp only [h6] at h
    cases h
  obtain ⟨rks, rvs, res⟩ := right
  simp only [h6, Option.some.injEq] at h
  subst h
  simp only [Node.edges, Forest.length_eq, Forest.toList_set,
    List.length_set]

/-- **C1** (counterexample): at capacity `2*2-1 = 3` (so minimum load `1`),
take a parent whose underflowed child (index `1`, zero keys) has a left
sibling holding exactly minimum load and a right sibling holding two keys
(more than minimum load).  The claim predicts a steal from the right
sibling; the code instead merges with the left sibling: it returns a parent
with 2 children instead of the 3 a rotation would preserve. -/
theorem C1_counterexample :
    (Node.mk [5] [50] Forest.nil : Node Nat Nat).len =
      min_load_from_capacity (capacity_from_b 2) ∧
    (Node.mk [30, 40] [60, 70] Forest.nil : Node Nat Nat).len >
      min_load_from_capacity (capacity_from_b 2) ∧
    (Node.mk [] [] Forest.nil : Node Nat Nat).is_underfull
      (capacity_from_b 2) = true ∧
    Node.handle_underflow (capacity_from_b 2)
      (Node.mk [10, 20] [1, 2] (Forest.cons (Node.mk [5] [50] Forest.nil)
        (Forest.cons (Node.mk [] [] Forest.nil)
          (Forest.cons (Node.mk [30, 40] [60, 70] Forest.nil)
            Forest.nil)))) 1 =
      some (Node.mk [20] [2]
        (Forest.cons (Node.mk [5, 10] [50, 1] Forest.nil)
          (Forest.cons (Node.mk [30, 40] [60, 70] Forest.nil)
            Forest.nil))) ∧
    (Node.mk [20] [2]
        (Forest.cons (Node.mk [5, 10] [50, 1] Forest.nil)
          (Forest.cons (Node.mk [30, 40] [60, 70] Forest.nil)
            Forest.nil)) : Node Nat Nat).edges.length = 2 ∧
    (Node.mk [10, 20] [1, 2] (Forest.cons (Node.mk [5] [50] Forest.nil)
        (Forest.cons (Node.mk [] [] Forest.nil)
          (Forest.cons (Node.mk [30, 40] [60, 70] Forest.nil)
            Forest.nil))) : Node Nat Nat).edges.length = 3 :=
  ⟨by decide, by decide, by decide, rfl, by decide, by decide⟩

/-- **C1** (amended): `handle_underflow(child_index)` consults only the
left sibling whenever `child_index > 0`: it steals from the left sibling
exactly when that sibling holds more than minimum load and otherwise merges
with it (dropping one child reference), regardless of the right sibling's
load; the right sibling is consulted only when `child_index = 0`, again
stealing from it exactly when it holds more than minimum load and merging
otherwise. -/
theorem C1_handle_underflow_policy {K V : Type} (cap : Nat) (n : Node K V)
    (i : Nat) (hi : i ≤ n.len) :
    (∀ left, 0 < i → n.edges.get? (i - 1) = some left →
      (min_load_from_capacity cap < left.len →
        Node.handle_underflow cap n i = n.steal_to_left i ∧
        ∀ p', n.steal_to_left i = some p' →
          p'.edges.length = n.edges.length) ∧
      (left.len ≤ min_load_from_capacity cap →
        Node.handle_underflow cap n i = n.merge_children (i - 1) ∧
        ∀ p', n.merge_children (i - 1) = some p' →
          p'.edges.length + 1 = n.edges.length)) ∧
    (i = 0 → ∀ right, n.edges.get? 1 = some right →
      (min_load_from_capacity cap < right.len →
        Node.handle_underflow cap n i = n.steal_to_right 0) ∧
      (right.len ≤ min_load_from_capacity cap →
        Node.handle_underflow cap n i = n.merge_children 0 ∧
        ∀ p', n.merge_children 0 = some p' →
          p'.edges.length + 1 = n.edges.length)) := by
  constructor
  · intro left h0 hleft
    have hd : Node.handle_underflow cap n i =
        Node.handle_underflow_to_left cap n i := by
      unfold Node.handle_underflow
      rw [if_pos hi, if_pos h0]
    constructor
    · intro hsteal
      refine ⟨?_, fun p' hp' => steal_to_left_edges_length n p' i hp'⟩
      rw [hd]
      unfold Node.handle_underflow_to_left
      simp only [hleft]
      rw [if_pos hsteal]
    · intro hmerge
      refine ⟨?_, fun p' hp' => merge_children_edges_length n p' (i - 1) hp'⟩
      rw [hd]
      unfold Node.handle_underflow_to_left
      simp only [hleft]
      rw [if_neg (by omega)]
  · intro h0 right hright
    subst h0
    have hd : Node.handle_underflow cap n 0 =
        Node.handle_underflow_to_right cap n 0 := by
      unfold Node.handle_underflow
      rw [if_pos hi]
      simp
    constructor
    · intro hsteal
      rw [hd]
      unfold Node.handle_underflow_to_right
      simp only [Nat.zero_add, hright]
      rw [if_pos hsteal]
    · intro hmerge
      refine ⟨?_, fun p' hp' => merge_children_edges_length n p' 0 hp'⟩
      rw [hd]
      unfold Node.handle_underflow_to_right
      simp only [Nat.zero_add, hright]
      rw [if_neg (by omega)]

/-- Witness for the amended C1 at the counterexample parent: the fix-up is
the merge with the left sibling. -/
theorem C1_handle_underflow_policy_witness :
    Node.handle_underflow (capacity_from_b 2)
      (Node.mk [10, 20] [1, 2] (Forest.cons (Node.mk [5] [50] Forest.nil)
        (Forest.cons (Node.mk [] [] Forest.nil)
          (Forest.cons (Node.mk [30, 40] [60, 70] Forest.nil)
            Forest.nil)))) 1 =
      (Node.mk [10, 20] [1, 2] (Forest.cons (Node.mk [5] [50] Forest.nil)
        (Forest.cons (Node.mk [] [] Forest.nil)
          (Forest.cons (Node.mk [30, 40] [60, 70] Forest.nil)
            Forest.nil))) : Node Nat Nat).merge_children 0 :=
  (((C1_handle_underflow_policy (capacity_from_b 2)
      (Node.mk [10, 20] [1, 2] (Forest.cons (Node.mk [5] [50] Forest.nil)
        (Forest.cons (Node.mk [] [] Forest.nil)
          (Forest.cons (Node.mk [30, 40] [60, 70] Forest.nil)
            Forest.nil)))) 1 (by decide)).1
    (Node.mk [5] [50] Forest.nil) (by decide) rfl).2 (by decide)).1

/-! ## Claim C8: root collapse on remove -/

/-- **C8**: when the underflow propagation exhausts the traversal path
(`stopped = false`, i.e. no level returned early) and the resulting root is
an internal node with zero keys, `BTreeMap::remove` replaces the root by its
single remaining child and decrements the depth; a root that is an empty
leaf is left in place (only the length changes), representing the empty
map. -/
theorem C8_root_collapse {K V : Type} [LinearOrder K] (m : BTreeMap K V)
    (key : K) (v : V) (root' : Node K V) (uf : Bool)
    (h : Node.removeGo (capacity_from_b m.b) key m.root =
      .removed v root' false uf) :
    (∀ child, root'.len = 0 → root'.edges = .cons child .nil →
      m.remove key = some (some v,
        { m with root := child, length := m.length - 1,
                 depth := m.depth - 1 })) ∧
    (root'.len = 0 → root'.is_leaf = true →
      m.remove key = some (some v,
        { m with root := root', length := m.length - 1 })) := by
  constructor
  · intro child h0 hedges
    have hleaf : root'.is_leaf = false := by
      rw [Node.is_leaf, hedges]
      rfl
    have hlast : root'.edges.getLast? = some child := by
      rw [hedges]
      rfl
    unfold BTreeMap.remove
    rw [h]
    simp only [Bool.false_eq_true, if_false, h0, hleaf, hlast,
      Nat.zero_eq, beq_self_eq_true, Bool.not_false, Bool.and_self,
      if_true]
  · intro h0 hleaf
    unfold BTreeMap.remove
    rw [h]
    simp only [Bool.false_eq_true, if_false, hleaf, Bool.not_true,
      Bool.and_false, if_false]

/-- Witness for C8: removing the only key of a depth-2 root merges its two
children and collapses the root, decrementing the depth to 1. -/
theorem C8_root_collapse_witness :
    (BTreeMap.mk (Node.mk [10] [1]
        (Forest.cons (Node.mk [5] [50] Forest.nil)
          (Forest.cons (Node.mk [15] [51] Forest.nil) Forest.nil)))
        3 2 2 : BTreeMap Nat Nat).remove 10 =
      some (some 1,
        BTreeMap.mk (Node.mk [5, 15] [50, 51] Forest.nil) 2 1 2) := by
  have h : Node.removeGo (capacity_from_b
      (BTreeMap.mk (Node.mk [10] [1]
        (Forest.cons (Node.mk [5] [50] Forest.nil)
          (Forest.cons (Node.mk [15] [51] Forest.nil) Forest.nil))) 3 2 2 :
        BTreeMap Nat Nat).b) 10
      (BTreeMap.mk (Node.mk [10] [1]
        (Forest.cons (Node.mk [5] [50] Forest.nil)
          (Forest.cons (Node.mk [15] [51] Forest.nil) Forest.nil))) 3 2 2 :
        BTreeMap Nat Nat).root =
      .removed 1 (Node.mk [] []
        (Forest.cons (Node.mk [5, 15] [50, 51] Forest.nil) Forest.nil))
        false true := rfl
  exact (C8_root_collapse _ 10 1 _ true h).1
    (Node.mk [5, 15] [50, 51] Forest.nil) rfl rfl

/-! ## Claim C6: insert on a present key -/

/-- `search` only reads the `keys` field. -/
theorem search_mk_eq {K V : Type} [LinearOrder K] (ks : List K)
    (vs : List V) (es : Forest K V) (key : K) :
    Node.search (Node.mk ks vs es) key = Node.searchLinearGo key ks 0 := rfl

/-- A `Found` index points at an occurrence of the probe key. -/
theorem search_found_lt {K V : Type} [LinearOrder K] {n : Node K V}
    {key : K} {i : Nat} (h : n.search key = .Found i) :
    i < n.keys.length ∧ n.keys.get? i = some key := by
  obtain ⟨i', hi', hget⟩ := searchLinearGo_found key n.keys 0 i h
  subst hi'
  simp only [Nat.zero_add]
  obtain ⟨hlt, -⟩ := List.get?_eq_some.mp hget
  exact ⟨hlt, hget⟩

mutual

/-- If `find` locates `vold` in a subtree, `insertGo` replaces it in place
and a subsequent `find` sees the new value. -/
theorem insertGo_found {K V : Type} [LinearOrder K] (cap : Nat) (key : K)
    (vnew : V) : ∀ (n : Node K V) (vold : V),
    Node.find key n = some vold →
    ∃ n', Node.insertGo cap key vnew n = .replaced vold n' ∧
      Node.find key n' = some vnew
  | .mk ks vs es, vold, hfind => by
    rcases hs : Node.searchLinearGo key ks 0 with i | i
    · have hget : vs.get? i = some vold := by
        unfold Node.find at hfind
        rw [search_mk_eq] at hfind
        simp only [hs] at hfind
        exact hfind
      have hlt : i < vs.length := by
        obtain ⟨hlt, -⟩ := List.get?_eq_some.mp hget
        exact hlt
      refine ⟨Node.mk ks (vs.set i vnew) es, ?_, ?_⟩
      · unfold Node.insertGo
        rw [search_mk_eq]
        simp only [hs, hget]
      · unfold Node.find
        rw [search_mk_eq]
        simp only [hs, List.get?_eq_getElem?, List.getElem?_set_self hlt]
    · have hfat : Forest.findAt key es i = some vold := by
        unfold Node.find at hfind
        rw [search_mk_eq] at hfind
        simp only [hs] at hfind
        exact hfind
      obtain ⟨f', hins, hfind'⟩ :=
        insertGoAt_found cap key vnew es i vold hfat
      refine ⟨Node.mk ks vs f', ?_, ?_⟩
      · unfold Node.insertGo
        rw [search_mk_eq]
        simp only [hs, hins]
      · unfold Node.find
        rw [search_mk_eq]
        simp only [hs]
        exact hfind'

/-- Forest version of `insertGo_found`, at a fixed child index. -/
theorem insertGoAt_found {K V : Type} [LinearOrder K] (cap : Nat) (key : K)
    (vnew : V) : ∀ (f : Forest K V) (i : Nat) (vold : V),
    Forest.findAt key f i = some vold →
    ∃ f', Forest.insertGoAt cap key vnew f i = some (.replaced vold f') ∧
      Forest.findAt key f' i = some vnew
  | .nil, i, vold, hfind => by
    unfold Forest.findAt at hfind
    cases hfind
  | .cons c f, 0, vold, hfind => by
    have hc : Node.find key c = some vold := hfind
    obtain ⟨c', hins, hfind'⟩ := insertGo_found cap key vnew c vold hc
    refine ⟨.cons c' f, ?_, ?_⟩
    · unfold Forest.insertGoAt
      simp only [hins]
    · exact hfind'
  | .cons c f, i + 1, vold, hfind => by
    have hf : Forest.findAt key f i = some vold := hfind
    obtain ⟨f', hins, hfind'⟩ := insertGoAt_found cap key vnew f i vold hf
    refine ⟨.cons c f', ?_, ?_⟩
    · unfold Forest.insertGoAt
      simp only [hins]
    · exact hfind'

end

/-- **C6**: inserting `vnew` under a key already present with value `vold`
returns `some vold`, leaves the map's length (and depth and branching
factor) unchanged, and a subsequent `find` returns `vnew`. -/
theorem C6_insert_present {K V : Type} [LinearOrder K] (m : BTreeMap K V)
    (key : K) (vnew vold : V) (hfind : m.find key = some vold) :
    ∃ m', m.insert key vnew = some (some vold, m') ∧
      m'.length = m.length ∧ m'.depth = m.depth ∧ m'.b = m.b ∧
      m'.find key = some vnew := by
  obtain ⟨root', hins, hfind'⟩ :=
    insertGo_found (capacity_from_b m.b) key vnew m.root vold hfind
  refine ⟨{ m with root := root' }, ?_, rfl, rfl, rfl, hfind'⟩
  unfold BTreeMap.insert
  rw [hins]

/-- Witness for C6: overwriting key `5` in a singleton map. -/
theorem C6_insert_present_witness :
    ∃ m', (BTreeMap.mk (Node.mk [5] [50] Forest.nil) 1 1 2 :
        BTreeMap Nat Nat).insert 5 99 = some (some 50, m') ∧
      m'.length = 1 ∧ m'.depth = 1 ∧ m'.b = 2 ∧ m'.find 5 = some 99 :=
  C6_insert_present
    (BTreeMap.mk (Node.mk [5] [50] Forest.nil) 1 1 2 : BTreeMap Nat Nat)
    5 99 50 rfl

/-! ## Claim C7: remove on an absent key -/

mutual

/-- Well-formedness fragment used by C7: every node stores exactly as many
values as keys. -/
def Node.parallelLens {K V : Type} : Node K V → Prop
  | .mk ks vs es => vs.length = ks.length ∧ es.parallelLens

/-- All nodes of the forest satisfy `Node.parallelLens`. -/
def Forest.parallelLens {K V : Type} : Forest K V → Prop
  | .nil => True
  | .cons c f => c.parallelLens ∧ f.parallelLens

end

mutual

/-- On a tree whose nodes have parallel `keys`/`vals`, a key that `find`
does not see makes `removeGo` report `absent`. -/
theorem removeGo_absent {K V : Type} [LinearOrder K] (cap : Nat) (key : K) :
    ∀ (n : Node K V), n.parallelLens → Node.find key n = none →
    Node.removeGo cap key n = .absent
  | .mk ks vs es, hpar, hfind => by
    rcases hs : Node.searchLinearGo key ks 0 with i | i
    · exfalso
      have hget : vs.get? i = none := by
        unfold Node.find at hfind
        rw [search_mk_eq] at hfind
        simp only [hs] at hfind
        exact hfind
      obtain ⟨hlt, -⟩ := search_found_lt (n := Node.mk ks vs es)
        (show Node.search (Node.mk ks vs es) key = .Found i from hs)
      rw [List.get?_eq_none] at hget
      simp only [Node.keys] at hlt
      obtain ⟨hvk, -⟩ := hpar
      omega
    · have hfat : Forest.findAt key es i = none := by
        unfold Node.find at hfind
        rw [search_mk_eq] at hfind
        simp only [hs] at hfind
        exact hfind
      have := removeGoAt_absent cap key es i hpar.2 hfat
      unfold Node.removeGo
      rw [search_mk_eq]
      rcases this with h | h <;> simp only [hs, h]

/-- Forest version of `removeGo_absent`. -/
theorem removeGoAt_absent {K V : Type} [LinearOrder K] (cap : Nat)
    (key : K) : ∀ (f : Forest K V) (i : Nat), f.parallelLens →
    Forest.findAt key f i = none →
    Forest.removeGoAt cap key f i = none ∨
    Forest.removeGoAt cap key f i = some .absent
  | .nil, i, _, _ => by
    left
    rfl
  | .cons c f, 0, hpar, hfind => by
    right
    have hc : Node.find key c = none := hfind
    have := removeGo_absent cap key c hpar.1 hc
    unfold Forest.removeGoAt
    simp only [this]
  | .cons c f, i + 1, hpar, hfind => by
    have hf : Forest.findAt key f i = none := hfind
    rcases removeGoAt_absent cap key f i hpar.2 hf with h | h
    · left
      unfold Forest.removeGoAt
      simp only [h]
    · right
      unfold Forest.removeGoAt
      simp only [h]

end

/-- **C7**: removing an absent key (one `find` does not locate) returns
`None` and leaves the map itself unchanged — same length, same depth, the
identical tree of nodes. -/
theorem C7_remove_absent {K V : Type} [LinearOrder K] (m : BTreeMap K V)
    (key : K) (hpar : m.root.parallelLens) (hfind : m.find key = none) :
    m.remove key = some (none, m) := by
  have := removeGo_absent (capacity_from_b m.b) key m.root hpar hfind
  unfold BTreeMap.remove
  rw [this]

/-- Witness for C7: removing `7` from a map holding only key `5`. -/
theorem C7_remove_absent_witness :
    (BTreeMap.mk (Node.mk [5] [50] Forest.nil) 1 1 2 :
      BTreeMap Nat Nat).remove 7 =
      some (none,
        (BTreeMap.mk (Node.mk [5] [50] Forest.nil) 1 1 2 :
          BTreeMap Nat Nat)) :=
  C7_remove_absent
    (BTreeMap.mk (Node.mk [5] [50] Forest.nil) 1 1 2 : BTreeMap Nat Nat)
    7 ⟨rfl, trivial⟩ rfl

/-! ## The balance invariant (claims C3 and C10) -/

mutual

/-- The balance/shape invariant of the spec (§3) for a subtree: `vals`
parallel to `keys`, key count between `lo` and `2b-1`, leaves exactly at
depth `d`, and internal nodes carrying `len + 1` children, all well-formed
at minimum load `b - 1` and depth `d - 1`. -/
def Node.wf {K V : Type} (b lo d : Nat) : Node K V → Prop
  | .mk ks vs es =>
    vs.length = ks.length ∧ lo ≤ ks.length ∧ ks.length ≤ 2 * b - 1 ∧
    (es = .nil → d = 1) ∧
    (es ≠ .nil → es.length = ks.length + 1 ∧ 2 ≤ d ∧
      Forest.wf b (b - 1) (d - 1) es)

/-- All nodes of the forest satisfy `Node.wf b lo d`. -/
def Forest.wf {K V : Type} (b lo d : Nat) : Forest K V → Prop
  | .nil => True
  | .cons c f => Node.wf b lo d c ∧ Forest.wf b lo d f

end

/-- The invariant of a whole map: branching factor at least 2, root
well-formed at relaxed minimum load `0` and at depth `m.depth`, and an
internal root carrying at least one key. -/
def BTreeMap.wf {K V : Type} (m : BTreeMap K V) : Prop :=
  2 ≤ m.b ∧ Node.wf m.b 0 m.depth m.root ∧
  (m.root.is_leaf = false → 1 ≤ m.root.len)

section WfLemmas

variable {K V : Type}

theorem Node.wf_mono {b lo lo' d : Nat} (h : lo' ≤ lo) {n : Node K V}
    (hwf : Node.wf b lo d n) : Node.wf b lo' d n := by
  obtain ⟨ks, vs, es⟩ := n
  unfold Node.wf at hwf ⊢
  obtain ⟨h1, h2, h3, h4, h5⟩ := hwf
  exact ⟨h1, by omega, h3, h4, h5⟩

theorem Node.wf_depth {b lo d : Nat} {n : Node K V}
    (hwf : Node.wf b lo d n) : 1 ≤ d := by
  obtain ⟨ks, vs, es⟩ := n
  unfold Node.wf at hwf
  obtain ⟨-, -, -, h4, h5⟩ := hwf
  cases es with
  | nil =>
    have := h4 rfl
    omega
  | cons c f =>
    have := (h5 (by intro h; cases h)).2.1
    omega

theorem Node.wf_leaf_iff {b lo d : Nat} {n : Node K V}
    (hwf : Node.wf b lo d n) : n.edges = .nil ↔ d = 1 := by
  obtain ⟨ks, vs, es⟩ := n
  unfold Node.wf at hwf
  obtain ⟨-, -, -, h4, h5⟩ := hwf
  simp only [Node.edges]
  cases es with
  | nil => simp [h4 rfl]
  | cons c f =>
    obtain ⟨-, hd, -⟩ := h5 (by intro h; cases h)
    constructor
    · intro h
      cases h
    · intro h
      omega

theorem Forest.wf_get? {b lo d : Nat} :
    ∀ {f : Forest K V}, Forest.wf b lo d f → ∀ {j : Nat} {c : Node K V},
    f.get? j = some c → Node.wf b lo d c := by
  intro f
  induction' hf : f.length using Nat.strong_induction_on with m ih generalizing f
  cases f with
  | nil =>
    intro _ j c hget
    simp [Forest.get?] at hget
  | cons hd tl =>
    intro hwf j c hget
    obtain ⟨hhd, htl⟩ := hwf
    cases j with
    | zero =>
      simp only [Forest.get?] at hget
      cases hget
      exact hhd
    | succ j =>
      simp only [Forest.get?] at hget
      subst hf
      exact ih tl.length (by simp [Forest.length]) rfl htl hget

theorem Forest.wf_of_get? {b lo d : Nat} :
    ∀ (f : Forest K V),
    (∀ j c, f.get? j = some c → Node.wf b lo d c) → Forest.wf b lo d f
  | .nil, _ => trivial
  | .cons hd tl, h =>
    ⟨h 0 hd rfl,
     Forest.wf_of_get? tl fun j c hget => h (j + 1) c hget⟩

theorem Forest.ne_nil_of_length {f : Forest K V} (h : 1 ≤ f.length) :
    f ≠ .nil := by
  cases f with
  | nil => simp [Forest.length] at h
  | cons hd tl =>
    intro hx
    cases hx

theorem min_load_capacity_eq {b : Nat} (hb : 1 ≤ b) :
    min_load_from_capacity (2 * b - 1) = b - 1 := by
  unfold min_load_from_capacity
  omega

theorem is_underfull_true_iff {b : Nat} (hb : 1 ≤ b) (n : Node K V) :
    n.is_underfull (2 * b - 1) = true ↔ n.len < b - 1 := by
  unfold Node.is_underfull
  rw [min_load_capacity_eq hb]
  simp

theorem is_underfull_false_iff {b : Nat} (hb : 1 ≤ b) (n : Node K V) :
    n.is_underfull (2 * b - 1) = false ↔ b - 1 ≤ n.len := by
  unfold Node.is_underfull
  rw [min_load_capacity_eq hb]
  simp

end WfLemmas

/-- Computation of `Node::split` on any node with `2b-1` keys and parallel
values (no ordering needed). -/
theorem split_eq {K V : Type} (b : Nat) (hb : 1 ≤ b) (ks : List K)
    (vs : List V) (es : Forest K V)
    (hlen : ks.length = 2 * b - 1) (hv : vs.length = ks.length) :
    ∃ medk medv, (Node.mk ks vs es).split = some (medk, medv,
      Node.mk (ks.take (b - 1)) (vs.take (b - 1))
        (if es.isEmpty then Forest.nil
         else es.take (es.length - es.length / 2)),
      Node.mk (ks.drop b) (vs.drop b)
        (if es.isEmpty then Forest.nil
         else es.drop (es.length - es.length / 2))) ∧
      ks.get? (b - 1) = some medk ∧ vs.get? (b - 1) = some medv := by
  have hsplitK : ks.length - ks.length / 2 = b := by omega
  have hsplitV : vs.length - vs.length / 2 = b := by omega
  rcases hmedk : ks.get? (b - 1) with _ | medk
  · rw [List.get?_eq_none] at hmedk
    omega
  rcases hmedv : vs.get? (b - 1) with _ | medv
  · rw [List.get?_eq_none] at hmedv
    omega
  have hlastK : (ks.take b).getLast? = some medk := by
    rw [List.getLast?_eq_getElem?, List.getElem?_take]
    simp only [List.length_take]
    have h1 : min b ks.length = b := by omega
    rw [h1, if_pos (by omega : b - 1 < b), ← List.get?_eq_getElem?]
    exact hmedk
  have hlastV : (vs.take b).getLast? = some medv := by
    rw [List.getLast?_eq_getElem?, List.getElem?_take]
    simp only [List.length_take]
    have h1 : min b vs.length = b := by omega
    rw [h1, if_pos (by omega : b - 1 < b), ← List.get?_eq_getElem?]
    exact hmedv
  have hdropK : (ks.take b).dropLast = ks.take (b - 1) := by
    rw [List.dropLast_eq_take, List.length_take, List.take_take]
    congr 1
    omega
  have hdropV : (vs.take b).dropLast = vs.take (b - 1) := by
    rw [List.dropLast_eq_take, List.length_take, List.take_take]
    congr 1
    omega
  refine ⟨medk, medv, ?_, rfl, rfl⟩
  unfold Node.split splitList splitForest
  simp only [Node.keys, Node.vals, Node.edges, hsplitK, hsplitV, hlastK,
    hlastV, hdropK, hdropV]
  split <;> rfl

/-- Introduction form for `Node.wf` at a leaf. -/
theorem Node.wf_leaf_mk {K V : Type} {b lo : Nat} {ks : List K}
    {vs : List V} (h1 : vs.length = ks.length) (h2 : lo ≤ ks.length)
    (h3 : ks.length ≤ 2 * b - 1) :
    Node.wf b lo 1 (Node.mk ks vs Forest.nil) := by
  unfold Node.wf
  exact ⟨h1, h2, h3, fun _ => rfl, fun h => absurd rfl h⟩

/-- Elimination form for `Node.wf` at a leaf. -/
theorem Node.wf_leaf_elim {K V : Type} {b lo d : Nat} {ks : List K}
    {vs : List V} (h : Node.wf b lo d (Node.mk ks vs Forest.nil)) :
    vs.length = ks.length ∧ lo ≤ ks.length ∧ ks.length ≤ 2 * b - 1 ∧
      d = 1 := by
  unfold Node.wf at h
  exact ⟨h.1, h.2.1, h.2.2.1, h.2.2.2.1 rfl⟩

/-- Introduction form for `Node.wf` at an internal node. -/
theorem Node.wf_internal_mk {K V : Type} {b lo d : Nat} {ks : List K}
    {vs : List V} {es : Forest K V} (hne : es ≠ Forest.nil)
    (h1 : vs.length = ks.length) (h2 : lo ≤ ks.length)
    (h3 : ks.length ≤ 2 * b - 1) (h4 : es.length = ks.length + 1)
    (h5 : 2 ≤ d) (h6 : Forest.wf b (b - 1) (d - 1) es) :
    Node.wf b lo d (Node.mk ks vs es) := by
  unfold Node.wf
  exact ⟨h1, h2, h3, fun h => absurd h hne, fun _ => ⟨h4, h5, h6⟩⟩

/-- Elimination form for `Node.wf` at an internal node. -/
theorem Node.wf_internal_elim {K V : Type} {b lo d : Nat} {ks : List K}
    {vs : List V} {es : Forest K V} (hne : es ≠ Forest.nil)
    (h : Node.wf b lo d (Node.mk ks vs es)) :
    vs.length = ks.length ∧ lo ≤ ks.length ∧ ks.length ≤ 2 * b - 1 ∧
      es.length = ks.length + 1 ∧ 2 ≤ d ∧
      Forest.wf b (b - 1) (d - 1) es := by
  unfold Node.wf at h
  obtain ⟨h1, h2, h3, -, h5⟩ := h
  obtain ⟨h4, h5', h6⟩ := h5 hne
  exact ⟨h1, h2, h3, h4, h5', h6⟩

/-- `insert_fit_as_leaf` component arithmetic packaged as a `wf` fact. -/
theorem wf_leaf_insertIdx {K V : Type} {b lo : Nat} {ks : List K}
    {vs : List V} {index : Nat} {key : K} {val : V}
    (hv : vs.length = ks.length) (hidx : index ≤ ks.length)
    (h2 : lo ≤ ks.length + 1) (h3 : ks.length + 1 ≤ 2 * b - 1) :
    Node.wf b lo 1 (Node.mk (List.insertIdx index key ks)
      (List.insertIdx index val vs) Forest.nil) := by
  have hk : (List.insertIdx index key ks).length = ks.length + 1 :=
    List.length_insertIdx index ks hidx
  have hv' : (List.insertIdx index val vs).length = vs.length + 1 :=
    List.length_insertIdx index vs (by omega)
  exact Node.wf_leaf_mk (by simp only [hk, hv']; omega) (by simp only [hk]; omega)
    (by simp only [hk]; omega)

/-- `insert_as_leaf` on a well-formed leaf with a valid index: it never
panics, a `Fit` keeps the invariant, and a `Split` leaves both halves
well-formed at minimum load `b - 1`. -/
theorem insert_as_leaf_wf {K V : Type} (b lo : Nat) (hb : 2 ≤ b)
    (ks : List K) (vs : List V) (index : Nat) (key : K) (val : V)
    (hwf : Node.wf b lo 1 (Node.mk ks vs Forest.nil))
    (hlo : lo ≤ b - 1)
    (hidx : index ≤ ks.length) :
    ∃ res, Node.insert_as_leaf (2 * b - 1) (Node.mk ks vs Forest.nil)
        index key val = some res ∧
      ((∃ n', res = (n', .Fit) ∧ Node.wf b lo 1 n' ∧
          n'.len = ks.length + 1 ∧ n'.edges = Forest.nil) ∨
       (∃ n' k v r, res = (n', .Split k v r) ∧ Node.wf b (b - 1) 1 n' ∧
          Node.wf b (b - 1) 1 r ∧ n'.edges = Forest.nil)) := by
  obtain ⟨hv, hlo', hhi, -⟩ := Node.wf_leaf_elim hwf
  by_cases hfull : ks.length = 2 * b - 1
  · -- full: split first
    obtain ⟨medk, medv, hsplit, -, -⟩ :=
      split_eq b (by omega) ks vs Forest.nil hfull hv
    have hLk : (ks.take (b - 1)).length = b - 1 := by
      simp only [List.length_take]
      omega
    have hLv : (vs.take (b - 1)).length = b - 1 := by
      simp only [List.length_take]
      omega
    have hRk : (ks.drop b).length = b - 1 := by
      simp only [List.length_drop]
      omega
    have hRv : (vs.drop b).length = b - 1 := by
      simp only [List.length_drop]
      omega
    unfold Node.insert_as_leaf
    have hisfull : (Node.mk ks vs Forest.nil).is_full (2 * b - 1) = true := by
      simp [Node.is_full, Node.len, Node.keys, hfull]
    rw [if_neg (by simp [hisfull]), hsplit]
    simp only [Forest.isEmpty, if_pos]
    by_cases hix : index ≤ (Node.mk (ks.take (b - 1)) (vs.take (b - 1))
        Forest.nil).len
    · rw [if_pos hix]
      simp only [Node.len, Node.keys, hLk] at hix
      refine ⟨_, rfl, Or.inr ⟨_, _, _, _, rfl, ?_, ?_, rfl⟩⟩
      · unfold Node.insert_fit_as_leaf
        simp only [Node.keys, Node.vals, Node.edges]
        exact wf_leaf_insertIdx (by simp only [hLk, hLv]) (by simp only [hLk]; omega)
          (by simp only [hLk]; omega) (by simp only [hLk]; omega)
      · exact Node.wf_leaf_mk (by simp only [hRk, hRv]) (by simp only [hRk]; omega)
          (by simp only [hRk]; omega)
    · rw [if_neg hix]
      simp only [Node.len, Node.keys, hLk] at hix
      refine ⟨_, rfl, Or.inr ⟨_, _, _, _, rfl, ?_, ?_, rfl⟩⟩
      · exact Node.wf_leaf_mk (by simp only [hLk, hLv]) (by simp only [hLk]; omega)
          (by simp only [hLk]; omega)
      · unfold Node.insert_fit_as_leaf
        simp only [Node.keys, Node.vals, Node.edges, Node.len, hLk]
        exact wf_leaf_insertIdx (by simp only [hRk, hRv]) (by simp only [hRk]; omega)
          (by simp only [hRk]; omega) (by simp only [hRk]; omega)
  · -- spare capacity: plain insert
    unfold Node.insert_as_leaf
    have hfit : ¬ (Node.mk ks vs Forest.nil).is_full (2 * b - 1) = true := by
      simp [Node.is_full, Node.len, Node.keys, hfull]
    rw [if_pos (by simpa using hfit)]
    refine ⟨_, rfl, Or.inl ⟨_, rfl, ?_, ?_, rfl⟩⟩
    · unfold Node.insert_fit_as_leaf
      simp only [Node.keys, Node.vals, Node.edges]
      exact wf_leaf_insertIdx hv hidx (by omega) (by omega)
    · unfold Node.insert_fit_as_leaf Node.len
      simp only [Node.keys]
      exact List.length_insertIdx index ks hidx

/-- `Forest.wf` as a statement about all members of the child list. -/
theorem Forest.wf_iff_forall {K V : Type} {b lo d : Nat} :
    ∀ (f : Forest K V),
    Forest.wf b lo d f ↔ ∀ c ∈ f.toList, Node.wf b lo d c
  | .nil => by simp [Forest.wf]
  | .cons hd tl => by
    rw [show Forest.wf b lo d (.cons hd tl) =
      (Node.wf b lo d hd ∧ Forest.wf b lo d tl) from rfl,
      Forest.wf_iff_forall tl]
    simp

theorem Forest.isEmpty_false_of_length {K V : Type} {f : Forest K V}
    (h : 1 ≤ f.length) : f.isEmpty = false := by
  cases f with
  | nil => simp [Forest.length] at h
  | cons hd tl => rfl

/-- `insert_as_internal` on a well-formed internal configuration (the new
right child `r` is well-formed at child depth): no panic, `Fit` keeps the
invariant, `Split` leaves both halves well-formed at minimum load. -/
theorem insert_as_internal_wf {K V : Type} (b lo d : Nat) (hb : 2 ≤ b)
    (hd : 2 ≤ d) (ks : List K) (vs : List V) (es : Forest K V)
    (index : Nat) (key : K) (val : V) (r : Node K V)
    (hv : vs.length = ks.length) (hlo2 : lo ≤ ks.length)
    (hhi : ks.length ≤ 2 * b - 1) (hlo : lo ≤ b - 1)
    (hedge : es.length = ks.length + 1)
    (hch : Forest.wf b (b - 1) (d - 1) es)
    (hr : Node.wf b (b - 1) (d - 1) r)
    (hidx : index ≤ ks.length) :
    ∃ res, Node.insert_as_internal (2 * b - 1) (Node.mk ks vs es)
        index key val r = some res ∧
      ((∃ n', res = (n', .Fit) ∧ Node.wf b lo d n' ∧
          n'.len = ks.length + 1 ∧ n'.is_leaf = false) ∨
       (∃ n' k v rr, res = (n', .Split k v rr) ∧ Node.wf b (b - 1) d n' ∧
          Node.wf b (b - 1) d rr)) := by
  have hesL : es.toList.length = ks.length + 1 := by
    rw [← Forest.length_eq]
    exact hedge
  by_cases hfull : ks.length = 2 * b - 1
  · -- full: split first, then place the key/value/child in a half
    obtain ⟨medk, medv, hsplit, -, -⟩ :=
      split_eq b (by omega) ks vs es hfull hv
    have hne : es.isEmpty = false :=
      Forest.isEmpty_false_of_length (by rw [Forest.length_eq]; omega)
    have hesplit : es.length - es.length / 2 = b := by
      rw [Forest.length_eq]
      omega
    rw [hesplit, hne] at hsplit
    simp only [Bool.false_eq_true, if_false] at hsplit
    have hLk : (ks.take (b - 1)).length = b - 1 := by
      simp only [List.length_take]; omega
    have hLv : (vs.take (b - 1)).length = b - 1 := by
      simp only [List.length_take]; omega
    have hRk : (ks.drop b).length = b - 1 := by
      simp only [List.length_drop]; omega
    have hRv : (vs.drop b).length = b - 1 := by
      simp only [List.length_drop]; omega
    have hLe : (es.take b).toList.length = b := by
      simp only [Forest.toList_take, List.length_take]; omega
    have hRe : (es.drop b).toList.length = b := by
      simp only [Forest.toList_drop, List.length_drop]; omega
    have hLewf : Forest.wf b (b - 1) (d - 1) (es.take b) := by
      rw [Forest.wf_iff_forall]
      intro c hc
      rw [Forest.wf_iff_forall] at hch
      exact hch c (List.take_subset _ _ (by simpa [Forest.toList_take]
        using hc))
    have hRewf : Forest.wf b (b - 1) (d - 1) (es.drop b) := by
      rw [Forest.wf_iff_forall]
      intro c hc
      rw [Forest.wf_iff_forall] at hch
      exact hch c (List.drop_subset _ _ (by simpa [Forest.toList_drop]
        using hc))
    unfold Node.insert_as_internal
    have hisfull : (Node.mk ks vs es).is_full (2 * b - 1) = true := by
      simp [Node.is_full, Node.len, Node.keys, hfull]
    rw [if_neg (by simp [hisfull]), hsplit]
    simp only []
    by_cases hix : index ≤ (Node.mk (ks.take (b - 1)) (vs.take (b - 1))
        (es.take b)).len
    · rw [if_pos hix]
      simp only [Node.len, Node.keys, hLk] at hix
      refine ⟨_, rfl, Or.inr ⟨_, _, _, _, rfl, ?_, ?_⟩⟩
      · -- left half receives the triple
        unfold Node.insert_fit_as_internal
        simp only [Node.keys, Node.vals, Node.edges]
        have hk : (List.insertIdx index key (ks.take (b - 1))).length =
            b - 1 + 1 := by
          rw [List.length_insertIdx _ _ (by simp only [hLk]; omega), hLk]
        have hv' : (List.insertIdx index val (vs.take (b - 1))).length =
            b - 1 + 1 := by
          rw [List.length_insertIdx _ _ (by simp only [hLv]; omega), hLv]
        have he' : ((es.take b).insertIdx (index + 1) r).toList.length =
            b + 1 := by
          rw [Forest.toList_insertIdx,
            List.length_insertIdx _ _ (by simp only [hLe]; omega), hLe]
        refine Node.wf_internal_mk ?_ ?_ ?_ ?_ ?_ hd ?_
        · apply Forest.ne_nil_of_length
          rw [Forest.length_eq, he']
          omega
        · simp only [hk, hv']
        · simp only [hk]
          omega
        · simp only [hk]
          omega
        · rw [Forest.length_eq, he', hk]
          omega
        · rw [Forest.wf_iff_forall]
          intro c hc
          rw [Forest.toList_insertIdx] at hc
          rcases (List.mem_insertIdx (by simp only [hLe]; omega)).mp hc
            with h | h
          · exact h ▸ hr
          · rw [Forest.wf_iff_forall] at hLewf
            exact hLewf c h
      · -- untouched right half
        refine Node.wf_internal_mk ?_ ?_ ?_ ?_ ?_ hd hRewf
        · apply Forest.ne_nil_of_length
          rw [Forest.length_eq, hRe]
          omega
        · simp only [hRk, hRv]
        · simp only [hRk]
          omega
        · simp only [hRk]
          omega
        · rw [Forest.length_eq, hRe, hRk]
          omega
    · rw [if_neg hix]
      simp only [Node.len, Node.keys, hLk] at hix
      refine ⟨_, rfl, Or.inr ⟨_, _, _, _, rfl, ?_, ?_⟩⟩
      · -- untouched left half
        refine Node.wf_internal_mk ?_ ?_ ?_ ?_ ?_ hd hLewf
        · apply Forest.ne_nil_of_length
          rw [Forest.length_eq, hLe]
          omega
        · simp only [hLk, hLv]
        · simp only [hLk]
          omega
        · simp only [hLk]
          omega
        · rw [Forest.length_eq, hLe, hLk]
          omega
      · -- right half receives the triple
        unfold Node.insert_fit_as_internal
        simp only [Node.keys, Node.vals, Node.edges, Node.len, hLk]
        have hk : (List.insertIdx (index - (b - 1) - 1) key
            (ks.drop b)).length = b - 1 + 1 := by
          rw [List.length_insertIdx _ _ (by simp only [hRk]; omega), hRk]
        have hv' : (List.insertIdx (index - (b - 1) - 1) val
            (vs.drop b)).length = b - 1 + 1 := by
          rw [List.length_insertIdx _ _ (by simp only [hRv]; omega), hRv]
        have he' : ((es.drop b).insertIdx (index - (b - 1) - 1 + 1)
            r).toList.length = b + 1 := by
          rw [Forest.toList_insertIdx,
            List.length_insertIdx _ _ (by simp only [hRe]; omega), hRe]
        refine Node.wf_internal_mk ?_ ?_ ?_ ?_ ?_ hd ?_
        · apply Forest.ne_nil_of_length
          rw [Forest.length_eq, he']
          omega
        · simp only [hk, hv']
        · simp only [hk]
          omega
        · simp only [hk]
          omega
        · rw [Forest.length_eq, he', hk]
          omega
        · rw [Forest.wf_iff_forall]
          intro c hc
          rw [Forest.toList_insertIdx] at hc
          rcases (List.mem_insertIdx (by simp only [hRe]; omega)).mp hc
            with h | h
          · exact h ▸ hr
          · rw [Forest.wf_iff_forall] at hRewf
            exact hRewf c h
  · -- spare capacity: plain insert
    unfold Node.insert_as_internal
    have hfit : ¬ (Node.mk ks vs es).is_full (2 * b - 1) = true := by
      simp [Node.is_full, Node.len, Node.keys, hfull]
    rw [if_pos (by simpa using hfit)]
    refine ⟨_, rfl, Or.inl ⟨_, rfl, ?_, ?_, ?_⟩⟩
    · unfold Node.insert_fit_as_internal
      simp only [Node.keys, Node.vals, Node.edges]
      have hk : (List.insertIdx index key ks).length = ks.length + 1 :=
        List.length_insertIdx index ks hidx
      have hv' : (List.insertIdx index val vs).length = vs.length + 1 :=
        List.length_insertIdx index vs (by omega)
      have he' : (es.insertIdx (index + 1) r).toList.length =
          ks.length + 2 := by
        rw [Forest.toList_insertIdx,
          List.length_insertIdx _ _ (by omega), hesL]
      refine Node.wf_internal_mk ?_ ?_ ?_ ?_ ?_ hd ?_
      · apply Forest.ne_nil_of_length
        rw [Forest.length_eq, he']
        omega
      · simp only [hk, hv']
        omega
      · simp only [hk]
        omega
      · simp only [hk]
        omega
      · rw [Forest.length_eq, he', hk]
      · rw [Forest.wf_iff_forall]
        intro c hc
        rw [Forest.toList_insertIdx] at hc
        rcases (List.mem_insertIdx (by omega)).mp hc with h | h
        · exact h ▸ hr
        · rw [Forest.wf_iff_forall] at hch
          exact hch c h
    · unfold Node.insert_fit_as_internal Node.len
      simp only [Node.keys]
      exact List.length_insertIdx index ks hidx
    · unfold Node.insert_fit_as_internal Node.is_leaf
      simp only [Node.edges]
      rw [Forest.isEmpty_eq]
      have : (es.insertIdx (index + 1) r).toList.length = ks.length + 2 := by
        rw [Forest.toList_insertIdx,
          List.length_insertIdx _ _ (by omega), hesL]
      cases hE : (es.insertIdx (index + 1) r).toList with
      | nil => rw [hE] at this; simp at this
      | cons a l => simp

/-- `vals.set` keeps `Node.wf`. -/
theorem Node.wf_set_val {K V : Type} {b lo d i : Nat} {ks : List K}
    {vs : List V} {es : Forest K V} (val : V)
    (h : Node.wf b lo d (Node.mk ks vs es)) :
    Node.wf b lo d (Node.mk ks (vs.set i val) es) := by
  unfold Node.wf at h ⊢
  obtain ⟨h1, h2, h3, h4, h5⟩ := h
  exact ⟨by rw [List.length_set]; exact h1, h2, h3, h4, h5⟩

/-- Invariant-preservation contract for the result of `insertGo` on a
subtree that was well-formed at `(b, lo, d)`. -/
def InsOut {K V : Type} (b lo d : Nat) (n : Node K V) :
    TreeIns K V → Prop
  | .panic => False
  | .replaced _ n' => Node.wf b lo d n' ∧ n'.len = n.len ∧
      n'.is_leaf = n.is_leaf
  | .inserted n' .Fit => Node.wf b lo d n' ∧ n.len ≤ n'.len ∧
      n'.is_leaf = n.is_leaf
  | .inserted n' (.Split _ _ r) => Node.wf b (b - 1) d n' ∧
      Node.wf b (b - 1) d r

/-- Invariant-preservation contract for the result of `insertGoAt` on a
forest of children well-formed at `(b, b-1, e)`. -/
def ForestInsOut {K V : Type} (b e : Nat) (f : Forest K V) (i : Nat) :
    Option (ForestIns K V) → Prop
  | none => f.length ≤ i
  | some .panic => False
  | some (.replaced _ f') => Forest.wf b (b - 1) e f' ∧
      f'.length = f.length
  | some (.inserted f' .Fit) => Forest.wf b (b - 1) e f' ∧
      f'.length = f.length
  | some (.inserted f' (.Split _ _ r)) => Forest.wf b (b - 1) e f' ∧
      f'.length = f.length ∧ Node.wf b (b - 1) e r

mutual

/-- The insertion descent preserves the balance invariant (node level). -/
theorem insertGo_wf {K V : Type} [LinearOrder K] (b : Nat) (key : K)
    (val : V) : ∀ (n : Node K V) (lo d : Nat), 2 ≤ b → lo ≤ b - 1 →
    Node.wf b lo d n → InsOut b lo d n (Node.insertGo (2 * b - 1) key val n)
  | .mk ks vs es, lo, d, hb, hlo, hwf => by
    rcases hs : Node.searchLinearGo key ks 0 with i | i
    · -- Found: in-place value replacement
      have hik : i < ks.length ∧ ks.get? i = some key :=
        search_found_lt (n := Node.mk ks vs es)
          (show Node.search (Node.mk ks vs es) key = .Found i from hs)
      have hvlen : vs.length = ks.length := by
        obtain ⟨ks', vs', es'⟩ := (rfl : Node.mk ks vs es = Node.mk ks vs es)
        unfold Node.wf at hwf
        exact hwf.1
      rcases hv : vs.get? i with _ | old
      · rw [List.get?_eq_none] at hv
        omega
      have heq : Node.insertGo (2 * b - 1) key val (Node.mk ks vs es) =
          .replaced old (Node.mk ks (vs.set i val) es) := by
        unfold Node.insertGo
        rw [search_mk_eq]
        simp only [hs, hv]
      rw [heq]
      unfold InsOut
      exact ⟨Node.wf_set_val val hwf, rfl, rfl⟩
    · -- GoDown
      have hile : i ≤ ks.length := by
        obtain ⟨i', hi', hle, -, -⟩ := searchLinearGo_goDown key ks 0 i hs
        omega
      cases es with
      | nil =>
        -- leaf: insert in place (possibly splitting)
        obtain ⟨hv, hlo', hhi, hd1⟩ := Node.wf_leaf_elim hwf
        subst hd1
        obtain ⟨res, hres, hcase⟩ :=
          insert_as_leaf_wf b lo hb ks vs i key val hwf hlo hile
        have heq : Node.insertGo (2 * b - 1) key val
            (Node.mk ks vs Forest.nil) =
            .inserted res.1 res.2 := by
          unfold Node.insertGo
          rw [search_mk_eq]
          simp only [hs, Forest.insertGoAt, hres]
        rcases hcase with ⟨n', hres', hwf', hlen', hleaf'⟩ |
          ⟨n', k, v, r, hres', hwf', hwfr, hleaf'⟩
        · subst hres'
          rw [heq]
          unfold InsOut
          refine ⟨hwf', ?_, ?_⟩
          · simp only [Node.len, Node.keys] at hlen' ⊢
            omega
          · show n'.edges.isEmpty = (Node.mk ks vs Forest.nil).edges.isEmpty
            rw [hleaf']
            rfl
        · subst hres'
          rw [heq]
          unfold InsOut
          exact ⟨hwf', hwfr⟩
      | cons c f =>
        obtain ⟨hv, hlo', hhi, hedge, hd2, hch⟩ :=
          Node.wf_internal_elim (by intro h; cases h) hwf
        have hlt : i < (Forest.cons c f).length := by omega
        have IH := insertGoAt_wf b key val (Forest.cons c f) i (d - 1)
          hb hch
        rcases hw : Forest.insertGoAt (2 * b - 1) key val
            (Forest.cons c f) i with _ | r
        · rw [hw] at IH
          unfold ForestInsOut at IH
          omega
        rcases r with _ | ⟨old, f'⟩ | ⟨f', rr⟩
        · rw [hw] at IH
          unfold ForestInsOut at IH
          cases IH
        · -- replaced deeper down
          rw [hw] at IH
          unfold ForestInsOut at IH
          obtain ⟨hwf', hlen'⟩ := IH
          have heq : Node.insertGo (2 * b - 1) key val
              (Node.mk ks vs (Forest.cons c f)) =
              .replaced old (Node.mk ks vs f') := by
            unfold Node.insertGo
            rw [search_mk_eq]
            simp only [hs, hw]
          rw [heq]
          unfold InsOut
          refine ⟨?_, rfl, ?_⟩
          · exact Node.wf_internal_mk
              (Forest.ne_nil_of_length (by omega)) hv hlo' hhi
              (by omega) hd2 hwf'
          · have hfe : f'.isEmpty = false :=
              Forest.isEmpty_false_of_length (by omega)
            show f'.isEmpty = (Forest.cons c f).isEmpty
            rw [hfe]
            rfl
        · rcases rr with _ | ⟨k, v, r⟩
          · -- child fit
            rw [hw] at IH
            unfold ForestInsOut at IH
            obtain ⟨hwf', hlen'⟩ := IH
            have heq : Node.insertGo (2 * b - 1) key val
                (Node.mk ks vs (Forest.cons c f)) =
                .inserted (Node.mk ks vs f') .Fit := by
              unfold Node.insertGo
              rw [search_mk_eq]
              simp only [hs, hw]
            rw [heq]
            unfold InsOut
            refine ⟨?_, le_refl _, ?_⟩
            · exact Node.wf_internal_mk
                (Forest.ne_nil_of_length (by omega)) hv hlo' hhi
                (by omega) hd2 hwf'
            · have hfe : f'.isEmpty = false :=
                Forest.isEmpty_false_of_length (by omega)
              show f'.isEmpty = (Forest.cons c f).isEmpty
              rw [hfe]
              rfl
          · -- child split: insert into this node
            rw [hw] at IH
            unfold ForestInsOut at IH
            obtain ⟨hwf', hlen', hwfr⟩ := IH
            obtain ⟨res, hres, hcase⟩ :=
              insert_as_internal_wf b lo d hb hd2 ks vs f' i k v r
                hv hlo' hhi hlo (by omega) hwf' hwfr hile
            have heq : Node.insertGo (2 * b - 1) key val
                (Node.mk ks vs (Forest.cons c f)) =
                .inserted res.1 res.2 := by
              unfold Node.insertGo
              rw [search_mk_eq]
              simp only [hs, hw, hres]
            rcases hcase with ⟨n', hres', hwf'', hlen'', hleaf''⟩ |
              ⟨n', k', v', r', hres', hwf'', hwfr'⟩
            · subst hres'
              rw [heq]
              unfold InsOut
              refine ⟨hwf'', ?_, ?_⟩
              · simp only [Node.len, Node.keys] at hlen'' ⊢
                omega
              · rw [hleaf'']
                rfl
            · subst hres'
              rw [heq]
              unfold InsOut
              exact ⟨hwf'', hwfr'⟩

/-- The insertion descent preserves the balance invariant (forest level,
at a fixed child index). -/
theorem insertGoAt_wf {K V : Type} [LinearOrder K] (b : Nat) (key : K)
    (val : V) : ∀ (f : Forest K V) (i : Nat) (e : Nat), 2 ≤ b →
    Forest.wf b (b - 1) e f →
    ForestInsOut b e f i (Forest.insertGoAt (2 * b - 1) key val f i)
  | .nil, i, e, hb, hwf => by
    unfold Forest.insertGoAt ForestInsOut Forest.length
    omega
  | .cons c f, 0, e, hb, hwf => by
    obtain ⟨hc, hf⟩ := hwf
    have IH := insertGo_wf b key val c (b - 1) e hb (le_refl _) hc
    rcases hg : Node.insertGo (2 * b - 1) key val c with
      _ | ⟨old, c'⟩ | ⟨c', rr⟩
    · rw [hg] at IH
      unfold InsOut at IH
      cases IH
    · rw [hg] at IH
      unfold InsOut at IH
      obtain ⟨hwf', -, -⟩ := IH
      have heq : Forest.insertGoAt (2 * b - 1) key val (Forest.cons c f) 0 =
          some (.replaced old (.cons c' f)) := by
        unfold Forest.insertGoAt
        simp only [hg]
      rw [heq]
      unfold ForestInsOut
      exact ⟨⟨hwf', hf⟩, by simp [Forest.length]⟩
    · rcases rr with _ | ⟨k, v, r⟩
      · rw [hg] at IH
        unfold InsOut at IH
        obtain ⟨hwf', -, -⟩ := IH
        have heq : Forest.insertGoAt (2 * b - 1) key val
            (Forest.cons c f) 0 = some (.inserted (.cons c' f) .Fit) := by
          unfold Forest.insertGoAt
          simp only [hg]
        rw [heq]
        unfold ForestInsOut
        exact ⟨⟨hwf', hf⟩, by simp [Forest.length]⟩
      · rw [hg] at IH
        unfold InsOut at IH
        obtain ⟨hwf', hwfr⟩ := IH
        have heq : Forest.insertGoAt (2 * b - 1) key val
            (Forest.cons c f) 0 =
            some (.inserted (.cons c' f) (.Split k v r)) := by
          unfold Forest.insertGoAt
          simp only [hg]
        rw [heq]
        unfold ForestInsOut
        exact ⟨⟨hwf', hf⟩, by simp [Forest.length], hwfr⟩
  | .cons c f, i + 1, e, hb, hwf => by
    obtain ⟨hc, hf⟩ := hwf
    have IH := insertGoAt_wf b key val f i e hb hf
    rcases hg : Forest.insertGoAt (2 * b - 1) key val f i with _ | r
    · rw [hg] at IH
      unfold ForestInsOut at IH
      have heq : Forest.insertGoAt (2 * b - 1) key val
          (Forest.cons c f) (i + 1) = none := by
        unfold Forest.insertGoAt
        simp only [hg]
      rw [heq]
      unfold ForestInsOut Forest.length
      omega
    rcases r with _ | ⟨old, f'⟩ | ⟨f', rr⟩
    · rw [hg] at IH
      unfold ForestInsOut at IH
      cases IH
    · rw [hg] at IH
      unfold ForestInsOut at IH
      obtain ⟨hwf', hlen'⟩ := IH
      have heq : Forest.insertGoAt (2 * b - 1) key val
          (Forest.cons c f) (i + 1) =
          some (.replaced old (.cons c f')) := by
        unfold Forest.insertGoAt
        simp only [hg]
      rw [heq]
      unfold ForestInsOut
      exact ⟨⟨hc, hwf'⟩, by simp only [Forest.length_eq, Forest.toList_cons, List.length_cons] at hlen' ⊢; omega⟩
    · rcases rr with _ | ⟨k, v, r⟩
      · rw [hg] at IH
        unfold ForestInsOut at IH
        obtain ⟨hwf', hlen'⟩ := IH
        have heq : Forest.insertGoAt (2 * b - 1) key val
            (Forest.cons c f) (i + 1) =
            some (.inserted (.cons c f') .Fit) := by
          unfold Forest.insertGoAt
          simp only [hg]
        rw [heq]
        unfold ForestInsOut
        exact ⟨⟨hc, hwf'⟩, by simp only [Forest.length_eq, Forest.toList_cons, List.length_cons] at hlen' ⊢; omega⟩
      · rw [hg] at IH
        unfold ForestInsOut at IH
        obtain ⟨hwf', hlen', hwfr⟩ := IH
        have heq : Forest.insertGoAt (2 * b - 1) key val
            (Forest.cons c f) (i + 1) =
            some (.inserted (.cons c f') (.Split k v r)) := by
          unfold Forest.insertGoAt
          simp only [hg]
        rw [heq]
        unfold ForestInsOut
        exact ⟨⟨hc, hwf'⟩, by simp only [Forest.length_eq, Forest.toList_cons, List.length_cons] at hlen' ⊢; omega, hwfr⟩

end

/-- `BTreeMap::insert` preserves the map invariant (and never panics). -/
theorem insert_wf {K V : Type} [LinearOrder K] (m : BTreeMap K V)
    (hwf : m.wf) (key : K) (val : V) :
    ∃ res m', m.insert key val = some (res, m') ∧ m'.wf := by
  obtain ⟨hb, hroot, hpos⟩ := hwf
  have H := insertGo_wf m.b key val m.root 0 m.depth hb (by omega) hroot
  have hcap : capacity_from_b m.b = 2 * m.b - 1 := rfl
  rcases hg : Node.insertGo (2 * m.b - 1) key val m.root with
    _ | ⟨old, root'⟩ | ⟨root', rr⟩
  · rw [hg] at H
    unfold InsOut at H
    cases H
  · rw [hg] at H
    unfold InsOut at H
    obtain ⟨hwf', hlen', hleaf'⟩ := H
    refine ⟨some old, { m with root := root' }, ?_, hb, hwf', ?_⟩
    · unfold BTreeMap.insert
      rw [hcap, hg]
    · intro h
      have h' : root'.is_leaf = false := h
      rw [hleaf'] at h'
      have h2 := hpos h'
      show 1 ≤ root'.len
      omega
  · rcases rr with _ | ⟨k, v, r⟩
    · rw [hg] at H
      unfold InsOut at H
      obtain ⟨hwf', hlen', hleaf'⟩ := H
      refine ⟨none, { m with root := root', length := m.length + 1 },
        ?_, hb, hwf', ?_⟩
      · unfold BTreeMap.insert
        rw [hcap, hg]
      · intro h
        have h' : root'.is_leaf = false := h
        rw [hleaf'] at h'
        have h2 := hpos h'
        show 1 ≤ root'.len
        omega
    · rw [hg] at H
      unfold InsOut at H
      obtain ⟨hwf', hwfr⟩ := H
      have hd1 : 1 ≤ m.depth := Node.wf_depth hroot
      refine ⟨none,
        { m with root := Node.make_internal_root root' k v r,
                 length := m.length + 1, depth := m.depth + 1 },
        ?_, hb, ?_, ?_⟩
      · unfold BTreeMap.insert
        rw [hcap, hg]
      · show Node.wf m.b 0 (m.depth + 1)
          (Node.make_internal_root root' k v r)
        unfold Node.make_internal_root
        refine Node.wf_internal_mk (by intro h; cases h) rfl (by omega)
          (by simp; omega) (by simp [Forest.length]) (by omega) ?_
        exact ⟨by simpa using hwf', by simpa using hwfr, trivial⟩
      · intro _
        simp [Node.make_internal_root, Node.len, Node.keys]

/-- Every in-range index of a forest holds a child. -/
theorem Forest.get?_some_of_lt {K V : Type} {f : Forest K V} {i : Nat}
    (h : i < f.length) : ∃ c, f.get? i = some c := by
  rcases hg : f.get? i with _ | c
  · rw [Forest.get?_eq, List.get?_eq_none] at hg
    rw [Forest.length_eq] at h
    omega
  · exact ⟨c, rfl⟩

/-- `set` on a forest whose members are well-formed except possibly at the
written index. -/
theorem Forest.wf_set_of {K V : Type} {b lo d : Nat} {f : Forest K V}
    {i : Nat} {x : Node K V}
    (hf : ∀ j c, f.get? j = some c → j ≠ i → Node.wf b lo d c)
    (hx : Node.wf b lo d x) : Forest.wf b lo d (f.set i x) := by
  apply Forest.wf_of_get?
  intro j c hget
  rw [Forest.get?_eq, Forest.toList_set, List.get?_eq_getElem?,
    List.getElem?_set] at hget
  by_cases hij : i = j
  · rw [if_pos hij] at hget
    split at hget
    · cases hget
      exact hx
    · cases hget
  · rw [if_neg hij] at hget
    refine hf j c ?_ (fun h => hij h.symm)
    rw [Forest.get?_eq, List.get?_eq_getElem?]
    exact hget

/-- `Node::absorb` of two same-depth well-formed nodes whose combined load
is within bounds yields a well-formed node. -/
theorem absorb_wf {K V : Type} (b e lol loc : Nat) (hb : 2 ≤ b)
    (l c : Node K V) (pk : K) (pv : V)
    (hl : Node.wf b lol e l) (hc : Node.wf b loc e c)
    (hlen : b - 1 ≤ l.len + c.len + 1)
    (hhi : l.len + c.len + 1 ≤ 2 * b - 1) :
    Node.wf b (b - 1) e (l.absorb pk pv c) ∧
    (l.absorb pk pv c).len = l.len + c.len + 1 := by
  obtain ⟨lks, lvs, les⟩ := l
  obtain ⟨cks, cvs, ces⟩ := c
  simp only [Node.len, Node.keys] at hlen hhi ⊢
  unfold Node.absorb
  simp only [Node.keys, Node.vals, Node.edges]
  have hlenabs : (lks ++ pk :: cks).length = lks.length + cks.length + 1 := by
    simp
    omega
  cases les with
  | nil =>
    obtain ⟨hv1, -, -, he1⟩ := Node.wf_leaf_elim hl
    subst he1
    cases ces with
    | nil =>
      obtain ⟨hv2, -, -, -⟩ := Node.wf_leaf_elim hc
      refine ⟨Node.wf_leaf_mk ?_ ?_ ?_, hlenabs⟩
      · simp only [List.length_append, List.length_cons]
        omega
      · rw [hlenabs]
        omega
      · rw [hlenabs]
        omega
    | cons chd ctl =>
      obtain ⟨-, -, -, -, he2, -⟩ :=
        Node.wf_internal_elim (by intro h; cases h) hc
      omega
  | cons lhd ltl =>
    obtain ⟨hv1, -, -, hle1, hd2, hwfl⟩ :=
      Node.wf_internal_elim (by intro h; cases h) hl
    cases ces with
    | nil =>
      have := (Node.wf_leaf_elim hc).2.2.2
      omega
    | cons chd ctl =>
      obtain ⟨hv2, -, -, hle2, -, hwfc⟩ :=
        Node.wf_internal_elim (by intro h; cases h) hc
      have happlen : ((Forest.cons lhd ltl).append
          (Forest.cons chd ctl)).length =
          (Forest.cons lhd ltl).length + (Forest.cons chd ctl).length := by
        simp only [Forest.length_eq, Forest.toList_append,
          List.length_append]
      refine ⟨Node.wf_internal_mk ?_ ?_ ?_ ?_ ?_ hd2 ?_, hlenabs⟩
      · apply Forest.ne_nil_of_length
        rw [happlen]
        simp only [Forest.length_eq] at hle1 ⊢
        omega
      · simp only [List.length_append, List.length_cons]
        omega
      · rw [hlenabs]
        omega
      · rw [hlenabs]
        omega
      · rw [happlen, hlenabs]
        omega
      · rw [Forest.wf_iff_forall]
        intro x hx
        rw [Forest.toList_append, List.mem_append] at hx
        rcases hx with hx | hx
        · exact (Forest.wf_iff_forall _).mp hwfl x hx
        · exact (Forest.wf_iff_forall _).mp hwfc x hx

theorem Forest.get?_set_ne {K V : Type} {f : Forest K V} {i j : Nat}
    (h : i ≠ j) (x : Node K V) : (f.set i x).get? j = f.get? j := by
  rw [Forest.get?_eq, Forest.toList_set, List.get?_eq_getElem?,
    List.getElem?_set_ne h, Forest.get?_eq, List.get?_eq_getElem?]

theorem Forest.getLast?_some_of_ne_nil {K V : Type} {f : Forest K V}
    (h : f ≠ .nil) : ∃ c, f.getLast? = some c ∧ ∃ j, f.get? j = some c := by
  rcases hg : f.getLast? with _ | c
  · rw [Forest.getLast?_eq, List.getLast?_eq_none_iff] at hg
    cases f with
    | nil => exact absurd rfl h
    | cons hd tl => cases hg
  · refine ⟨c, rfl, f.length - 1, ?_⟩
    rw [Forest.getLast?_eq, List.getLast?_eq_getElem?] at hg
    rw [Forest.get?_eq, List.get?_eq_getElem?, Forest.length_eq]
    exact hg

/-! ## In-order entry lists (deletion semantics) -/

mutual

/-- The in-order key/value entries of a subtree. -/
def Node.entries {K V : Type} : Node K V → List (K × V)
  | .mk ks vs es => Forest.entriesF es ks vs

/-- In-order entries of a forest of children interleaved with the parent's
separating pairs (an empty forest denotes a leaf, whose entries are the
zipped slots). -/
def Forest.entriesF {K V : Type} : Forest K V → List K → List V →
    List (K × V)
  | .nil, ks, vs => ks.zip vs
  | .cons c _, [], _ => Node.entries c
  | .cons c _, _, [] => Node.entries c
  | .cons c f, k :: ks, v :: vs =>
      Node.entries c ++ (k, v) :: Forest.entriesF f ks vs

end

/-- List-level twin of `Forest.entriesF`, for index surgery. -/
def entriesL {K V : Type} : List (Node K V) → List K → List V →
    List (K × V)
  | [], ks, vs => ks.zip vs
  | c :: _, [], _ => Node.entries c
  | c :: _, _, [] => Node.entries c
  | c :: cs, k :: ks, v :: vs =>
      Node.entries c ++ (k, v) :: entriesL cs ks vs

theorem entriesF_eq {K V : Type} :
    ∀ (f : Forest K V) (ks : List K) (vs : List V),
      Forest.entriesF f ks vs = entriesL f.toList ks vs
  | .nil, ks, vs => by
    simp [Forest.entriesF, entriesL]
  | .cons c f, [], vs => by
    simp [Forest.entriesF, entriesL]
  | .cons c f, k :: ks, [] => by
    simp [Forest.entriesF, entriesL]
  | .cons c f, k :: ks, v :: vs => by
    simp only [Forest.entriesF, Forest.toList_cons, entriesL]
    rw [entriesF_eq f ks vs]

/-- `Node.entries` through the list-level twin. -/
theorem entries_mk {K V : Type} (ks : List K) (vs : List V)
    (es : Forest K V) :
    Node.entries (Node.mk ks vs es) = entriesL es.toList ks vs := by
  rw [Node.entries]
  exact entriesF_eq es ks vs

/-- The continuation of `entriesL` after its first child. -/
def entriesTail {K V : Type} : List (Node K V) → List K → List V →
    List (K × V)
  | _, [], _ => []
  | _, _, [] => []
  | cs, k :: ks, v :: vs => (k, v) :: entriesL cs ks vs

theorem entriesL_cons {K V : Type} (c : Node K V) (cs : List (Node K V))
    (ks : List K) (vs : List V) :
    entriesL (c :: cs) ks vs = Node.entries c ++ entriesTail cs ks vs := by
  cases ks with
  | nil => simp [entriesL, entriesTail]
  | cons k ks =>
    cases vs with
    | nil => simp [entriesL, entriesTail]
    | cons v vs => simp [entriesL, entriesTail]

/-- The parent's own slots appear, in order, among the in-order entries. -/
theorem zip_sublist_entriesL {K V : Type} :
    ∀ (cs : List (Node K V)) (ks : List K) (vs : List V),
      List.Sublist (ks.zip vs) (entriesL cs ks vs)
  | [], ks, vs => by
    simp [entriesL]
  | c :: cs, [], vs => by
    simp [entriesL]
  | c :: cs, k :: ks, [] => by
    simp [entriesL]
  | c :: cs, k :: ks, v :: vs => by
    show List.Sublist ((k, v) :: ks.zip vs)
      (Node.entries c ++ (k, v) :: entriesL cs ks vs)
    exact ((zip_sublist_entriesL cs ks vs).cons₂ (k, v)).trans
      (List.sublist_append_right _ _)

/-- Positional decomposition of the in-order entries around the child at
index `i`, stable under replacing that child. -/
theorem entriesL_decomp_at {K V : Type} :
    ∀ (i : Nat) (cs : List (Node K V)) (ks : List K) (vs : List V)
      (c : Node K V),
      cs.length = ks.length + 1 → vs.length = ks.length →
      cs.get? i = some c →
      ∃ P S, entriesL cs ks vs = P ++ Node.entries c ++ S ∧
        ∀ x, entriesL (cs.set i x) ks vs = P ++ Node.entries x ++ S
  | _, [], _, _, _, _, _, hget => by simp at hget
  | 0, c0 :: cs, ks, vs, c, hlen, hv, hget => by
    simp only [List.get?_cons_zero, Option.some.injEq] at hget
    subst hget
    cases ks with
    | nil =>
      exact ⟨[], [], by simp [entriesL], fun x => by simp [entriesL]⟩
    | cons k ks' =>
      cases vs with
      | nil => simp at hv
      | cons v vs' =>
        exact ⟨[], (k, v) :: entriesL cs ks' vs',
          by simp [entriesL], fun x => by simp [entriesL]⟩
  | i + 1, c0 :: cs, ks, vs, c, hlen, hv, hget => by
    simp only [List.get?_cons_succ] at hget
    have hi : i < cs.length := by
      rcases Nat.lt_or_ge i cs.length with h | h
      · exact h
      · rw [List.get?_eq_none.mpr h] at hget
        cases hget
    cases ks with
    | nil =>
      simp only [List.length_cons, List.length_nil] at hlen
      omega
    | cons k ks' =>
      cases vs with
      | nil => simp at hv
      | cons v vs' =>
        simp only [List.length_cons] at hlen hv
        obtain ⟨P, S, h1, h2⟩ := entriesL_decomp_at i cs ks' vs' c
          (by omega) (by omega) hget
        refine ⟨Node.entries c0 ++ (k, v) :: P, S, ?_, ?_⟩
        · simp [entriesL, h1]
        · intro x
          show entriesL (c0 :: cs.set i x) (k :: ks') (v :: vs') = _
          simp [entriesL, h2 x]

/-- Positional decomposition of the in-order entries around the block
(child `i`, slot `i`, child `i + 1`), stable under replacing the block by
two children and one pair (a rotation) or by one merged child. -/
theorem entriesL_decomp_pair {K V : Type} :
    ∀ (i : Nat) (cs : List (Node K V)) (ks : List K) (vs : List V)
      (c1 c2 : Node K V) (k : K) (v : V),
      cs.length = ks.length + 1 → vs.length = ks.length →
      cs.get? i = some c1 → cs.get? (i + 1) = some c2 →
      ks.get? i = some k → vs.get? i = some v →
      ∃ P S,
        entriesL cs ks vs =
          P ++ Node.entries c1 ++ (k, v) :: Node.entries c2 ++ S ∧
        (∀ x y k' v',
          entriesL ((cs.set i x).set (i + 1) y) (ks.set i k')
            (vs.set i v') =
          P ++ Node.entries x ++ (k', v') :: Node.entries y ++ S) ∧
        (∀ x,
          entriesL ((cs.eraseIdx (i + 1)).set i x) (ks.eraseIdx i)
            (vs.eraseIdx i) = P ++ Node.entries x ++ S)
  | _, [], _, _, _, _, _, _, _, _, hg1, _, _, _ => by simp at hg1
  | 0, c0 :: cs, [], vs, c1, c2, k, v, _, _, _, _, hk, _ => by
    simp at hk
  | 0, c0 :: cs, k0 :: ks, [], c1, c2, k, v, _, _, _, _, _, hvv => by
    simp at hvv
  | 0, c0 :: cs, k0 :: ks, v0 :: vs, c1, c2, k, v, hlen, hv, hg1, hg2,
      hk, hvv => by
    simp only [List.get?_cons_zero, Option.some.injEq] at hg1 hk hvv
    subst hg1
    subst hk
    subst hvv
    simp only [List.get?_cons_succ] at hg2
    cases cs with
    | nil => simp at hg2
    | cons c2' cs' =>
      simp only [List.get?_cons_zero, Option.some.injEq] at hg2
      subst hg2
      refine ⟨[], entriesTail cs' ks vs, ?_, ?_, ?_⟩
      · show Node.entries c0 ++ (k0, v0) :: entriesL (c2' :: cs') ks vs = _
        rw [entriesL_cons]
        simp
      · intro x y k' v'
        show entriesL (x :: y :: cs') (k' :: ks) (v' :: vs) = _
        show Node.entries x ++ (k', v') :: entriesL (y :: cs') ks vs = _
        rw [entriesL_cons]
        simp
      · intro x
        show entriesL (x :: cs') ks vs = _
        rw [entriesL_cons]
        simp
  | i + 1, c0 :: cs, [], vs, c1, c2, k, v, _, _, _, _, hk, _ => by
    simp at hk
  | i + 1, c0 :: cs, k0 :: ks, [], c1, c2, k, v, _, _, _, _, _, hvv => by
    simp at hvv
  | i + 1, c0 :: cs, k0 :: ks, v0 :: vs, c1, c2, k, v, hlen, hv, hg1,
      hg2, hk, hvv => by
    simp only [List.get?_cons_succ] at hg1 hg2 hk hvv
    simp only [List.length_cons] at hlen hv
    obtain ⟨P, S, h1, h2, h3⟩ := entriesL_decomp_pair i cs ks vs c1 c2
      k v (by omega) (by omega) hg1 hg2 hk hvv
    refine ⟨Node.entries c0 ++ (k0, v0) :: P, S, ?_, ?_, ?_⟩
    · simp [entriesL, h1]
    · intro x y k' v'
      show entriesL (c0 :: (cs.set i x).set (i + 1) y)
        (k0 :: ks.set i k') (v0 :: vs.set i v') = _
      simp [entriesL, h2 x y k' v']
    · intro x
      show entriesL (c0 :: (cs.eraseIdx (i + 1)).set i x)
        (k0 :: ks.eraseIdx i) (v0 :: vs.eraseIdx i) = _
      simp [entriesL, h3 x]

/-- `entriesL` over appended parents (the in-order entries of `absorb`). -/
theorem entriesL_append {K V : Type} (k : K) (v : V) :
    ∀ (cs1 : List (Node K V)) (ks1 : List K) (vs1 : List V)
      (cs2 : List (Node K V)) (ks2 : List K) (vs2 : List V),
      cs1.length = ks1.length + 1 → vs1.length = ks1.length →
      entriesL (cs1 ++ cs2) (ks1 ++ k :: ks2) (vs1 ++ v :: vs2) =
        entriesL cs1 ks1 vs1 ++ (k, v) :: entriesL cs2 ks2 vs2
  | [], ks1, vs1, _, _, _, hlen, _ => by simp at hlen
  | c :: cs1', [], vs1, cs2, ks2, vs2, hlen, hv => by
    simp only [List.length_cons, List.length_nil] at hlen hv
    have h1 : cs1' = [] := List.length_eq_zero.mp (by omega)
    have h2 : vs1 = [] := List.length_eq_zero.mp hv
    subst h1
    subst h2
    simp [entriesL]
  | c :: cs1', k1 :: ks1', vs1, cs2, ks2, vs2, hlen, hv => by
    cases vs1 with
    | nil => simp at hv
    | cons v1 vs1' =>
      simp only [List.length_cons] at hlen hv
      simp only [List.cons_append]
      simp only [entriesL]
      rw [entriesL_append k v cs1' ks1' vs1' cs2 ks2 vs2 (by omega)
        (by omega)]
      simp

/-- `steal_to_left` at a well-formed configuration: the parent keeps its key
count, and all children (the shrunken left donor and the replenished
underfull child included) are well-formed. -/
theorem steal_to_left_wf {K V : Type} (b d : Nat) (hb : 2 ≤ b)
    (hd : 2 ≤ d) (ks : List K) (vs : List V) (es : Forest K V) (i : Nat)
    (l c : Node K V)
    (hv : vs.length = ks.length) (hedge : es.length = ks.length + 1)
    (hi1 : 1 ≤ i) (hi : i ≤ ks.length)
    (hgl : es.get? (i - 1) = some l) (hgc : es.get? i = some c)
    (hwl : Node.wf b (b - 1) (d - 1) l) (hllen : b - 1 < l.len)
    (hwc : Node.wf b (b - 2) (d - 1) c) (hclen : c.len = b - 2)
    (hoth : ∀ j x, es.get? j = some x → j ≠ i - 1 → j ≠ i →
      Node.wf b (b - 1) (d - 1) x) :
    ∃ p', (Node.mk ks vs es).steal_to_left i = some p' ∧
      ∃ ks' vs' es', p' = Node.mk ks' vs' es' ∧
        vs'.length = ks'.length ∧ ks'.length = ks.length ∧
        es'.length = ks'.length + 1 ∧
        Forest.wf b (b - 1) (d - 1) es' ∧
        Node.entries p' = Node.entries (Node.mk ks vs es) := by
  obtain ⟨lks, lvs, les⟩ := l
  obtain ⟨cks, cvs, ces⟩ := c
  simp only [Node.len, Node.keys] at hllen hclen
  have hlv : lvs.length = lks.length :=
    (id hwl : Node.wf b (b - 1) (d - 1) (Node.mk lks lvs les)).1
  have hcv : cvs.length = cks.length :=
    (id hwc : Node.wf b (b - 2) (d - 1) (Node.mk cks cvs ces)).1
  rcases hk : lks.getLast? with _ | klast
  · rw [List.getLast?_eq_none_iff] at hk
    subst hk
    simp at hllen
  rcases hvv : lvs.getLast? with _ | vlast
  · rw [List.getLast?_eq_none_iff] at hvv
    subst hvv
    simp at hlv
    omega
  rcases hpk : ks.get? (i - 1) with _ | pk
  · rw [List.get?_eq_none] at hpk
    omega
  rcases hpv : vs.get? (i - 1) with _ | pv
  · rw [List.get?_eq_none] at hpv
    omega
  have hne : i - 1 ≠ i := by omega
  have hright : (es.set (i - 1) (Node.mk lks.dropLast lvs.dropLast
      les.dropLast)).get? i = some (Node.mk cks cvs ces) := by
    rw [Forest.get?_set_ne hne]
    exact hgc
  have hk1 : lks.dropLast.length = lks.length - 1 := List.length_dropLast lks
  have hv1 : lvs.dropLast.length = lvs.length - 1 := List.length_dropLast lvs
  have hkset : (ks.set (i - 1) klast).length = ks.length :=
    List.length_set ks _ _
  have hvset : (vs.set (i - 1) vlast).length = vs.length :=
    List.length_set vs _ _
  have hsub : i - 1 + 1 = i := Nat.succ_pred_eq_of_pos hi1
  have hglL : es.toList.get? (i - 1) = some (Node.mk lks lvs les) := by
    rw [← Forest.get?_eq]
    exact hgl
  have hgcL : es.toList.get? (i - 1 + 1) = some (Node.mk cks cvs ces) := by
    rw [hsub, ← Forest.get?_eq]
    exact hgc
  have hlenL : es.toList.length = ks.length + 1 := by
    rw [← Forest.length_eq]
    exact hedge
  have hothers : ∀ j x, (es.set (i - 1) (Node.mk lks.dropLast lvs.dropLast
      les.dropLast)).get? j = some x → j ≠ i →
      Node.wf b (b - 1) (d - 1) x := by
    intro j x hgx hji
    rcases eq_or_ne j (i - 1) with hj | hj
    · subst hj
      rw [Forest.get?_eq, Forest.toList_set, List.get?_eq_getElem?,
        List.getElem?_set] at hgx
      rw [if_pos rfl] at hgx
      split at hgx
      · cases hgx
        -- the shrunken donor is well-formed
        cases les with
        | nil =>
          obtain ⟨-, -, hhi', hd1⟩ := Node.wf_leaf_elim hwl
          rw [hd1]
          exact Node.wf_leaf_mk (by rw [hk1, hv1]; omega)
            (by rw [hk1]; omega) (by rw [hk1]; omega)
        | cons lhd ltl =>
          obtain ⟨-, -, hhi', hle, hd2, hwfs⟩ :=
            Node.wf_internal_elim (by intro h; cases h) hwl
          have hlesL : (Forest.cons lhd ltl).length = lks.length + 1 := hle
          have hdropL : (Forest.dropLast (Forest.cons lhd ltl)).length =
              lks.length := by
            rw [Forest.length_eq, Forest.toList_dropLast,
              List.length_dropLast, ← Forest.length_eq, hlesL]
            omega
          refine Node.wf_internal_mk ?_ ?_ ?_ ?_ ?_ hd2 ?_
          · exact Forest.ne_nil_of_length (by rw [hdropL]; omega)
          · rw [hk1, hv1]
            omega
          · rw [hk1]
            omega
          · rw [hk1]
            omega
          · rw [hdropL, hk1]
            omega
          · rw [Forest.wf_iff_forall]
            intro x hx
            rw [Forest.toList_dropLast] at hx
            exact (Forest.wf_iff_forall _).mp hwfs x
              (List.dropLast_subset _ hx)
      · cases hgx
    · rw [Forest.get?_set_ne (fun h => hj h.symm)] at hgx
      exact hoth j x hgx hj hji
  cases les with
  | nil =>
    -- donor is a leaf: no edge moves
    obtain ⟨-, -, hlhi, hd1⟩ := Node.wf_leaf_elim hwl
    have hcleaf : ces = Forest.nil := by
      have h := Node.wf_leaf_iff hwc
      simp only [Node.edges] at h
      exact h.mpr hd1
    subst hcleaf
    have heq : (Node.mk ks vs es).steal_to_left i =
        some (Node.mk (ks.set (i - 1) klast) (vs.set (i - 1) vlast)
          ((es.set (i - 1) (Node.mk lks.dropLast lvs.dropLast
              Forest.nil.dropLast)).set i
            (Node.mk (pk :: cks) (pv :: cvs) Forest.nil))) := by
      unfold Node.steal_to_left
      simp only [Node.keys, Node.vals, Node.edges, hgl, hk, hvv, hpk, hpv,
        hright, Forest.getLast?]
    refine ⟨_, heq, ?_⟩
    refine ⟨_, _, _, rfl, ?_, ?_, ?_, ?_, ?_⟩
    · rw [hkset, hvset, hv]
    · exact hkset
    · simp only [Forest.length_eq, Forest.toList_set, List.length_set,
        hkset]
      rw [← Forest.length_eq, hedge]
    · apply Forest.wf_set_of (i := i) hothers
      rw [hd1]
      exact Node.wf_leaf_mk (by simp [hcv]) (by simp; omega)
        (by simp; omega)
    · -- the in-order entries are unchanged
      have hLdec : Node.entries (Node.mk lks lvs Forest.nil) =
          Node.entries (Node.mk lks.dropLast lvs.dropLast
            Forest.nil.dropLast) ++ [(klast, vlast)] := by
        show lks.zip lvs =
          lks.dropLast.zip lvs.dropLast ++ [(klast, vlast)]
        conv_lhs => rw [← List.dropLast_append_getLast? klast
            (Option.mem_def.mpr hk),
          ← List.dropLast_append_getLast? vlast (Option.mem_def.mpr hvv)]
        rw [List.zip_append (by rw [hk1, hv1, hlv])]
        rfl
      have hRdec : Node.entries (Node.mk (pk :: cks) (pv :: cvs)
          Forest.nil) = (pk, pv) ::
          Node.entries (Node.mk cks cvs Forest.nil) := rfl
      obtain ⟨P, S, hP1, hP2, -⟩ := entriesL_decomp_pair (i - 1)
        es.toList ks vs (Node.mk lks lvs Forest.nil)
        (Node.mk cks cvs Forest.nil) pk pv hlenL hv hglL hgcL hpk hpv
      have hP2' := hP2 (Node.mk lks.dropLast lvs.dropLast
        Forest.nil.dropLast) (Node.mk (pk :: cks) (pv :: cvs)
        Forest.nil) klast vlast
      rw [hsub] at hP2'
      rw [entries_mk, entries_mk]
      simp only [Forest.toList_set]
      rw [hP2', hP1]
      simp only [hLdec, hRdec, List.append_assoc, List.cons_append,
        List.singleton_append, List.nil_append]
  | cons lhd ltl =>
    -- donor is internal: its last edge moves to the front of the child
    obtain ⟨-, -, hlhi, hle, hd2, hwfs⟩ :=
      Node.wf_internal_elim (by intro h; cases h) hwl
    obtain ⟨e, hge, j, hgj⟩ := Forest.getLast?_some_of_ne_nil
      (f := Forest.cons lhd ltl) (by intro h; cases h)
    have hwfe : Node.wf b (b - 1) (d - 1 - 1) e := Forest.wf_get? hwfs hgj
    have hcint : ces ≠ Forest.nil := by
      intro hnil'
      have h := Node.wf_leaf_iff hwc
      simp only [Node.edges] at h
      have := h.mp hnil'
      omega
    obtain ⟨-, -, -, hcle, -, hwcs⟩ := Node.wf_internal_elim hcint hwc
    have heq : (Node.mk ks vs es).steal_to_left i =
        some (Node.mk (ks.set (i - 1) klast) (vs.set (i - 1) vlast)
          ((es.set (i - 1) (Node.mk lks.dropLast lvs.dropLast
              (Forest.cons lhd ltl).dropLast)).set i
            (Node.mk (pk :: cks) (pv :: cvs) (Forest.cons e ces)))) := by
      unfold Node.steal_to_left
      simp only [Node.keys, Node.vals, Node.edges, hgl, hk, hvv, hpk, hpv,
        hright, hge]
    refine ⟨_, heq, ?_⟩
    refine ⟨_, _, _, rfl, ?_, ?_, ?_, ?_, ?_⟩
    · rw [hkset, hvset, hv]
    · exact hkset
    · simp only [Forest.length_eq, Forest.toList_set, List.length_set,
        hkset]
      rw [← Forest.length_eq, hedge]
    · apply Forest.wf_set_of (i := i) hothers
      refine Node.wf_internal_mk (by intro h; cases h) (by simp [hcv])
        (by simp; omega) (by simp; omega) ?_ (by omega) ?_
      · rw [Forest.length_eq] at hcle ⊢
        simp only [Forest.toList_cons, List.length_cons]
        omega
      · exact ⟨hwfe, hwcs⟩
    · -- the in-order entries are unchanged
      have hgetl : (Forest.cons lhd ltl).toList.getLast? = some e := by
        rw [← Forest.getLast?_eq]
        exact hge
      have hLdec : Node.entries (Node.mk lks lvs (Forest.cons lhd ltl)) =
          Node.entries (Node.mk lks.dropLast lvs.dropLast
            (Forest.cons lhd ltl).dropLast) ++
          (klast, vlast) :: Node.entries e := by
        rw [entries_mk, entries_mk, Forest.toList_dropLast]
        conv_lhs => rw [← List.dropLast_append_getLast? e
            (Option.mem_def.mpr hgetl)]
        conv_lhs => rw [← List.dropLast_append_getLast? klast
            (Option.mem_def.mpr hk),
          ← List.dropLast_append_getLast? vlast (Option.mem_def.mpr hvv)]
        rw [entriesL_append klast vlast _ _ _ _ _ _ ?_ ?_]
        · rfl
        · have h1 : (Forest.cons lhd ltl).toList.length =
              lks.length + 1 := by
            rw [← Forest.length_eq]
            exact hle
          rw [List.length_dropLast, List.length_dropLast, h1]
          omega
        · rw [List.length_dropLast, List.length_dropLast, hlv]
      have hRdec : Node.entries (Node.mk (pk :: cks) (pv :: cvs)
          (Forest.cons e ces)) = Node.entries e ++ (pk, pv) ::
          Node.entries (Node.mk cks cvs ces) := by
        simp only [entries_mk, Forest.toList_cons]
        rfl
      obtain ⟨P, S, hP1, hP2, -⟩ := entriesL_decomp_pair (i - 1)
        es.toList ks vs (Node.mk lks lvs (Forest.cons lhd ltl))
        (Node.mk cks cvs ces) pk pv hlenL hv hglL hgcL hpk hpv
      have hP2' := hP2 (Node.mk lks.dropLast lvs.dropLast
        (Forest.cons lhd ltl).dropLast) (Node.mk (pk :: cks) (pv :: cvs)
        (Forest.cons e ces)) klast vlast
      rw [hsub] at hP2'
      rw [entries_mk, entries_mk]
      simp only [Forest.toList_set]
      rw [hP2', hP1]
      simp only [hLdec, hRdec, List.append_assoc, List.cons_append,
        List.singleton_append, List.nil_append]

/-- `steal_to_right` at a well-formed configuration (the underfull child at
`i` borrows the right sibling's first entry through the parent slot `i`). -/
theorem steal_to_right_wf {K V : Type} (b d : Nat) (hb : 2 ≤ b)
    (hd : 2 ≤ d) (ks : List K) (vs : List V) (es : Forest K V) (i : Nat)
    (c r : Node K V)
    (hv : vs.length = ks.length) (hedge : es.length = ks.length + 1)
    (hi : i < ks.length)
    (hgc : es.get? i = some c) (hgr : es.get? (i + 1) = some r)
    (hwr : Node.wf b (b - 1) (d - 1) r) (hrlen : b - 1 < r.len)
    (hwc : Node.wf b (b - 2) (d - 1) c) (hclen : c.len = b - 2)
    (hoth : ∀ j x, es.get? j = some x → j ≠ i → j ≠ i + 1 →
      Node.wf b (b - 1) (d - 1) x) :
    ∃ p', (Node.mk ks vs es).steal_to_right i = some p' ∧
      ∃ ks' vs' es', p' = Node.mk ks' vs' es' ∧
        vs'.length = ks'.length ∧ ks'.length = ks.length ∧
        es'.length = ks'.length + 1 ∧
        Forest.wf b (b - 1) (d - 1) es' ∧
        Node.entries p' = Node.entries (Node.mk ks vs es) := by
  obtain ⟨rks, rvs, res⟩ := r
  obtain ⟨cks, cvs, ces⟩ := c
  simp only [Node.len, Node.keys] at hrlen hclen
  have hrv : rvs.length = rks.length :=
    (id hwr : Node.wf b (b - 1) (d - 1) (Node.mk rks rvs res)).1
  have hcv : cvs.length = cks.length :=
    (id hwc : Node.wf b (b - 2) (d - 1) (Node.mk cks cvs ces)).1
  cases rks with
  | nil =>
    simp at hrlen
  | cons k rk =>
  cases rvs with
  | nil =>
    simp at hrv
  | cons v rv =>
  rcases hpk : ks.get? i with _ | pk
  · rw [List.get?_eq_none] at hpk
    omega
  rcases hpv : vs.get? i with _ | pv
  · rw [List.get?_eq_none] at hpv
    omega
  have hne : i + 1 ≠ i := by omega
  have hkset : (ks.set i k).length = ks.length := List.length_set ks _ _
  have hvset : (vs.set i v).length = vs.length := List.length_set vs _ _
  simp only [List.length_cons] at hrlen hrv
  have hgcL : es.toList.get? i = some (Node.mk cks cvs ces) := by
    rw [← Forest.get?_eq]
    exact hgc
  have hgrL : es.toList.get? (i + 1) =
      some (Node.mk (k :: rk) (v :: rv) res) := by
    rw [← Forest.get?_eq]
    exact hgr
  have hlenL : es.toList.length = ks.length + 1 := by
    rw [← Forest.length_eq]
    exact hedge
  cases res with
  | nil =>
    -- right sibling is a leaf
    obtain ⟨-, -, hrhi, hd1⟩ := Node.wf_leaf_elim hwr
    have hcleaf : ces = Forest.nil := by
      have h := Node.wf_leaf_iff hwc
      simp only [Node.edges] at h
      exact h.mpr hd1
    subst hcleaf
    have hright : (es.set (i + 1)
        (Node.mk rk rv Forest.nil)).get? i = some (Node.mk cks cvs
          Forest.nil) := by
      rw [Forest.get?_set_ne hne]
      exact hgc
    have heq : (Node.mk ks vs es).steal_to_right i =
        some (Node.mk (ks.set i k) (vs.set i v)
          ((es.set (i + 1) (Node.mk rk rv Forest.nil)).set i
            (Node.mk (cks ++ [pk]) (cvs ++ [pv]) Forest.nil))) := by
      unfold Node.steal_to_right
      simp only [Node.keys, Node.vals, Node.edges, hgr, hpk, hpv, hright]
    refine ⟨_, heq, _, _, _, rfl, ?_, ?_, ?_, ?_, ?_⟩
    · rw [hkset, hvset, hv]
    · exact hkset
    · simp only [Forest.length_eq, Forest.toList_set, List.length_set,
        hkset]
      rw [← Forest.length_eq, hedge]
    · apply Forest.wf_set_of (i := i)
      · intro j x hgx hji
        rcases eq_or_ne j (i + 1) with hj | hj
        · subst hj
          rw [Forest.get?_eq, Forest.toList_set, List.get?_eq_getElem?,
            List.getElem?_set] at hgx
          rw [if_pos rfl] at hgx
          split at hgx
          · cases hgx
            rw [hd1]
            exact Node.wf_leaf_mk (by omega) (by omega)
              (by simp only [List.length_cons] at hrhi; omega)
          · cases hgx
        · rw [Forest.get?_set_ne (fun h => hj h.symm)] at hgx
          exact hoth j x hgx hji hj
      · rw [hd1]
        exact Node.wf_leaf_mk (by simp [hcv]) (by simp; omega)
          (by simp; omega)
    · -- the in-order entries are unchanged
      have hLdec : Node.entries (Node.mk (cks ++ [pk]) (cvs ++ [pv])
          Forest.nil) = Node.entries (Node.mk cks cvs Forest.nil) ++
          [(pk, pv)] := by
        show (cks ++ [pk]).zip (cvs ++ [pv]) =
          cks.zip cvs ++ [(pk, pv)]
        rw [List.zip_append (by rw [hcv])]
        rfl
      have hRdec : Node.entries (Node.mk (k :: rk) (v :: rv)
          Forest.nil) = (k, v) ::
          Node.entries (Node.mk rk rv Forest.nil) := rfl
      obtain ⟨P, S, hP1, hP2, -⟩ := entriesL_decomp_pair i
        es.toList ks vs (Node.mk cks cvs Forest.nil)
        (Node.mk (k :: rk) (v :: rv) Forest.nil) pk pv hlenL hv
        hgcL hgrL hpk hpv
      have hP2' := hP2 (Node.mk (cks ++ [pk]) (cvs ++ [pv]) Forest.nil)
        (Node.mk rk rv Forest.nil) k v
      rw [entries_mk, entries_mk]
      simp only [Forest.toList_set]
      rw [List.set_comm _ _ _ hne, hP2', hP1]
      simp only [hLdec, hRdec, List.append_assoc, List.cons_append,
        List.singleton_append, List.nil_append]
  | cons e res' =>
    -- right sibling is internal: its first edge moves along
    have hrne : (Forest.cons e res') ≠ Forest.nil := by intro h; cases h
    obtain ⟨-, -, hrhi, hrle, hd2, hwfs⟩ := Node.wf_internal_elim hrne hwr
    have hwfe : Node.wf b (b - 1) (d - 1 - 1) e :=
      Forest.wf_get? hwfs (show (Forest.cons e res').get? 0 = some e
        from rfl)
    have hres' : res'.length = rk.length + 1 := by
      have : (Forest.cons e res').length = res'.length + 1 := by
        simp [Forest.length_eq]
      simp only [List.length_cons] at hrle
      omega
    have hcint : ces ≠ Forest.nil := by
      intro hnil'
      have h := Node.wf_leaf_iff hwc
      simp only [Node.edges] at h
      have := h.mp hnil'
      omega
    obtain ⟨-, -, -, hcle, hcd, hwcs⟩ := Node.wf_internal_elim hcint hwc
    have hright : (es.set (i + 1)
        (Node.mk rk rv res')).get? i = some (Node.mk cks cvs ces) := by
      rw [Forest.get?_set_ne hne]
      exact hgc
    have heq : (Node.mk ks vs es).steal_to_right i =
        some (Node.mk (ks.set i k) (vs.set i v)
          ((es.set (i + 1) (Node.mk rk rv res')).set i
            (Node.mk (cks ++ [pk]) (cvs ++ [pv])
              (ces.append (Forest.cons e Forest.nil))))) := by
      unfold Node.steal_to_right
      simp only [Node.keys, Node.vals, Node.edges, hgr, hpk, hpv, hright]
    refine ⟨_, heq, _, _, _, rfl, ?_, ?_, ?_, ?_, ?_⟩
    · rw [hkset, hvset, hv]
    · exact hkset
    · simp only [Forest.length_eq, Forest.toList_set, List.length_set,
        hkset]
      rw [← Forest.length_eq, hedge]
    · apply Forest.wf_set_of (i := i)
      · intro j x hgx hji
        rcases eq_or_ne j (i + 1) with hj | hj
        · subst hj
          rw [Forest.get?_eq, Forest.toList_set, List.get?_eq_getElem?,
            List.getElem?_set] at hgx
          rw [if_pos rfl] at hgx
          split at hgx
          · cases hgx
            -- the shrunken right sibling
            refine Node.wf_internal_mk ?_ (by omega) (by omega)
              (by simp only [List.length_cons] at hrhi; omega) ?_ hd2 ?_
            · exact Forest.ne_nil_of_length (by rw [hres']; omega)
            · rw [hres']
            · rw [Forest.wf_iff_forall]
              intro x hx
              refine (Forest.wf_iff_forall _).mp hwfs x ?_
              simp only [Forest.toList_cons]
              exact List.mem_cons_of_mem _ hx
          · cases hgx
        · rw [Forest.get?_set_ne (fun h => hj h.symm)] at hgx
          exact hoth j x hgx hji hj
      · -- the replenished child
        refine Node.wf_internal_mk ?_ (by simp [hcv]) (by simp; omega)
          (by simp; omega) ?_ (by omega) ?_
        · apply Forest.ne_nil_of_length
          rw [Forest.length_eq, Forest.toList_append]
          simp
        · rw [Forest.length_eq, Forest.toList_append]
          rw [Forest.length_eq] at hcle
          simp only [Forest.toList_cons, Forest.toList_nil,
            List.length_append, List.length_cons, List.length_nil]
          omega
        · rw [Forest.wf_iff_forall]
          intro x hx
          rw [Forest.toList_append] at hx
          rcases List.mem_append.mp hx with hx | hx
          · exact (Forest.wf_iff_forall _).mp hwcs x hx
          · simp only [Forest.toList_cons, Forest.toList_nil,
              List.mem_singleton] at hx
            exact hx ▸ hwfe
    · -- the in-order entries are unchanged
      have hcleL : ces.toList.length = cks.length + 1 := by
        rw [← Forest.length_eq]
        exact hcle
      have hLdec : Node.entries (Node.mk (cks ++ [pk]) (cvs ++ [pv])
          (ces.append (Forest.cons e Forest.nil))) =
          Node.entries (Node.mk cks cvs ces) ++ (pk, pv) ::
          Node.entries e := by
        rw [entries_mk, entries_mk, Forest.toList_append,
          Forest.toList_cons, Forest.toList_nil]
        rw [entriesL_append pk pv _ _ _ _ _ _ hcleL hcv]
        rfl
      have hRdec : Node.entries (Node.mk (k :: rk) (v :: rv)
          (Forest.cons e res')) = Node.entries e ++ (k, v) ::
          Node.entries (Node.mk rk rv res') := by
        simp only [entries_mk, Forest.toList_cons]
        rfl
      obtain ⟨P, S, hP1, hP2, -⟩ := entriesL_decomp_pair i
        es.toList ks vs (Node.mk cks cvs ces)
        (Node.mk (k :: rk) (v :: rv) (Forest.cons e res')) pk pv
        hlenL hv hgcL hgrL hpk hpv
      have hP2' := hP2 (Node.mk (cks ++ [pk]) (cvs ++ [pv])
        (ces.append (Forest.cons e Forest.nil)))
        (Node.mk rk rv res') k v
      rw [entries_mk, entries_mk]
      simp only [Forest.toList_set]
      rw [List.set_comm _ _ _ hne, hP2', hP1]
      simp only [hLdec, hRdec, List.append_assoc, List.cons_append,
        List.singleton_append, List.nil_append]

/-- `Forest.get?` is unchanged below an erased index. -/
theorem Forest.get?_eraseIdx_of_lt {K V : Type} {f : Forest K V} {i j : Nat}
    (h : j < i) : (f.eraseIdx i).get? j = f.get? j := by
  rw [Forest.get?_eq, Forest.get?_eq, Forest.toList_eraseIdx,
    List.get?_eq_getElem?, List.get?_eq_getElem?]
  exact List.getElem?_eraseIdx_of_lt _ _ _ h

/-- `Forest.get?` shifts by one at or above an erased index. -/
theorem Forest.get?_eraseIdx_of_ge {K V : Type} {f : Forest K V} {i j : Nat}
    (h : i ≤ j) : (f.eraseIdx i).get? j = f.get? (j + 1) := by
  rw [Forest.get?_eq, Forest.get?_eq, Forest.toList_eraseIdx,
    List.get?_eq_getElem?, List.get?_eq_getElem?]
  exact List.getElem?_eraseIdx_of_ge _ _ _ h

/-- `absorb` concatenates the in-order entries around the separator. -/
theorem absorb_entries {K V : Type} {b e lol lor : Nat} (l r : Node K V)
    (hl : Node.wf b lol e l) (hr : Node.wf b lor e r) (key : K) (val : V) :
    Node.entries (l.absorb key val r) =
      Node.entries l ++ (key, val) :: Node.entries r := by
  obtain ⟨lks, lvs, les⟩ := l
  obtain ⟨rks, rvs, res⟩ := r
  have hlv : lvs.length = lks.length :=
    (id hl : Node.wf b lol e (Node.mk lks lvs les)).1
  unfold Node.absorb
  simp only [Node.keys, Node.vals, Node.edges]
  cases les with
  | nil =>
    have hd1 : e = 1 := (Node.wf_leaf_elim hl).2.2.2
    have hres : res = Forest.nil := by
      have h := Node.wf_leaf_iff hr
      simp only [Node.edges] at h
      exact h.mpr hd1
    subst hres
    simp only [entries_mk, Forest.toList_append, Forest.toList_nil,
      List.append_nil, entriesL]
    rw [List.zip_append hlv.symm]
    rfl
  | cons lh lt =>
    have hle : (Forest.cons lh lt).length = lks.length + 1 :=
      (Node.wf_internal_elim (by intro h; cases h) hl).2.2.2.1
    simp only [entries_mk, Forest.toList_append]
    rw [entriesL_append key val _ _ _ _ _ _
      (by rw [← Forest.length_eq]; exact hle) hlv]

/-- `merge_children` at a well-formed configuration: the separating pair at
`li` and the child reference at `li + 1` are removed, and the absorbed node
replaces the child at `li`; the result keeps the forest invariant. -/
theorem merge_children_wf {K V : Type} (b d lol lor : Nat) (hb : 2 ≤ b)
    (ks : List K) (vs : List V) (es : Forest K V) (li : Nat) (l r : Node K V)
    (hv : vs.length = ks.length) (hedge : es.length = ks.length + 1)
    (hli : li < ks.length)
    (hgl : es.get? li = some l) (hgr : es.get? (li + 1) = some r)
    (hwl : Node.wf b lol (d - 1) l) (hwr : Node.wf b lor (d - 1) r)
    (hlen : b - 1 ≤ l.len + r.len + 1)
    (hhi : l.len + r.len + 1 ≤ 2 * b - 1)
    (hoth : ∀ j x, es.get? j = some x → j ≠ li → j ≠ li + 1 →
      Node.wf b (b - 1) (d - 1) x) :
    ∃ p', (Node.mk ks vs es).merge_children li = some p' ∧
      ∃ ks' vs' es', p' = Node.mk ks' vs' es' ∧
        vs'.length = ks'.length ∧ ks'.length + 1 = ks.length ∧
        es'.length = ks'.length + 1 ∧
        Forest.wf b (b - 1) (d - 1) es' ∧
        Node.entries p' = Node.entries (Node.mk ks vs es) := by
  rcases hk : ks.get? li with _ | key
  · rw [List.get?_eq_none] at hk
    omega
  rcases hval : vs.get? li with _ | val
  · rw [List.get?_eq_none] at hval
    omega
  have hgl' : (es.eraseIdx (li + 1)).get? li = some l := by
    rw [Forest.get?_eraseIdx_of_lt (Nat.lt_succ_self li)]
    exact hgl
  have heq : (Node.mk ks vs es).merge_children li =
      some (Node.mk (ks.eraseIdx li) (vs.eraseIdx li)
        ((es.eraseIdx (li + 1)).set li (l.absorb key val r))) := by
    unfold Node.merge_children
    simp only [Node.keys, Node.vals, Node.edges, hk, hval, hgr, hgl']
  have habs := absorb_wf b (d - 1) lol lor hb l r key val hwl hwr hlen hhi
  have hkse : (ks.eraseIdx li).length = ks.length - 1 := by
    rw [List.length_eraseIdx]
    rw [if_pos hli]
  have hvse : (vs.eraseIdx li).length = vs.length - 1 := by
    rw [List.length_eraseIdx]
    rw [if_pos (by omega)]
  have hese : (es.eraseIdx (li + 1)).length = es.length - 1 := by
    rw [Forest.length_eq, Forest.toList_eraseIdx, List.length_eraseIdx,
      ← Forest.length_eq]
    rw [if_pos (by rw [Forest.length_eq] at hedge ⊢; omega)]
  refine ⟨_, heq, _, _, _, rfl, ?_, ?_, ?_, ?_, ?_⟩
  · omega
  · omega
  · rw [Forest.length_eq, Forest.toList_set, List.length_set,
      ← Forest.length_eq, hese]
    omega
  · apply Forest.wf_set_of (i := li)
    · intro j x hgx hji
      rcases Nat.lt_or_ge j (li + 1) with hj | hj
      · rw [Forest.get?_eraseIdx_of_lt hj] at hgx
        exact hoth j x hgx hji (by omega)
      · rw [Forest.get?_eraseIdx_of_ge hj] at hgx
        exact hoth (j + 1) x hgx (by omega) (by omega)
    · exact habs.1
  · -- the in-order entries lose exactly the separating pair's slot
    obtain ⟨P, S, hP1, -, hP3⟩ := entriesL_decomp_pair li es.toList ks vs
      l r key val (by rw [← Forest.length_eq]; exact hedge) hv
      (by rw [← Forest.get?_eq]; exact hgl)
      (by rw [← Forest.get?_eq]; exact hgr) hk hval
    rw [entries_mk, entries_mk]
    simp only [Forest.toList_set, Forest.toList_eraseIdx]
    rw [hP3 (l.absorb key val r), hP1]
    rw [absorb_entries l r hwl hwr key val]
    simp only [List.append_assoc, List.cons_append]

/-- A well-formed node holds at least its minimum load. -/
theorem Node.wf_lo_le {K V : Type} {b lo d : Nat} {n : Node K V}
    (hwf : Node.wf b lo d n) : lo ≤ n.len := by
  obtain ⟨ks, vs, es⟩ := n
  unfold Node.wf at hwf
  exact hwf.2.1

/-- A well-formed node holds at most `2b - 1` entries. -/
theorem Node.wf_len_le {K V : Type} {b lo d : Nat} {n : Node K V}
    (hwf : Node.wf b lo d n) : n.len ≤ 2 * b - 1 := by
  obtain ⟨ks, vs, es⟩ := n
  unfold Node.wf at hwf
  exact hwf.2.2.1

/-- `handle_underflow` at a well-formed configuration: with an underfull
child of exactly `b - 2` entries at a valid index and every sibling holding
at least minimum load, it never panics; stealing keeps the parent's key
count, merging lowers it by one; the rebuilt child forest is well formed. -/
theorem handle_underflow_wf {K V : Type} (b d : Nat) (hb : 2 ≤ b)
    (hd : 2 ≤ d) (ks : List K) (vs : List V) (es : Forest K V) (i : Nat)
    (c : Node K V)
    (hv : vs.length = ks.length) (hedge : es.length = ks.length + 1)
    (hks1 : 1 ≤ ks.length) (hi : i ≤ ks.length)
    (hgc : es.get? i = some c)
    (hwc : Node.wf b (b - 2) (d - 1) c) (hclen : c.len = b - 2)
    (hoth : ∀ j x, es.get? j = some x → j ≠ i →
      Node.wf b (b - 1) (d - 1) x) :
    ∃ p', Node.handle_underflow (2 * b - 1) (Node.mk ks vs es) i =
        some p' ∧
      ∃ ks' vs' es', p' = Node.mk ks' vs' es' ∧
        vs'.length = ks'.length ∧
        (ks'.length = ks.length ∨ ks'.length + 1 = ks.length) ∧
        es'.length = ks'.length + 1 ∧
        Forest.wf b (b - 1) (d - 1) es' ∧
        Node.entries p' = Node.entries (Node.mk ks vs es) := by
  by_cases hipos : 0 < i
  · -- a left sibling exists: handle_underflow_to_left
    obtain ⟨l, hgl⟩ := Forest.get?_some_of_lt
      (show i - 1 < es.length by rw [Forest.length_eq] at hedge ⊢; omega)
    have hwl : Node.wf b (b - 1) (d - 1) l := hoth _ l hgl (by omega)
    have hdisp : Node.handle_underflow (2 * b - 1) (Node.mk ks vs es) i =
        Node.handle_underflow_to_left (2 * b - 1) (Node.mk ks vs es) i := by
      unfold Node.handle_underflow
      rw [if_pos (show i ≤ (Node.mk ks vs es).len from hi), if_pos hipos]
    have hto : Node.handle_underflow_to_left (2 * b - 1)
        (Node.mk ks vs es) i =
        (if l.len > b - 1 then (Node.mk ks vs es).steal_to_left i
         else (Node.mk ks vs es).merge_children (i - 1)) := by
      unfold Node.handle_underflow_to_left
      simp only [Node.edges, hgl, min_load_capacity_eq
        (show 1 ≤ b by omega)]
    by_cases hllen : b - 1 < l.len
    · obtain ⟨p', hp, ks', vs', es', hpe, h1, h2, h3, h4, h5⟩ :=
        steal_to_left_wf b d hb hd ks vs es i l c hv hedge
          (by omega) hi hgl hgc hwl hllen hwc hclen
          (fun j x hg _ hj2 => hoth j x hg hj2)
      refine ⟨p', ?_, ks', vs', es', hpe, h1, Or.inl h2, h3, h4, h5⟩
      rw [hdisp, hto, if_pos hllen]
      exact hp
    · have hlfloor : b - 1 ≤ l.len := Node.wf_lo_le hwl
      have hsub : i - 1 + 1 = i := Nat.succ_pred_eq_of_pos hipos
      obtain ⟨p', hp, ks', vs', es', hpe, h1, h2, h3, h4, h5⟩ :=
        merge_children_wf b d (b - 1) (b - 2) hb ks vs es (i - 1) l c
          hv hedge (by omega) hgl (by rw [hsub]; exact hgc) hwl hwc
          (by omega) (by omega)
          (fun j x hg _ hj2 => hoth j x hg (by omega))
      refine ⟨p', ?_, ks', vs', es', hpe, h1, Or.inr h2, h3, h4, h5⟩
      rw [hdisp, hto, if_neg hllen]
      exact hp
  · -- leftmost child: handle_underflow_to_right
    have hi0 : i = 0 := by omega
    subst hi0
    obtain ⟨r, hgr⟩ := Forest.get?_some_of_lt
      (show 1 < es.length by rw [Forest.length_eq] at hedge ⊢; omega)
    have hwr : Node.wf b (b - 1) (d - 1) r := hoth _ r hgr (by omega)
    have hdisp : Node.handle_underflow (2 * b - 1) (Node.mk ks vs es) 0 =
        Node.handle_underflow_to_right (2 * b - 1)
          (Node.mk ks vs es) 0 := by
      unfold Node.handle_underflow
      rw [if_pos (show 0 ≤ (Node.mk ks vs es).len from Nat.zero_le _),
        if_neg (by omega)]
    have hto : Node.handle_underflow_to_right (2 * b - 1)
        (Node.mk ks vs es) 0 =
        (if r.len > b - 1 then (Node.mk ks vs es).steal_to_right 0
         else (Node.mk ks vs es).merge_children 0) := by
      unfold Node.handle_underflow_to_right
      simp only [Node.edges, hgr, min_load_capacity_eq
        (show 1 ≤ b by omega)]
    by_cases hrlen : b - 1 < r.len
    · obtain ⟨p', hp, ks', vs', es', hpe, h1, h2, h3, h4, h5⟩ :=
        steal_to_right_wf b d hb hd ks vs es 0 c r hv hedge
          (by omega) hgc hgr hwr hrlen hwc hclen
          (fun j x hg hj0 _ => hoth j x hg hj0)
      refine ⟨p', ?_, ks', vs', es', hpe, h1, Or.inl h2, h3, h4, h5⟩
      rw [hdisp, hto, if_pos hrlen]
      exact hp
    · obtain ⟨p', hp, ks', vs', es', hpe, h1, h2, h3, h4, h5⟩ :=
        merge_children_wf b d (b - 2) (b - 1) hb ks vs es 0 c r
          hv hedge (by omega) hgc hgr hwc hwr (by omega)
          (by have := Node.wf_lo_le hwr; omega)
          (fun j x hg hj0 _ => hoth j x hg hj0)
      refine ⟨p', ?_, ks', vs', es', hpe, h1, Or.inr h2, h3, h4, h5⟩
      rw [hdisp, hto, if_neg hrlen]
      exact hp

theorem set_get?_self {α : Type} :
    ∀ (l : List α) (i : Nat) (a : α), l.get? i = some a → l.set i a = l
  | [], _, _, h => by simp at h
  | x :: l, 0, a, h => by
    simp only [List.get?_cons_zero, Option.some.injEq] at h
    rw [← h]
    rfl
  | x :: l, i + 1, a, h => by
    simp only [List.get?_cons_succ] at h
    show x :: l.set i a = x :: l
    rw [set_get?_self l i a h]

theorem zip_get?_some {α β : Type} :
    ∀ (ks : List α) (vs : List β) (i : Nat) (k : α) (v : β),
      ks.get? i = some k → vs.get? i = some v →
      (ks.zip vs).get? i = some (k, v)
  | [], _, _, _, _, hk, _ => by simp at hk
  | _ :: _, [], _, _, _, _, hv => by simp at hv
  | x :: ks, y :: vs, 0, k, v, hk, hv => by
    simp only [List.get?_cons_zero, Option.some.injEq] at hk hv
    simp [List.zip_cons_cons, hk, hv]
  | x :: ks, y :: vs, i + 1, k, v, hk, hv => by
    simp only [List.get?_cons_succ] at hk hv
    simpa [List.zip_cons_cons] using zip_get?_some ks vs i k v hk hv

theorem zip_eraseIdx {α β : Type} :
    ∀ (ks : List α) (vs : List β) (i : Nat),
      (ks.eraseIdx i).zip (vs.eraseIdx i) = (ks.zip vs).eraseIdx i
  | [], vs, i => by simp
  | k :: ks, [], i => by simp
  | k :: ks, v :: vs, 0 => rfl
  | k :: ks, v :: vs, i + 1 => by
    show (k :: ks.eraseIdx i).zip (v :: vs.eraseIdx i) = _
    simp only [List.zip_cons_cons, List.eraseIdx_cons_succ]
    rw [zip_eraseIdx ks vs i]

theorem split_at_get? {α : Type} (l : List α) (i : Nat) (a : α)
    (h : l.get? i = some a) :
    l = l.take i ++ a :: l.drop (i + 1) := by
  have hi : i < l.length := by
    rcases Nat.lt_or_ge i l.length with h' | h'
    · exact h'
    · rw [List.get?_eq_none.mpr h'] at h
      cases h
  have h1 := List.take_append_drop i l
  have h2 : l.drop i = a :: l.drop (i + 1) := by
    rw [List.drop_eq_getElem_cons hi]
    rw [List.get?_eq_getElem? , List.getElem?_eq_getElem hi] at h
    cases h
    rfl
  conv_lhs => rw [← h1]
  rw [h2]

/-- The lower load bound of `Node.wf` can be replaced by any bound the
node actually meets. -/
theorem Node.wf_of_le {K V : Type} {b lo lo' d : Nat} {n : Node K V}
    (hwf : Node.wf b lo d n) (h : lo' ≤ n.len) : Node.wf b lo' d n := by
  obtain ⟨ks, vs, es⟩ := n
  simp only [Node.len, Node.keys] at h
  unfold Node.wf at hwf ⊢
  obtain ⟨h1, -, h3, h4, h5⟩ := hwf
  exact ⟨h1, h, h3, h4, h5⟩

/-- Invariant-preservation contract for one `stepUnderflow`/`removeMin`/
`removeGo` outcome on a subtree that was well-formed at `(b, lo, d)`:
an early `stopped` pop has no pending underflow and left this node's key
count alone; the node stays well-formed with at most one key lost; a
pending `uf` means the node fell (just) below minimum load, and with no
pending underflow the original minimum load still holds. -/
def MinOut {K V : Type} (b lo d : Nat) (n : Node K V) :
    TreeMin K V → Prop
  | .panic => False
  | .found k v n' stopped uf =>
      (stopped = true → uf = false) ∧
      (stopped = true → n'.len = n.len) ∧
      Node.wf b (lo - 1) d n' ∧
      (uf = true → n'.len < b - 1) ∧
      (uf = false → Node.wf b lo d n') ∧
      Node.entries n = (k, v) :: Node.entries n'

/-- `MinOut` for `removeMinAt` over a forest of children well-formed at
`(b, b-1, e)`: only the child at the descent index may have dropped (to
exactly `b - 2` keys when an underflow is pending). -/
def ForestMinOut {K V : Type} (b e : Nat) (f : Forest K V) (i : Nat) :
    Option (ForestMin K V) → Prop
  | none => f.length ≤ i
  | some .panic => False
  | some (.found k v f' stopped uf) =>
      f'.length = f.length ∧
      (stopped = true → uf = false) ∧
      (∀ j x, f'.get? j = some x → j ≠ i → Node.wf b (b - 1) e x) ∧
      ∃ c c', f.get? i = some c ∧ f'.get? i = some c' ∧
        f' = f.set i c' ∧ Node.wf b (b - 2) e c' ∧
        (uf = true → c'.len = b - 2) ∧
        (uf = false → Node.wf b (b - 1) e c') ∧
        Node.entries c = (k, v) :: Node.entries c'

/-- The contract of `removeGo`, mirroring `MinOut` (an `absent` outcome
carries no obligations — the tree is returned unchanged). -/
def DelOut {K V : Type} (key : K) (b lo d : Nat) (n : Node K V) :
    TreeDel K V → Prop
  | .absent => True
  | .panic => False
  | .removed v n' stopped uf =>
      (stopped = true → uf = false) ∧
      (stopped = true → n'.len = n.len) ∧
      Node.wf b (lo - 1) d n' ∧
      (uf = true → n'.len < b - 1) ∧
      (uf = false → Node.wf b lo d n') ∧
      ∃ A B, Node.entries n = A ++ (key, v) :: B ∧
        Node.entries n' = A ++ B

/-- `DelOut` for `removeGoAt` over a forest of children. -/
def ForestDelOut {K V : Type} (key : K) (b e : Nat) (f : Forest K V)
    (i : Nat) : Option (ForestDel K V) → Prop
  | none => f.length ≤ i
  | some .absent => True
  | some .panic => False
  | some (.removed v f' stopped uf) =>
      f'.length = f.length ∧
      (stopped = true → uf = false) ∧
      (∀ j x, f'.get? j = some x → j ≠ i → Node.wf b (b - 1) e x) ∧
      ∃ c c', f.get? i = some c ∧ f'.get? i = some c' ∧
        f' = f.set i c' ∧ Node.wf b (b - 2) e c' ∧
        (uf = true → c'.len = b - 2) ∧
        (uf = false → Node.wf b (b - 1) e c') ∧
        ∃ A B, Node.entries c = A ++ (key, v) :: B ∧
          Node.entries c' = A ++ B

/-- One pop of the underflow-propagation loop keeps the invariant: the
rebuilt parent either passes through untouched (early return, no pending
underflow) or handles its child's underflow, after which its own pending
flag is exactly `is_underfull`. -/
theorem stepUnderflow_wf {K V : Type} (b d lo i : Nat) (hb : 2 ≤ b)
    (hd : 2 ≤ d) (hlo : lo ≤ b - 1)
    (ks : List K) (vs : List V) (es' : Forest K V) (st u : Bool)
    (hv : vs.length = ks.length) (hedge : es'.length = ks.length + 1)
    (hks1 : 1 ≤ ks.length) (hlo' : lo ≤ ks.length)
    (hhi : ks.length ≤ 2 * b - 1) (hi : i ≤ ks.length)
    (hsu : st = true → u = false)
    (hut : u = true → (∀ j x, es'.get? j = some x → j ≠ i →
        Node.wf b (b - 1) (d - 1) x) ∧
      ∃ c', es'.get? i = some c' ∧ Node.wf b (b - 2) (d - 1) c' ∧
        c'.len = b - 2)
    (huf : u = false → Forest.wf b (b - 1) (d - 1) es') :
    ∃ n'' st' u', stepUnderflow (2 * b - 1) (Node.mk ks vs es') i st u =
        some (n'', st', u') ∧
      (st' = true → u' = false) ∧
      (st' = true → n''.len = ks.length) ∧
      Node.wf b (lo - 1) d n'' ∧
      (u' = true → n''.len < b - 1) ∧
      (u' = false → Node.wf b lo d n'') ∧
      Node.entries n'' = Node.entries (Node.mk ks vs es') := by
  have hne : es' ≠ Forest.nil := Forest.ne_nil_of_length (by omega)
  cases st with
  | true =>
    have hu0 : u = false := hsu rfl
    subst hu0
    refine ⟨Node.mk ks vs es', true, false, ?_, ?_, ?_, ?_, ?_, ?_, rfl⟩
    · unfold stepUnderflow
      rw [if_pos rfl]
    · exact fun _ => rfl
    · exact fun _ => rfl
    · exact Node.wf_internal_mk hne hv (by omega) hhi hedge hd (huf rfl)
    · intro h
      cases h
    · exact fun _ =>
        Node.wf_internal_mk hne hv hlo' hhi hedge hd (huf rfl)
  | false =>
  cases u with
  | false =>
    refine ⟨Node.mk ks vs es', true, false, ?_, ?_, ?_, ?_, ?_, ?_, rfl⟩
    · unfold stepUnderflow
      rw [if_neg (by intro h; cases h), if_neg (by intro h; cases h)]
    · exact fun _ => rfl
    · exact fun _ => rfl
    · exact Node.wf_internal_mk hne hv (by omega) hhi hedge hd (huf rfl)
    · intro h
      cases h
    · exact fun _ =>
        Node.wf_internal_mk hne hv hlo' hhi hedge hd (huf rfl)
  | true =>
    obtain ⟨hothers, c', hgc, hwc, hclen⟩ := hut rfl
    obtain ⟨p', hp, ks', vs', es'', hpe, hpv, hpk, hpedge, hpwf, hpent⟩ :=
      handle_underflow_wf b d hb hd ks vs es' i c' hv hedge hks1 hi hgc
        hwc hclen hothers
    have heq : stepUnderflow (2 * b - 1) (Node.mk ks vs es') i false true =
        some (p', false, p'.is_underfull (2 * b - 1)) := by
      unfold stepUnderflow
      rw [if_neg (by intro h; cases h), if_pos rfl]
      simp only [hp]
    subst hpe
    have hplen : (Node.mk ks' vs' es'').len = ks'.length := rfl
    have hne' : es'' ≠ Forest.nil := Forest.ne_nil_of_length (by omega)
    refine ⟨_, _, _, heq, ?_, ?_, ?_, ?_, ?_, hpent⟩
    · intro h
      cases h
    · intro h
      cases h
    · exact Node.wf_internal_mk hne' hpv (by omega) (by omega) hpedge
        hd hpwf
    · intro h
      have := (is_underfull_true_iff (by omega)
        (Node.mk ks' vs' es'')).mp h
      omega
    · intro h
      have := (is_underfull_false_iff (by omega)
        (Node.mk ks' vs' es'')).mp h
      rw [hplen] at this
      exact Node.wf_internal_mk hne' hpv (by omega) (by omega) hpedge
        hd hpwf

mutual

/-- `leafify` + leaf removal + underflow pops preserve the invariant
(node level): removing the subtree minimum costs at most one key of this
node, and the returned flags describe the result exactly. -/
theorem removeMin_wf {K V : Type} (b : Nat) :
    ∀ (n : Node K V) (lo d : Nat), 2 ≤ b → lo ≤ b - 1 → 1 ≤ n.len →
    Node.wf b lo d n →
    MinOut b lo d n (Node.removeMin (2 * b - 1) n)
  | .mk ks vs es, lo, d, hb, hlo, hlen1, hwf => by
    cases es with
    | nil =>
      obtain ⟨hv, hlo', hhi, hd1⟩ := Node.wf_leaf_elim hwf
      subst hd1
      simp only [Node.len, Node.keys] at hlen1
      cases ks with
      | nil => simp at hlen1
      | cons k ks' =>
      cases vs with
      | nil => simp at hv
      | cons v vs' =>
      simp only [List.length_cons] at hv hlo' hhi
      have heq : Node.removeMin (2 * b - 1)
          (Node.mk (k :: ks') (v :: vs') Forest.nil) =
          .found k v (.mk ks' vs' Forest.nil) false
            ((Node.mk ks' vs' Forest.nil).is_underfull (2 * b - 1)) := by
        unfold Node.removeMin
        simp only [Forest.removeMinAt]
      rw [heq]
      unfold MinOut
      refine ⟨?_, ?_, ?_, ?_, ?_, rfl⟩
      · intro h
        cases h
      · intro h
        cases h
      · exact Node.wf_leaf_mk (by omega) (by omega) (by omega)
      · intro h
        have := (is_underfull_true_iff (by omega)
          (Node.mk ks' vs' Forest.nil)).mp h
        omega
      · intro h
        have := (is_underfull_false_iff (by omega)
          (Node.mk ks' vs' Forest.nil)).mp h
        simp only [Node.len, Node.keys] at this
        exact Node.wf_leaf_mk (by omega) (by omega) (by omega)
    | cons c f =>
      obtain ⟨hv, hlo', hhi, hedge, hd, hch⟩ :=
        Node.wf_internal_elim (by intro h; cases h) hwf
      have IH := removeMinAt_wf b (Forest.cons c f) 0 (d - 1) hb hch
      rcases hmin : Forest.removeMinAt (2 * b - 1) (Forest.cons c f) 0
        with _ | r
      · rw [hmin] at IH
        unfold ForestMinOut at IH
        rw [Forest.length_eq] at IH
        simp at IH
      rcases r with _ | ⟨k0, v0, es', st, u⟩
      · rw [hmin] at IH
        unfold ForestMinOut at IH
        cases IH
      · rw [hmin] at IH
        unfold ForestMinOut at IH
        obtain ⟨hflen, hsu, hothers, c0, c', hgc0, hgc', hset, hwc',
          hclt, hclf, hce⟩ := IH
        have hc0 : c0 = c := by
          have : (Forest.cons c f).get? 0 = some c := rfl
          rw [this] at hgc0
          cases hgc0
          rfl
        rw [hc0] at hce
        have hes' : es' = Forest.cons c' f := hset
        subst hes'
        simp only [Node.len, Node.keys] at hlen1
        obtain ⟨n'', st', u', hstep, s1, s2, s3, s4, s5, s6⟩ :=
          stepUnderflow_wf b d lo 0 hb hd hlo ks vs
            (Forest.cons c' f) st u hv
            (by omega) hlen1 hlo' hhi (Nat.zero_le _) hsu
            (fun hu => ⟨hothers, c', hgc', hwc', hclt hu⟩)
            (fun hu => Forest.wf_of_get? _ (fun j x hg => by
              rcases eq_or_ne j 0 with hj | hj
              · subst hj
                rw [hg] at hgc'
                cases hgc'
                exact hclf hu
              · exact hothers j x hg hj))
        have heq : Node.removeMin (2 * b - 1)
            (Node.mk ks vs (Forest.cons c f)) =
            .found k0 v0 n'' st' u' := by
          unfold Node.removeMin
          simp only [hmin, hstep]
        rw [heq]
        unfold MinOut
        refine ⟨s1, fun h => s2 h, s3, s4, s5, ?_⟩
        have h1 : Node.entries (Node.mk ks vs (Forest.cons c f)) =
            Node.entries c ++ entriesTail f.toList ks vs := by
          rw [entries_mk, Forest.toList_cons, entriesL_cons]
        have h2 : Node.entries (Node.mk ks vs (Forest.cons c' f)) =
            Node.entries c' ++ entriesTail f.toList ks vs := by
          rw [entries_mk, Forest.toList_cons, entriesL_cons]
        rw [h1, s6, h2, hce]
        simp

/-- `removeMin_wf` lifted to the child at a given index of a forest. -/
theorem removeMinAt_wf {K V : Type} (b : Nat) :
    ∀ (f : Forest K V) (i e : Nat), 2 ≤ b →
    Forest.wf b (b - 1) e f →
    ForestMinOut b e f i (Forest.removeMinAt (2 * b - 1) f i)
  | .nil, i, e, hb, hwf => by
    unfold Forest.removeMinAt ForestMinOut
    rw [Forest.length_eq]
    simp
  | .cons c f, 0, e, hb, hwf => by
    obtain ⟨hwc, hwf'⟩ := hwf
    have IH := removeMin_wf b c (b - 1) e hb (le_refl _)
      (by have := Node.wf_lo_le hwc; omega) hwc
    rcases hm : Node.removeMin (2 * b - 1) c with _ | ⟨k, v, c', st, u⟩
    · rw [hm] at IH
      unfold MinOut at IH
      cases IH
    · rw [hm] at IH
      unfold MinOut at IH
      obtain ⟨s1, s2, s3, s4, s5, s6⟩ := IH
      have hb2 : b - 1 - 1 = b - 2 := by omega
      rw [hb2] at s3
      have heq : Forest.removeMinAt (2 * b - 1) (Forest.cons c f) 0 =
          some (.found k v (.cons c' f) st u) := by
        unfold Forest.removeMinAt
        simp only [hm]
      rw [heq]
      unfold ForestMinOut
      refine ⟨?_, s1, ?_, c, c', rfl, rfl, rfl, s3, ?_, s5, s6⟩
      · rw [Forest.length_eq, Forest.length_eq]
        simp
      · intro j x hg hj
        rcases j with _ | j
        · exact absurd rfl hj
        · exact Forest.wf_get? hwf' hg
      · intro hu
        have h1 := Node.wf_lo_le s3
        have h2 := s4 hu
        omega
  | .cons c f, i + 1, e, hb, hwf => by
    obtain ⟨hwc, hwf'⟩ := hwf
    have IH := removeMinAt_wf b f i e hb hwf'
    rcases hm : Forest.removeMinAt (2 * b - 1) f i with _ | r
    · rw [hm] at IH
      unfold ForestMinOut at IH
      have heq : Forest.removeMinAt (2 * b - 1) (Forest.cons c f)
          (i + 1) = none := by
        unfold Forest.removeMinAt
        simp only [hm]
      rw [heq]
      unfold ForestMinOut
      rw [Forest.length_eq] at IH ⊢
      simp only [Forest.toList_cons, List.length_cons]
      omega
    rcases r with _ | ⟨k, v, f', st, u⟩
    · rw [hm] at IH
      unfold ForestMinOut at IH
      cases IH
    · rw [hm] at IH
      unfold ForestMinOut at IH
      obtain ⟨hflen, hsu, hothers, c0, c', hgc0, hgc', hset, hwc',
        hclt, hclf, hce⟩ := IH
      have heq : Forest.removeMinAt (2 * b - 1) (Forest.cons c f)
          (i + 1) = some (.found k v (.cons c f') st u) := by
        unfold Forest.removeMinAt
        simp only [hm]
      rw [heq]
      unfold ForestMinOut
      refine ⟨?_, hsu, ?_, c0, c', hgc0, hgc', ?_, hwc', hclt, hclf,
        hce⟩
      · rw [Forest.length_eq, Forest.length_eq] at hflen ⊢
        simp only [Forest.toList_cons, List.length_cons]
        omega
      · intro j x hg hj
        rcases j with _ | j
        · cases hg
          exact hwc
        · exact hothers j x hg (by omega)
      · show Forest.cons c f' = Forest.cons c (f.set i c')
        rw [hset]

end

mutual

/-- The removal descent preserves the balance invariant and removes exactly
one in-order entry carrying the searched key (node level). -/
theorem removeGo_wf {K V : Type} [LinearOrder K] (b : Nat) (key : K) :
    ∀ (n : Node K V) (lo d : Nat), 2 ≤ b → lo ≤ b - 1 →
    Node.wf b lo d n → (n.is_leaf = false → 1 ≤ n.len) →
    DelOut key b lo d n (Node.removeGo (2 * b - 1) key n)
  | .mk ks vs es, lo, d, hb, hlo, hwf, h1 => by
    rcases hs : Node.searchLinearGo key ks 0 with i | i
    · -- Found: the key sits at slot i of this node
      have hik : i < ks.length ∧ ks.get? i = some key :=
        search_found_lt (n := Node.mk ks vs es)
          (show Node.search (Node.mk ks vs es) key = .Found i from hs)
      cases es with
      | nil =>
        -- leaf: remove_as_leaf(i) in place
        obtain ⟨hv, hlo', hhi, hd1⟩ := Node.wf_leaf_elim hwf
        subst hd1
        rcases hvv : vs.get? i with _ | v
        · rw [List.get?_eq_none] at hvv
          omega
        have heq : Node.removeGo (2 * b - 1) key (Node.mk ks vs
            Forest.nil) = .removed v
            (Node.mk (ks.eraseIdx i) (vs.eraseIdx i) Forest.nil) false
            ((Node.mk (ks.eraseIdx i) (vs.eraseIdx i)
              Forest.nil).is_underfull (2 * b - 1)) := by
          unfold Node.removeGo
          rw [search_mk_eq]
          simp only [hs, Forest.removeMinAt, hik.2, hvv]
        rw [heq]
        unfold DelOut
        have hkse : (ks.eraseIdx i).length = ks.length - 1 := by
          rw [List.length_eraseIdx]
          rw [if_pos hik.1]
        have hvse : (vs.eraseIdx i).length = vs.length - 1 := by
          rw [List.length_eraseIdx]
          rw [if_pos (by omega)]
        refine ⟨?_, ?_, ?_, ?_, ?_, ?_⟩
        · intro h
          cases h
        · intro h
          cases h
        · exact Node.wf_leaf_mk (by omega) (by omega) (by omega)
        · intro h
          have := (is_underfull_true_iff (by omega)
            (Node.mk (ks.eraseIdx i) (vs.eraseIdx i) Forest.nil)).mp h
          omega
        · intro h
          have := (is_underfull_false_iff (by omega)
            (Node.mk (ks.eraseIdx i) (vs.eraseIdx i) Forest.nil)).mp h
          simp only [Node.len, Node.keys] at this
          exact Node.wf_leaf_mk (by omega) (by omega) (by omega)
        · -- the slot pair is the removed in-order entry
          refine ⟨(ks.zip vs).take i, (ks.zip vs).drop (i + 1), ?_, ?_⟩
          · show ks.zip vs = _
            exact split_at_get? (ks.zip vs) i (key, v)
              (zip_get?_some ks vs i key v hik.2 hvv)
          · show (ks.eraseIdx i).zip (vs.eraseIdx i) = _
            rw [zip_eraseIdx, List.eraseIdx_eq_take_drop_succ]
      | cons c f =>
        -- internal: leafify at edge i + 1, then one pop
        obtain ⟨hv, hlo', hhi, hedge, hd, hch⟩ :=
          Node.wf_internal_elim (by intro h; cases h) hwf
        rcases hvv : vs.get? i with _ | v
        · rw [List.get?_eq_none] at hvv
          omega
        have IH := removeMinAt_wf b (Forest.cons c f) (i + 1) (d - 1)
          hb hch
        rcases hmin : Forest.removeMinAt (2 * b - 1) (Forest.cons c f)
          (i + 1) with _ | r
        · rw [hmin] at IH
          unfold ForestMinOut at IH
          rw [Forest.length_eq] at IH hedge
          omega
        rcases r with _ | ⟨k0, v0, es', st, u⟩
        · rw [hmin] at IH
          unfold ForestMinOut at IH
          cases IH
        · rw [hmin] at IH
          unfold ForestMinOut at IH
          obtain ⟨hflen, hsu, hothers, c0, c', hgc0, hgc', hset, hwc',
            hclt, hclf, hce⟩ := IH
          have hksl : (ks.set i k0).length = ks.length :=
            List.length_set ks i k0
          have hvsl : (vs.set i v0).length = vs.length :=
            List.length_set vs i v0
          obtain ⟨n'', st', u', hstep, s1, s2, s3, s4, s5, s6⟩ :=
            stepUnderflow_wf b d lo (i + 1) hb hd hlo (ks.set i k0)
              (vs.set i v0) es' st u (by omega) (by omega) (by omega)
              (by omega) (by omega) (by omega) hsu
              (fun hu => ⟨fun j x hg hj => hothers j x hg hj,
                c', hgc', hwc', hclt hu⟩)
              (fun hu => Forest.wf_of_get? es' (fun j x hg => by
                rcases eq_or_ne j (i + 1) with hj | hj
                · subst hj
                  rw [hg] at hgc'
                  cases hgc'
                  exact hclf hu
                · exact hothers j x hg hj))
          have heq : Node.removeGo (2 * b - 1) key
              (Node.mk ks vs (Forest.cons c f)) =
              .removed v n'' st' u' := by
            unfold Node.removeGo
            rw [search_mk_eq]
            simp only [hs, hmin, hik.2, hvv, hstep]
          rw [heq]
          unfold DelOut
          refine ⟨s1, ?_, s3, s4, s5, ?_⟩
          · intro h
            have := s2 h
            rw [hksl] at this
            exact this
          · -- slot i is overwritten by the successor pair, whose old
            -- copy disappears from the child at i + 1
            obtain ⟨c1, hgc1⟩ := Forest.get?_some_of_lt
              (show i < (Forest.cons c f).length by
                rw [Forest.length_eq] at hedge ⊢
                omega)
            have hgc1L : (Forest.cons c f).toList.get? i = some c1 := by
              rw [← Forest.get?_eq]
              exact hgc1
            have hgc0L : (Forest.cons c f).toList.get? (i + 1) =
                some c0 := by
              rw [← Forest.get?_eq]
              exact hgc0
            have hlenL : (Forest.cons c f).toList.length =
                ks.length + 1 := by
              rw [← Forest.length_eq]
              exact hedge
            obtain ⟨P, S, hP1, hP2, -⟩ := entriesL_decomp_pair i
              (Forest.cons c f).toList ks vs c1 c0 key v hlenL hv
              hgc1L hgc0L hik.2 hvv
            have hsetself : (Forest.cons c f).toList.set i c1 =
                (Forest.cons c f).toList := set_get?_self _ _ _ hgc1L
            have hP2' := hP2 c1 c' k0 v0
            rw [hsetself] at hP2'
            refine ⟨P ++ Node.entries c1,
              (k0, v0) :: Node.entries c' ++ S, ?_, ?_⟩
            · rw [entries_mk, hP1, hce]
              simp [List.append_assoc]
            · rw [s6, hset, entries_mk]
              simp only [Forest.toList_set]
              rw [hP2']
              simp [List.append_assoc]
    · -- GoDown: descend into edge i
      have hile : i ≤ ks.length := by
        obtain ⟨i', hi', hle, -, -⟩ := searchLinearGo_goDown key ks 0 i hs
        omega
      cases es with
      | nil =>
        have heq : Node.removeGo (2 * b - 1) key
            (Node.mk ks vs Forest.nil) = .absent := by
          unfold Node.removeGo
          rw [search_mk_eq]
          simp only [hs, Forest.removeGoAt]
        rw [heq]
        exact trivial
      | cons c f =>
        obtain ⟨hv, hlo', hhi, hedge, hd, hch⟩ :=
          Node.wf_internal_elim (by intro h; cases h) hwf
        have IH := removeGoAt_wf b key (Forest.cons c f) i (d - 1)
          hb hch
        rcases hdel : Forest.removeGoAt (2 * b - 1) key
          (Forest.cons c f) i with _ | r
        · have heq : Node.removeGo (2 * b - 1) key
              (Node.mk ks vs (Forest.cons c f)) = .absent := by
            unfold Node.removeGo
            rw [search_mk_eq]
            simp only [hs, hdel]
          rw [heq]
          exact trivial
        rcases r with _ | _ | ⟨v, es', st, u⟩
        · have heq : Node.removeGo (2 * b - 1) key
              (Node.mk ks vs (Forest.cons c f)) = .absent := by
            unfold Node.removeGo
            rw [search_mk_eq]
            simp only [hs, hdel]
          rw [heq]
          exact trivial
        · rw [hdel] at IH
          unfold ForestDelOut at IH
          cases IH
        · rw [hdel] at IH
          unfold ForestDelOut at IH
          obtain ⟨hflen, hsu, hothers, c0, c', hgc0, hgc', hset, hwc',
            hclt, hclf, A', B', hceA, hceB⟩ := IH
          have hks1 : 1 ≤ ks.length := h1 rfl
          obtain ⟨n'', st', u', hstep, s1, s2, s3, s4, s5, s6⟩ :=
            stepUnderflow_wf b d lo i hb hd hlo ks vs es' st u hv
              (by omega) hks1 hlo' hhi hile hsu
              (fun hu => ⟨fun j x hg hj => hothers j x hg hj,
                c', hgc', hwc', hclt hu⟩)
              (fun hu => Forest.wf_of_get? es' (fun j x hg => by
                rcases eq_or_ne j i with hj | hj
                · subst hj
                  rw [hg] at hgc'
                  cases hgc'
                  exact hclf hu
                · exact hothers j x hg hj))
          have heq : Node.removeGo (2 * b - 1) key
              (Node.mk ks vs (Forest.cons c f)) =
              .removed v n'' st' u' := by
            unfold Node.removeGo
            rw [search_mk_eq]
            simp only [hs, hdel, hstep]
          rw [heq]
          unfold DelOut
          refine ⟨s1, fun h => s2 h, s3, s4, s5, ?_⟩
          have hgc0L : (Forest.cons c f).toList.get? i = some c0 := by
            rw [← Forest.get?_eq]
            exact hgc0
          have hlenL : (Forest.cons c f).toList.length =
              ks.length + 1 := by
            rw [← Forest.length_eq]
            exact hedge
          obtain ⟨P, S, hQ1, hQ2⟩ := entriesL_decomp_at i
            (Forest.cons c f).toList ks vs c0 hlenL hv hgc0L
          refine ⟨P ++ A', B' ++ S, ?_, ?_⟩
          · rw [entries_mk, hQ1, hceA]
            simp [List.append_assoc]
          · rw [s6, hset, entries_mk]
            simp only [Forest.toList_set]
            rw [hQ2 c', hceB]
            simp [List.append_assoc]

/-- `removeGo_wf` lifted to the child at a given index of a forest. -/
theorem removeGoAt_wf {K V : Type} [LinearOrder K] (b : Nat) (key : K) :
    ∀ (f : Forest K V) (i e : Nat), 2 ≤ b →
    Forest.wf b (b - 1) e f →
    ForestDelOut key b e f i (Forest.removeGoAt (2 * b - 1) key f i)
  | .nil, i, e, hb, hwf => by
    unfold Forest.removeGoAt ForestDelOut
    rw [Forest.length_eq]
    simp
  | .cons c f, 0, e, hb, hwf => by
    obtain ⟨hwc, hwf'⟩ := hwf
    have IH := removeGo_wf b key c (b - 1) e hb (le_refl _) hwc
      (fun _ => by have := Node.wf_lo_le hwc; omega)
    rcases hm : Node.removeGo (2 * b - 1) key c
      with _ | _ | ⟨v, c', st, u⟩
    · have heq : Forest.removeGoAt (2 * b - 1) key (Forest.cons c f) 0 =
          some .absent := by
        unfold Forest.removeGoAt
        simp only [hm]
      rw [heq]
      exact trivial
    · rw [hm] at IH
      unfold DelOut at IH
      cases IH
    · rw [hm] at IH
      unfold DelOut at IH
      obtain ⟨s1, s2, s3, s4, s5, A, B, hA, hB⟩ := IH
      have hb2 : b - 1 - 1 = b - 2 := by omega
      rw [hb2] at s3
      have heq : Forest.removeGoAt (2 * b - 1) key (Forest.cons c f) 0 =
          some (.removed v (.cons c' f) st u) := by
        unfold Forest.removeGoAt
        simp only [hm]
      rw [heq]
      unfold ForestDelOut
      refine ⟨?_, s1, ?_, c, c', rfl, rfl, rfl, s3, ?_, s5, A, B,
        hA, hB⟩
      · rw [Forest.length_eq, Forest.length_eq]
        simp
      · intro j x hg hj
        rcases j with _ | j
        · exact absurd rfl hj
        · exact Forest.wf_get? hwf' hg
      · intro hu
        have h1 := Node.wf_lo_le s3
        have h2 := s4 hu
        omega
  | .cons c f, i + 1, e, hb, hwf => by
    obtain ⟨hwc, hwf'⟩ := hwf
    have IH := removeGoAt_wf b key f i e hb hwf'
    rcases hm : Forest.removeGoAt (2 * b - 1) key f i with _ | r
    · rw [hm] at IH
      unfold ForestDelOut at IH
      have heq : Forest.removeGoAt (2 * b - 1) key (Forest.cons c f)
          (i + 1) = none := by
        unfold Forest.removeGoAt
        simp only [hm]
      rw [heq]
      unfold ForestDelOut
      rw [Forest.length_eq] at IH ⊢
      simp only [Forest.toList_cons, List.length_cons]
      omega
    rcases r with _ | _ | ⟨v, f', st, u⟩
    · have heq : Forest.removeGoAt (2 * b - 1) key (Forest.cons c f)
          (i + 1) = some .absent := by
        unfold Forest.removeGoAt
        simp only [hm]
      rw [heq]
      exact trivial
    · rw [hm] at IH
      unfold ForestDelOut at IH
      cases IH
    · rw [hm] at IH
      unfold ForestDelOut at IH
      obtain ⟨hflen, hsu, hothers, c0, c', hgc0, hgc', hset, hwc',
        hclt, hclf, A, B, hA, hB⟩ := IH
      have heq : Forest.removeGoAt (2 * b - 1) key (Forest.cons c f)
          (i + 1) = some (.removed v (.cons c f') st u) := by
        unfold Forest.removeGoAt
        simp only [hm]
      rw [heq]
      unfold ForestDelOut
      refine ⟨?_, hsu, ?_, c0, c', hgc0, hgc', ?_, hwc', hclt, hclf,
        A, B, hA, hB⟩
      · rw [Forest.length_eq, Forest.length_eq] at hflen ⊢
        simp only [Forest.toList_cons, List.length_cons]
        omega
      · intro j x hg hj
        rcases j with _ | j
        · cases hg
          exact hwc
        · exact hothers j x hg (by omega)
      · show Forest.cons c f' = Forest.cons c (f.set i c')
        rw [hset]

end

/-- `is_leaf` is false exactly on nonempty edge lists. -/
theorem Node.is_leaf_false_iff {K V : Type} (n : Node K V) :
    n.is_leaf = false ↔ n.edges ≠ Forest.nil := by
  rw [Node.is_leaf, ← Bool.not_eq_true, not_iff_not,
    Forest.isEmpty_iff_nil]

/-- In a well-formed node, internality is exactly depth at least two. -/
theorem Node.wf_internal_iff_depth {K V : Type} {b lo d : Nat}
    {n : Node K V} (hwf : Node.wf b lo d n) :
    n.is_leaf = false ↔ 2 ≤ d := by
  rw [Node.is_leaf_false_iff]
  have h1 := Node.wf_leaf_iff hwf
  have h2 := Node.wf_depth hwf
  constructor
  · intro h
    rcases Nat.lt_or_ge d 2 with hd | hd
    · have : d = 1 := by omega
      exact absurd (h1.mpr this) h
    · exact hd
  · intro hd h
    have := h1.mp h
    omega

/-- `BTreeMap::remove` preserves the map invariant (and never panics). -/
theorem remove_wf {K V : Type} [LinearOrder K] (m : BTreeMap K V)
    (hwf : m.wf) (key : K) :
    ∃ res m', m.remove key = some (res, m') ∧ m'.wf := by
  obtain ⟨hb, hroot, hpos⟩ := hwf
  have H := removeGo_wf m.b key m.root 0 m.depth hb (by omega) hroot hpos
  have hcap : capacity_from_b m.b = 2 * m.b - 1 := rfl
  rcases hg : Node.removeGo (2 * m.b - 1) key m.root with
    _ | _ | ⟨v, root', st, u⟩
  · refine ⟨none, m, ?_, hb, hroot, hpos⟩
    unfold BTreeMap.remove
    rw [hcap, hg]
  · rw [hg] at H
    unfold DelOut at H
    cases H
  · rw [hg] at H
    unfold DelOut at H
    obtain ⟨s1, s2, s3, s4, s5⟩ := H
    have hroot' : Node.wf m.b 0 m.depth root' := s3
    cases st with
    | true =>
      refine ⟨some v, { m with
          root := root'
          length := m.length - 1 },
        ?_, hb, hroot', ?_⟩
      · unfold BTreeMap.remove
        rw [hcap]
        simp only [hg]
        rw [if_pos trivial]
      · intro hlf
        have hlf' : root'.is_leaf = false := hlf
        have hlen := s2 rfl
        have hd2 : 2 ≤ m.depth :=
          (Node.wf_internal_iff_depth hroot').mp hlf'
        have hrl : m.root.is_leaf = false :=
          (Node.wf_internal_iff_depth hroot).mpr hd2
        have := hpos hrl
        show 1 ≤ root'.len
        omega
    | false =>
      by_cases hc : (root'.len == 0 && !root'.is_leaf) = true
      · -- root collapse
        have hc' := hc
        rw [Bool.and_eq_true, beq_iff_eq, Bool.not_eq_true'] at hc'
        obtain ⟨h0, hlf⟩ := hc'
        have hne : root'.edges ≠ Forest.nil :=
          (Node.is_leaf_false_iff root').mp hlf
        obtain ⟨ks', vs', es'⟩ := root'
        simp only [Node.edges] at hne
        obtain ⟨hv', hlo'', hhi', hedge', hd', hch'⟩ :=
          Node.wf_internal_elim hne hroot'
        obtain ⟨child, hlast, j, hgj⟩ :=
          Forest.getLast?_some_of_ne_nil hne
        have hwchild : Node.wf m.b (m.b - 1) (m.depth - 1) child :=
          Forest.wf_get? hch' hgj
        refine ⟨some v, { m with
            root := child
            length := m.length - 1
            depth := m.depth - 1 },
          ?_, hb, Node.wf_mono (Nat.zero_le _) hwchild, ?_⟩
        · unfold BTreeMap.remove
          rw [hcap]
          simp only [hg, Bool.false_eq_true, if_false]
          rw [if_pos hc]
          simp only [Node.edges]
          rw [hlast]
        · intro _
          show 1 ≤ child.len
          have := Node.wf_lo_le hwchild
          omega
      · -- no collapse: the root keeps at least one key if internal
        refine ⟨some v, { m with
            root := root'
            length := m.length - 1 }, ?_, hb, hroot', ?_⟩
        · unfold BTreeMap.remove
          rw [hcap]
          simp only [hg, Bool.false_eq_true, if_false]
          rw [if_neg hc]
        · intro hlf
          have hlf' : root'.is_leaf = false := hlf
          show 1 ≤ root'.len
          rcases Nat.eq_zero_or_pos root'.len with h0 | h1
          · exfalso
            apply hc
            rw [Bool.and_eq_true, beq_iff_eq, Bool.not_eq_true']
            exact ⟨h0, hlf'⟩
          · exact h1

/-- Maps reachable from a fresh `with_b` construction by any sequence of
`insert` and `remove` operations (panicking operations produce no map). -/
inductive Reachable {K V : Type} [LinearOrder K] : BTreeMap K V → Prop where
  | init {b : Nat} {m : BTreeMap K V} :
      BTreeMap.with_b b = some m → Reachable m
  | ins {m m' : BTreeMap K V} {key : K} {val : V} {res : Option V} :
      Reachable m → m.insert key val = some (res, m') → Reachable m'
  | del {m m' : BTreeMap K V} {key : K} {res : Option V} :
      Reachable m → m.remove key = some (res, m') → Reachable m'

/-- Every reachable map satisfies the balance invariant. -/
theorem reachable_wf {K V : Type} [LinearOrder K] {m : BTreeMap K V}
    (h : Reachable m) : m.wf := by
  induction h with
  | init hw =>
    rename_i b m
    unfold BTreeMap.with_b at hw
    by_cases hb : b > 1
    · rw [if_pos hb] at hw
      cases hw
      refine ⟨?_, ?_, ?_⟩
      · show 2 ≤ b
        omega
      · show Node.wf b 0 1 (Node.make_leaf_root : Node K V)
        exact Node.wf_leaf_mk rfl (Nat.le_refl 0) (Nat.zero_le _)
      · intro hlf
        exact Bool.noConfusion hlf
    · rw [if_neg hb] at hw
      cases hw
  | ins hr heq ih =>
    obtain ⟨res0, m0, heq0, hwf0⟩ := insert_wf _ ih _ _
    rw [heq] at heq0
    cases heq0
    exact hwf0
  | del hr heq ih =>
    obtain ⟨res0, m0, heq0, hwf0⟩ := remove_wf _ ih _
    rw [heq] at heq0
    cases heq0
    exact hwf0

mutual

/-- The depths (counted in nodes, a lone root having depth `1`) of all
leaves of a subtree. -/
def Node.leafDepths {K V : Type} : Node K V → List Nat
  | .mk _ _ .nil => [1]
  | .mk _ _ (.cons c f) =>
      (Forest.leafDepthsF (.cons c f)).map (· + 1)

/-- `Node.leafDepths` over all members of a forest. -/
def Forest.leafDepthsF {K V : Type} : Forest K V → List Nat
  | .nil => []
  | .cons c f => Node.leafDepths c ++ Forest.leafDepthsF f

end

mutual

/-- Every strict descendant of the node holds between `b - 1` and
`2b - 1` keys. -/
def Node.descendantsLoadOk {K V : Type} (b : Nat) : Node K V → Bool
  | .mk _ _ es => Forest.allLoadOk b es

/-- All nodes of all subtrees of the forest hold between `b - 1` and
`2b - 1` keys. -/
def Forest.allLoadOk {K V : Type} (b : Nat) : Forest K V → Bool
  | .nil => true
  | .cons c f =>
      (decide (b - 1 ≤ c.len) && decide (c.len ≤ 2 * b - 1) &&
        Node.descendantsLoadOk b c) && Forest.allLoadOk b f

end

mutual

/-- In a well-formed subtree of depth `d`, every leaf lies at depth `d`. -/
theorem Node.wf_leafDepths {K V : Type} (b lo : Nat) :
    ∀ (n : Node K V) (d : Nat), Node.wf b lo d n →
      ∀ x ∈ n.leafDepths, x = d
  | .mk ks vs .nil, d, hwf => by
    obtain ⟨-, -, -, hd1⟩ := Node.wf_leaf_elim hwf
    subst hd1
    intro x hx
    simpa [Node.leafDepths] using hx
  | .mk ks vs (.cons c f), d, hwf => by
    obtain ⟨-, -, -, -, hd, hch⟩ :=
      Node.wf_internal_elim (by intro h; cases h) hwf
    intro x hx
    simp only [Node.leafDepths, List.mem_map] at hx
    obtain ⟨y, hy, rfl⟩ := hx
    have := Forest.wf_leafDepthsF b (b - 1) (Forest.cons c f) (d - 1)
      hch y hy
    omega

/-- `Node.wf_leafDepths` over all members of a forest. -/
theorem Forest.wf_leafDepthsF {K V : Type} (b lo : Nat) :
    ∀ (f : Forest K V) (e : Nat), Forest.wf b lo e f →
      ∀ x ∈ Forest.leafDepthsF f, x = e
  | .nil, e, _ => by
    intro x hx
    simp [Forest.leafDepthsF] at hx
  | .cons c f, e, hwf => by
    intro x hx
    simp only [Forest.leafDepthsF, List.mem_append] at hx
    rcases hx with hx | hx
    · exact Node.wf_leafDepths b lo c e hwf.1 x hx
    · exact Forest.wf_leafDepthsF b lo f e hwf.2 x hx

end

mutual

/-- In a well-formed subtree, every strict descendant meets the load
bounds `b - 1 ≤ len ≤ 2b - 1`. -/
theorem Node.wf_descendantsLoadOk {K V : Type} (b : Nat) :
    ∀ (n : Node K V) (lo d : Nat), Node.wf b lo d n →
      Node.descendantsLoadOk b n = true
  | .mk ks vs .nil, lo, d, hwf => rfl
  | .mk ks vs (.cons c f), lo, d, hwf => by
    obtain ⟨-, -, -, -, -, hch⟩ :=
      Node.wf_internal_elim (by intro h; cases h) hwf
    exact Forest.wf_allLoadOk b (Forest.cons c f) (d - 1) hch

/-- `Node.wf_descendantsLoadOk` over all members of a forest of children
well-formed at minimum load `b - 1`. -/
theorem Forest.wf_allLoadOk {K V : Type} (b : Nat) :
    ∀ (f : Forest K V) (e : Nat), Forest.wf b (b - 1) e f →
      Forest.allLoadOk b f = true
  | .nil, e, _ => rfl
  | .cons c f, e, hwf => by
    simp only [Forest.allLoadOk, Bool.and_eq_true, decide_eq_true_eq]
    exact ⟨⟨⟨Node.wf_lo_le hwf.1, Node.wf_len_le hwf.1⟩,
      Node.wf_descendantsLoadOk b c (b - 1) e hwf.1⟩,
      Forest.wf_allLoadOk b f e hwf.2⟩

end

/-- C3: for every tree reachable from a fresh map by any sequence of
`insert` and `remove` operations, all leaves lie at the same depth from the
root (namely the recorded map depth), and every non-root node holds between
`b - 1` and `2b - 1` keys inclusive. -/
theorem C3_balance_invariant {K V : Type} [LinearOrder K]
    (m : BTreeMap K V) (h : Reachable m) :
    (∀ x ∈ m.root.leafDepths, x = m.depth) ∧
    m.root.descendantsLoadOk m.b = true := by
  obtain ⟨hb, hroot, -⟩ := reachable_wf h
  exact ⟨Node.wf_leafDepths m.b 0 m.root m.depth hroot,
    Node.wf_descendantsLoadOk m.b m.root 0 m.depth hroot⟩

/-- Witness for C3: the depth-2 tree reached by inserting `1, 2, 3, 4`
into a fresh `b = 2` map (the fourth insert splits the root). -/
theorem C3_balance_invariant_witness :
    (∀ x ∈ (BTreeMap.mk (Node.mk [2] [20]
        (Forest.cons (Node.mk [1] [10] Forest.nil)
          (Forest.cons (Node.mk [3, 4] [30, 40] Forest.nil) Forest.nil)))
        4 2 2 : BTreeMap Nat Nat).root.leafDepths, x = 2) ∧
    (BTreeMap.mk (Node.mk [2] [20]
        (Forest.cons (Node.mk [1] [10] Forest.nil)
          (Forest.cons (Node.mk [3, 4] [30, 40] Forest.nil) Forest.nil)))
        4 2 2 : BTreeMap Nat Nat).root.descendantsLoadOk 2 = true := by
  have h0 : BTreeMap.with_b 2 =
      some (BTreeMap.mk Node.make_leaf_root 0 1 2 : BTreeMap Nat Nat) := rfl
  have h1 : (BTreeMap.mk Node.make_leaf_root 0 1 2 :
      BTreeMap Nat Nat).insert 1 10 =
      some (none, BTreeMap.mk (Node.mk [1] [10] Forest.nil) 1 1 2) := rfl
  have h2 : (BTreeMap.mk (Node.mk [1] [10] Forest.nil) 1 1 2 :
      BTreeMap Nat Nat).insert 2 20 =
      some (none, BTreeMap.mk (Node.mk [1, 2] [10, 20] Forest.nil)
        2 1 2) := rfl
  have h3 : (BTreeMap.mk (Node.mk [1, 2] [10, 20] Forest.nil) 2 1 2 :
      BTreeMap Nat Nat).insert 3 30 =
      some (none, BTreeMap.mk (Node.mk [1, 2, 3] [10, 20, 30] Forest.nil)
        3 1 2) := rfl
  have h4 : (BTreeMap.mk (Node.mk [1, 2, 3] [10, 20, 30] Forest.nil)
      3 1 2 : BTreeMap Nat Nat).insert 4 40 =
      some (none, BTreeMap.mk (Node.mk [2] [20]
        (Forest.cons (Node.mk [1] [10] Forest.nil)
          (Forest.cons (Node.mk [3, 4] [30, 40] Forest.nil) Forest.nil)))
        4 2 2) := rfl
  exact C3_balance_invariant _
    (.ins (.ins (.ins (.ins (.init h0) h1) h2) h3) h4)

/-- C10: in the underflow handling of a reachable tree, whenever an
underfull child is merged with an adjacent sibling at (or below) minimum
load, the surviving node's key count — the two children's keys plus the one
parent separator — is at most the capacity `2b - 1`, so the
`debug_assert!` guarding `absorb` holds and the merge never overflows. -/
theorem C10_merge_respects_capacity {K V : Type} [LinearOrder K]
    (m : BTreeMap K V) (hm : Reachable m) (ks : List K) (vs : List V)
    (es : Forest K V) (i : Nat) (c : Node K V)
    (hi : i ≤ ks.length) (hgc : es.get? i = some c)
    (hcu : c.is_underfull (capacity_from_b m.b) = true) :
    (∀ l, 0 < i → es.get? (i - 1) = some l →
      l.len ≤ min_load_from_capacity (capacity_from_b m.b) →
      Node.handle_underflow (capacity_from_b m.b) (Node.mk ks vs es) i =
        (Node.mk ks vs es).merge_children (i - 1) ∧
      l.len + c.len + 1 ≤ capacity_from_b m.b ∧
      Node.absorb_assertion (capacity_from_b m.b) l c) ∧
    (i = 0 → ∀ r, es.get? 1 = some r →
      r.len ≤ min_load_from_capacity (capacity_from_b m.b) →
      Node.handle_underflow (capacity_from_b m.b) (Node.mk ks vs es) 0 =
        (Node.mk ks vs es).merge_children 0 ∧
      c.len + r.len + 1 ≤ capacity_from_b m.b ∧
      Node.absorb_assertion (capacity_from_b m.b) c r) := by
  have hb : 2 ≤ m.b := (reachable_wf hm).1
  have hcap : capacity_from_b m.b = 2 * m.b - 1 := rfl
  rw [hcap] at hcu ⊢
  have hminl : min_load_from_capacity (2 * m.b - 1) = m.b - 1 :=
    min_load_capacity_eq (by omega)
  rw [hminl]
  have hcu' : c.len < m.b - 1 :=
    (is_underfull_true_iff (by omega) c).mp hcu
  constructor
  · intro l hipos hgl hll
    have hdisp : Node.handle_underflow (2 * m.b - 1)
        (Node.mk ks vs es) i =
        (Node.mk ks vs es).merge_children (i - 1) := by
      unfold Node.handle_underflow
      rw [if_pos (show i ≤ (Node.mk ks vs es).len from hi),
        if_pos hipos]
      unfold Node.handle_underflow_to_left
      simp only [Node.edges, hgl, hminl]
      rw [if_neg (by omega)]
    refine ⟨hdisp, by omega, ?_⟩
    unfold Node.absorb_assertion
    omega
  · intro hi0 r hgr hrl
    subst hi0
    have hdisp : Node.handle_underflow (2 * m.b - 1)
        (Node.mk ks vs es) 0 =
        (Node.mk ks vs es).merge_children 0 := by
      unfold Node.handle_underflow
      rw [if_pos (show 0 ≤ (Node.mk ks vs es).len from Nat.zero_le _),
        if_neg (by omega)]
      unfold Node.handle_underflow_to_right
      simp only [Node.edges, hgr, hminl]
      rw [if_neg (by omega)]
    refine ⟨hdisp, by omega, ?_⟩
    unfold Node.absorb_assertion
    omega

/-- Witness for C10: in a `b = 2` tree, merging the empty underfull child
with its one-key left sibling through the one-key parent yields two keys,
within capacity `3`, and the `absorb` assertion holds. -/
theorem C10_merge_respects_capacity_witness :
    Node.handle_underflow 3 (Node.mk [10] [10]
      (Forest.cons (Node.mk [5] [5] Forest.nil)
        (Forest.cons (Node.mk ([] : List Nat) ([] : List Nat)
          Forest.nil) Forest.nil))) 1 =
      (Node.mk [10] [10]
        (Forest.cons (Node.mk [5] [5] Forest.nil)
          (Forest.cons (Node.mk ([] : List Nat) ([] : List Nat)
            Forest.nil) Forest.nil))).merge_children 0 ∧
    (Node.mk [5] [5] Forest.nil).len +
      (Node.mk ([] : List Nat) ([] : List Nat) Forest.nil).len + 1 ≤ 3 ∧
    Node.absorb_assertion 3 (Node.mk [5] [5] Forest.nil)
      (Node.mk ([] : List Nat) ([] : List Nat) Forest.nil) :=
  (C10_merge_respects_capacity
    (BTreeMap.mk Node.make_leaf_root 0 1 2 : BTreeMap Nat Nat)
    (.init (b := 2) rfl) [10] [10]
    (Forest.cons (Node.mk [5] [5] Forest.nil)
      (Forest.cons (Node.mk ([] : List Nat) ([] : List Nat) Forest.nil)
        Forest.nil)) 1
    (Node.mk ([] : List Nat) ([] : List Nat) Forest.nil)
    (by decide) rfl rfl).1
    (Node.mk [5] [5] Forest.nil) (by decide) rfl (by decide)


/-- Splitting a `zip` lookup into its component lookups. -/
theorem zip_get?_split {α β : Type} :
    ∀ (ks : List α) (vs : List β) (i : Nat) (k : α) (v : β),
      (ks.zip vs).get? i = some (k, v) →
      ks.get? i = some k ∧ vs.get? i = some v
  | [], _, _, _, _, h => by simp at h
  | _ :: _, [], _, _, _, h => by simp at h
  | x :: ks, y :: vs, 0, k, v, h => by
    simp only [List.zip_cons_cons, List.get?_cons_zero,
      Option.some.injEq, Prod.mk.injEq] at h
    simp [h.1, h.2]
  | x :: ks, y :: vs, i + 1, k, v, h => by
    simp only [List.zip_cons_cons, List.get?_cons_succ] at h ⊢
    exact zip_get?_split ks vs i k v h

/-- In an association list with strictly increasing keys, each key has at
most one associated value. -/
theorem assoc_unique {K V : Type} [LinearOrder K] :
    ∀ (l : List (K × V)) (k : K) (a b : V),
      (l.map Prod.fst).Pairwise (· < ·) →
      (k, a) ∈ l → (k, b) ∈ l → a = b
  | [], _, _, _, _, ha, _ => by simp at ha
  | p :: l, k, a, b, hp, ha, hb => by
    simp only [List.map_cons, List.pairwise_cons] at hp
    rcases List.mem_cons.mp ha with ha | ha <;>
      rcases List.mem_cons.mp hb with hb | hb
    · exact congrArg Prod.snd (ha.trans hb.symm)
    · exfalso
      have h1 : p.1 = k := by rw [← ha]
      have h2 : p.1 < k :=
        hp.1 k (by simpa using List.mem_map_of_mem Prod.fst hb)
      rw [h1] at h2
      exact absurd h2 (lt_irrefl k)
    · exfalso
      have h1 : p.1 = k := by rw [← hb]
      have h2 : p.1 < k :=
        hp.1 k (by simpa using List.mem_map_of_mem Prod.fst ha)
      rw [h1] at h2
      exact absurd h2 (lt_irrefl k)
    · exact assoc_unique l k a b hp.2 ha hb

/-- The node's key slots are a sublist of its in-order entry keys. -/
theorem keys_sublist_entriesL {K V : Type} (cs : List (Node K V))
    (ks : List K) (vs : List V) (hv : vs.length = ks.length) :
    List.Sublist ks ((entriesL cs ks vs).map Prod.fst) := by
  have h1 := (zip_sublist_entriesL cs ks vs).map Prod.fst
  rw [List.map_fst_zip ks vs (by omega)] at h1
  exact h1

mutual

/-- A key that `find` sees is never reported `absent` by `removeGo`, and
the removed value is the found one (node level). -/
theorem find_removeGo {K V : Type} [LinearOrder K] (cap : Nat) (key : K) :
    ∀ (n : Node K V) (v : V), Node.find key n = some v →
      Node.removeGo cap key n = .panic ∨
      ∃ n' st u, Node.removeGo cap key n = .removed v n' st u
  | .mk ks vs es, v, hfind => by
    rcases hs : Node.searchLinearGo key ks 0 with i | i
    · -- Found
      have hik : i < ks.length ∧ ks.get? i = some key :=
        search_found_lt (n := Node.mk ks vs es)
          (show Node.search (Node.mk ks vs es) key = .Found i from hs)
      have hv : vs.get? i = some v := by
        unfold Node.find at hfind
        rw [search_mk_eq] at hfind
        simp only [hs] at hfind
        exact hfind
      rcases hmin : Forest.removeMinAt cap es (i + 1) with _ | r
      · refine Or.inr ⟨Node.mk (ks.eraseIdx i) (vs.eraseIdx i) es, false,
          (Node.mk (ks.eraseIdx i) (vs.eraseIdx i) es).is_underfull cap,
          ?_⟩
        unfold Node.removeGo
        rw [search_mk_eq]
        simp only [hs, hmin, hik.2, hv]
      rcases r with _ | ⟨k0, v0, es', st, u⟩
      · refine Or.inl ?_
        unfold Node.removeGo
        rw [search_mk_eq]
        simp only [hs, hmin]
      · rcases hstep : stepUnderflow cap
            (Node.mk (ks.set i k0) (vs.set i v0) es') (i + 1) st u
          with _ | ⟨n'', st', u'⟩
        · refine Or.inl ?_
          unfold Node.removeGo
          rw [search_mk_eq]
          simp only [hs, hmin, hik.2, hv, hstep]
        · refine Or.inr ⟨n'', st', u', ?_⟩
          unfold Node.removeGo
          rw [search_mk_eq]
          simp only [hs, hmin, hik.2, hv, hstep]
    · -- GoDown
      have hfind' : Forest.findAt key es i = some v := by
        unfold Node.find at hfind
        rw [search_mk_eq] at hfind
        simp only [hs] at hfind
        exact hfind
      rcases find_removeGoAt cap key es i v hfind' with h | ⟨f', st, u, h⟩
      · refine Or.inl ?_
        unfold Node.removeGo
        rw [search_mk_eq]
        simp only [hs, h]
      · rcases hstep : stepUnderflow cap (Node.mk ks vs f') i st u
          with _ | ⟨n'', st', u'⟩
        · refine Or.inl ?_
          unfold Node.removeGo
          rw [search_mk_eq]
          simp only [hs, h, hstep]
        · refine Or.inr ⟨n'', st', u', ?_⟩
          unfold Node.removeGo
          rw [search_mk_eq]
          simp only [hs, h, hstep]

/-- `find_removeGo` at the child of a forest. -/
theorem find_removeGoAt {K V : Type} [LinearOrder K] (cap : Nat)
    (key : K) :
    ∀ (f : Forest K V) (i : Nat) (v : V), Forest.findAt key f i = some v →
      Forest.removeGoAt cap key f i = some .panic ∨
      ∃ f' st u, Forest.removeGoAt cap key f i =
        some (.removed v f' st u)
  | .nil, i, v, hfind => by
    unfold Forest.findAt at hfind
    cases hfind
  | .cons c f, 0, v, hfind => by
    have hfind' : Node.find key c = some v := hfind
    rcases find_removeGo cap key c v hfind' with h | ⟨c', st, u, h⟩
    · refine Or.inl ?_
      unfold Forest.removeGoAt
      simp only [h]
    · refine Or.inr ⟨Forest.cons c' f, st, u, ?_⟩
      unfold Forest.removeGoAt
      simp only [h]
  | .cons c f, i + 1, v, hfind => by
    have hfind' : Forest.findAt key f i = some v := hfind
    rcases find_removeGoAt cap key f i v hfind' with h | ⟨f', st, u, h⟩
    · refine Or.inl ?_
      unfold Forest.removeGoAt
      simp only [h]
    · refine Or.inr ⟨Forest.cons c f', st, u, ?_⟩
      unfold Forest.removeGoAt
      simp only [h]

end

mutual

/-- Every hit of `find` is an in-order entry of the tree. -/
theorem find_some_mem {K V : Type} [LinearOrder K] (b : Nat) :
    ∀ (n : Node K V) (lo d : Nat) (key : K) (v : V), Node.wf b lo d n →
      Node.find key n = some v → (key, v) ∈ Node.entries n
  | .mk ks vs es, lo, d, key, v, hwf, hfind => by
    have hv : vs.length = ks.length := by
      unfold Node.wf at hwf
      exact hwf.1
    rcases hs : Node.searchLinearGo key ks 0 with i | i
    · have hik : i < ks.length ∧ ks.get? i = some key :=
        search_found_lt (n := Node.mk ks vs es)
          (show Node.search (Node.mk ks vs es) key = .Found i from hs)
      have hvv : vs.get? i = some v := by
        unfold Node.find at hfind
        rw [search_mk_eq] at hfind
        simp only [hs] at hfind
        exact hfind
      rw [entries_mk]
      exact (zip_sublist_entriesL es.toList ks vs).subset
        (List.get?_mem (zip_get?_some ks vs i key v hik.2 hvv))
    · have hfind' : Forest.findAt key es i = some v := by
        unfold Node.find at hfind
        rw [search_mk_eq] at hfind
        simp only [hs] at hfind
        exact hfind
      cases es with
      | nil =>
        unfold Forest.findAt at hfind'
        cases hfind'
      | cons c f =>
        obtain ⟨hvl, hlo', hhi, hedge, hd, hch⟩ :=
          Node.wf_internal_elim (by intro h; cases h) hwf
        obtain ⟨c0, hgc0, hmemc⟩ := findAt_some_mem b (Forest.cons c f)
          i (d - 1) key v hch hfind'
        obtain ⟨P, S, hQ1, -⟩ := entriesL_decomp_at i
          (Forest.cons c f).toList ks vs c0
          (by rw [← Forest.length_eq]; exact hedge) hv
          (by rw [← Forest.get?_eq]; exact hgc0)
        rw [entries_mk, hQ1]
        exact List.mem_append.mpr (Or.inl (List.mem_append.mpr
          (Or.inr hmemc)))

/-- `find_some_mem` at the child of a forest. -/
theorem findAt_some_mem {K V : Type} [LinearOrder K] (b : Nat) :
    ∀ (f : Forest K V) (i e : Nat) (key : K) (v : V),
      Forest.wf b (b - 1) e f → Forest.findAt key f i = some v →
      ∃ c, f.get? i = some c ∧ (key, v) ∈ Node.entries c
  | .nil, i, e, key, v, _, hfind => by
    unfold Forest.findAt at hfind
    cases hfind
  | .cons c f, 0, e, key, v, hwf, hfind =>
    ⟨c, rfl, find_some_mem b c (b - 1) e key v hwf.1 hfind⟩
  | .cons c f, i + 1, e, key, v, hwf, hfind =>
    findAt_some_mem b f i e key v hwf.2 hfind

end

mutual

/-- On a tree whose in-order entries carry strictly increasing keys,
`find` locates every entry (completeness of the search descent). -/
theorem mem_entries_find {K V : Type} [LinearOrder K] (b : Nat) :
    ∀ (n : Node K V) (lo d : Nat) (key : K) (v : V), Node.wf b lo d n →
      ((Node.entries n).map Prod.fst).Pairwise (· < ·) →
      (key, v) ∈ Node.entries n → Node.find key n = some v
  | .mk ks vs es, lo, d, key, v, hwf, hsorted, hmem => by
    have hv : vs.length = ks.length := by
      unfold Node.wf at hwf
      exact hwf.1
    have hkp : ks.Pairwise (· < ·) := by
      refine hsorted.sublist ?_
      rw [entries_mk]
      exact keys_sublist_entriesL es.toList ks vs hv
    rcases hs : Node.searchLinearGo key ks 0 with i | i
    · -- Found: the unique value for this key sits in slot i
      have hik : i < ks.length ∧ ks.get? i = some key :=
        search_found_lt (n := Node.mk ks vs es)
          (show Node.search (Node.mk ks vs es) key = .Found i from hs)
      rcases hvv : vs.get? i with _ | w
      · rw [List.get?_eq_none] at hvv
        omega
      have hmemw : (key, w) ∈ Node.entries (Node.mk ks vs es) := by
        rw [entries_mk]
        exact (zip_sublist_entriesL es.toList ks vs).subset
          (List.get?_mem (zip_get?_some ks vs i key w hik.2 hvv))
      have hvw : v = w :=
        assoc_unique (Node.entries (Node.mk ks vs es)) key v w
          hsorted hmem hmemw
      unfold Node.find
      rw [search_mk_eq]
      simp only [hs, hvv, hvw]
    · -- GoDown: the entry can only live in the child at i
      obtain ⟨i', hi', hile, hbelow, hat⟩ :=
        searchLinearGo_goDown key ks 0 i hs
      have hi0 : i = i' := by omega
      subst hi0
      have hright : ∀ j kj, i ≤ j → ks.get? j = some kj → key < kj := by
        intro j kj hij hget
        rcases eq_or_ne j i with hj | hj
        · subst hj
          exact hat kj hget
        · have hjlt : j < ks.length := by
            rcases Nat.lt_or_ge j ks.length with h' | h'
            · exact h'
            · rw [List.get?_eq_none.mpr h'] at hget
              cases hget
          have hilt : i < ks.length := by omega
          rcases hki : ks.get? i with _ | ki
          · rw [List.get?_eq_none] at hki
            omega
          exact lt_trans (hat ki hki)
            (pairwise_lt_get? hkp (by omega) hki hget)
      cases es with
      | nil =>
        -- a leaf: the entry would have to be one of the slots
        exfalso
        have hmem' : (key, v) ∈ ks.zip vs := by
          rw [entries_mk] at hmem
          exact hmem
        obtain ⟨j, hj⟩ := List.mem_iff_get?.mp hmem'
        obtain ⟨hjk, -⟩ := zip_get?_split ks vs j key v hj
        rcases Nat.lt_or_ge j i with hji | hji
        · exact absurd (hbelow j key (by omega) hjk) (lt_irrefl key)
        · exact absurd (hright j key hji hjk) (lt_irrefl key)
      | cons c f =>
        obtain ⟨hvl, hlo', hhi, hedge, hd, hch⟩ :=
          Node.wf_internal_elim (by intro h; cases h) hwf
        have hfind := mem_entries_findAt b (Forest.cons c f) ks vs i
          (d - 1) key v hch
          (by rw [Forest.length_eq] at hedge ⊢; omega) hv
          (by rw [Forest.length_eq] at hedge ⊢; omega)
          (by rw [entries_mk] at hsorted; exact hsorted)
          (fun j kj hji hget => hbelow j kj (by omega) hget)
          hright
          (by rw [entries_mk] at hmem; exact hmem)
        unfold Node.find
        rw [search_mk_eq]
        simp only [hs]
        exact hfind

/-- The sorted-interval location argument over a forest of children. -/
theorem mem_entries_findAt {K V : Type} [LinearOrder K] (b : Nat) :
    ∀ (f : Forest K V) (ks : List K) (vs : List V) (i e : Nat)
      (key : K) (v : V),
      Forest.wf b (b - 1) e f →
      f.length = ks.length + 1 → vs.length = ks.length →
      i < f.length →
      ((entriesL f.toList ks vs).map Prod.fst).Pairwise (· < ·) →
      (∀ j kj, j < i → ks.get? j = some kj → kj < key) →
      (∀ j kj, i ≤ j → ks.get? j = some kj → key < kj) →
      (key, v) ∈ entriesL f.toList ks vs →
      Forest.findAt key f i = some v
  | .nil, ks, vs, i, e, key, v, _, hlen, _, _, _, _, _, _ => by
    rw [Forest.length_eq] at hlen
    simp at hlen
  | .cons c f, ks, vs, 0, e, key, v, hwf, hlen, hv, hrange, hsorted,
      hleft, hright, hmem => by
    rw [Forest.toList_cons, entriesL_cons] at hmem hsorted
    rw [List.map_append] at hsorted
    show Node.find key c = some v
    rcases List.mem_append.mp hmem with hmem | hmem
    · exact mem_entries_find b c (b - 1) e key v hwf.1
        (List.pairwise_append.mp hsorted).1 hmem
    · exfalso
      cases ks with
      | nil =>
        simp [entriesTail] at hmem
      | cons k0 ks' =>
        cases vs with
        | nil => simp at hv
        | cons v0 vs' =>
          have hk0 : key < k0 :=
            hright 0 k0 (Nat.le_refl 0) rfl
          simp only [entriesTail] at hmem
          rcases List.mem_cons.mp hmem with hmem | hmem
          · have : key = k0 := congrArg Prod.fst hmem
            rw [this] at hk0
            exact absurd hk0 (lt_irrefl k0)
          · have hk0' : k0 < key := by
              have hp := (List.pairwise_append.mp hsorted).2.1
              simp only [entriesTail, List.map_cons,
                List.pairwise_cons] at hp
              exact hp.1 key
                (by simpa using List.mem_map_of_mem Prod.fst hmem)
            exact absurd (lt_trans hk0 hk0') (lt_irrefl key)
  | .cons c f, ks, vs, i + 1, e, key, v, hwf, hlen, hv, hrange,
      hsorted, hleft, hright, hmem => by
    cases ks with
    | nil =>
      rw [Forest.length_eq] at hlen hrange
      simp only [Forest.toList_cons, List.length_cons,
        List.length_nil] at hlen hrange
      omega
    | cons k0 ks' =>
      cases vs with
      | nil => simp at hv
      | cons v0 vs' =>
        have hk0 : k0 < key := hleft 0 k0 (Nat.succ_pos i) rfl
        rw [Forest.toList_cons] at hmem hsorted
        have hopen : entriesL (c :: f.toList) (k0 :: ks') (v0 :: vs') =
            Node.entries c ++ (k0, v0) :: entriesL f.toList ks' vs' :=
          rfl
        rw [hopen] at hmem hsorted
        rw [List.map_append] at hsorted
        show Forest.findAt key f i = some v
        rcases List.mem_append.mp hmem with hmem | hmem
        · exfalso
          have := (List.pairwise_append.mp hsorted).2.2 key
            (by simpa using List.mem_map_of_mem Prod.fst hmem)
            k0 (by simp)
          exact absurd (lt_trans this hk0) (lt_irrefl key)
        · rcases List.mem_cons.mp hmem with hmem | hmem
          · have : key = k0 := congrArg Prod.fst hmem
            rw [this] at hk0
            exact absurd hk0 (lt_irrefl k0)
          · have hp := (List.pairwise_append.mp hsorted).2.1
            simp only [List.map_cons, List.pairwise_cons] at hp
            refine mem_entries_findAt b f ks' vs' i e key v hwf.2
              ?_ ?_ ?_ hp.2
              (fun j kj hji hget => hleft (j + 1) kj (by omega) hget)
              (fun j kj hij hget => hright (j + 1) kj (by omega) hget)
              hmem
            · rw [Forest.length_eq] at hlen ⊢
              simp only [Forest.toList_cons, List.length_cons] at hlen
              omega
            · simp only [List.length_cons] at hv
              omega
            · rw [Forest.length_eq] at hrange ⊢
              simp only [Forest.toList_cons, List.length_cons] at hrange
              omega

end
